import Mathlib

/-!
The style checks of slang-tidy: a shallow embedding and its verification.

Embedded sources (all under `tools/tidy`):

* `src/style/ConstantWidthCheck.cpp`
* `src/style/ConstantFormatting.cpp`
* `src/style/LoopsInGenerate.cpp`
* `src/style/NoLogicInPortConnections.cpp`
* `src/style/DefaultNettypeNone.cpp`
* `src/tidy.cpp` (the loop over the enabled checks)

Conventions.

* A `std::string` is a `List Char`; every `Char` stands for one byte of the
  C++ string.
* `uint64_t` / `size_t` values are `Nat`, reduced modulo `2 ^ 64` wherever the
  C++ arithmetic can wrap.
* A nullable `const SyntaxNode*` is the type `SyntaxNode`, whose constructor
  `null` is the null pointer; following `->parent` is taking the `parent`
  argument of the constructor `node`.
* A function that may leave through a C++ exception returns an `Option`,
  `none` being the exception.
-/

set_option autoImplicit false

/-! ## Shared data model -/

/-- The syntax kinds named by the embedded sources, a few neighbouring kinds of
the same enumeration (`slang/syntax/SyntaxKind.h` is generated and is not part
of the embedded sources), and `Other`, which stands for every remaining kind (the sources only ever
compare a kind with the kinds they name). -/
inductive SyntaxKind where
  | CompilationUnit
  | ModuleDeclaration
  | FunctionDeclaration
  | DataDeclaration
  | Declarator
  | EqualsValueClause
  | ContinuousAssign
  | HierarchyInstantiation
  | ExpressionStatement
  | SequentialBlockStatement
  | DelayControl
  | Delay3
  | ParameterDeclarationStatement
  | ParameterDeclaration
  | ParameterPortList
  | ElementSelectExpression
  | ElementSelect
  | IdentifierSelectName
  | BitSelect
  | SimpleRangeSelect
  | AscendingRangeSelect
  | DescendingRangeSelect
  | VariableDimension
  | ForLoopStatement
  | LoopGenerate
  | GenerateRegion
  | GenerateBlock
  | AlwaysBlock
  | AlwaysCombBlock
  | AlwaysFFBlock
  | AlwaysLatchBlock
  | InitialBlock
  | FinalBlock
  | IdentifierName
  | EmptyIdentifierName
  | ScopedName
  | IntegerLiteralExpression
  | IntegerVectorExpression
  | RealLiteralExpression
  | StringLiteralExpression
  | UnbasedUnsizedLiteralExpression
  | NullLiteralExpression
  | TimeLiteralExpression
  | WildcardLiteralExpression
  | BitType
  | MemberAccessExpression
  | ConcatenationExpression
  | ParenthesizedExpression
  | ConditionalExpression
  | InvocationExpression
  | UnaryPlusExpression
  | UnaryMinusExpression
  | UnaryBitwiseNotExpression
  | UnaryLogicalNotExpression
  | UnaryBitwiseAndExpression
  | UnaryBitwiseOrExpression
  | UnaryBitwiseXorExpression
  | AddExpression
  | SubtractExpression
  | MultiplyExpression
  | DivideExpression
  | BinaryAndExpression
  | BinaryOrExpression
  | BinaryXorExpression
  | LogicalAndExpression
  | LogicalOrExpression
  | EqualityExpression
  | InequalityExpression
  | LessThanExpression
  | GreaterThanExpression
  | LogicalShiftLeftExpression
  | LogicalShiftRightExpression
  | SimplePropertyExpr
  | SimpleSequenceExpr
  | Other
  deriving DecidableEq, Repr

/-- A `SourceLocation`: the buffer it lies in and the byte offset in it. -/
structure SourceLocation where
  buffer : Nat
  offset : Nat
  deriving DecidableEq, Repr

/-- A `const SyntaxNode*` as the checks navigate it upwards: `null`, or a node
with its `kind`, its text as `SyntaxPrinter().setIncludeTrivia(false)` prints
it, the start of its `sourceRange()`, and its `parent`. -/
inductive SyntaxNode where
  | null : SyntaxNode
  | node (kind : SyntaxKind) (text : List Char) (start : SourceLocation)
      (parent : SyntaxNode) : SyntaxNode
  deriving DecidableEq, Repr

/-- The `parent` pointer of a node (`null` has none). -/
def SyntaxNode.parent : SyntaxNode → SyntaxNode
  | .null => .null
  | .node _ _ _ p => p

/-- The diagnostic codes of the embedded checks (`TidyDiags.h`). -/
inductive DiagCode where
  | ConstantFormatting
  | ConstantWidthCheck
  | DefaultNettypeNone
  | LoopsInGenerate
  | NoLogicInPortConnections
  | OtherCode (n : Nat)
  deriving DecidableEq, Repr

/-- What `diags.add(code, location) << message` appends to a `Diagnostics`. -/
structure Diagnostic where
  code : DiagCode
  location : SourceLocation
  message : String
  deriving DecidableEq, Repr

/-- An `ast::IntegerLiteral` as the visitors use it: the `syntax` pointer
(`null` when the expression has no syntax) and the start of its `sourceRange`. -/
structure IntegerLiteral where
  syntaxNode : SyntaxNode
  sourceRange : SourceLocation
  deriving DecidableEq, Repr

/-- The apostrophe that separates width and base in a sized literal. -/
def apostrophe : Char := Char.ofNat 39

/-- The character class `[0-9]` of the regular expressions. -/
def isDecDigit (c : Char) : Bool := decide ('0' ≤ c) && decide (c ≤ '9')

/-- The character class `[bBoOdDhH]` of the regular expressions. -/
def isBaseChar (c : Char) : Bool :=
  c == 'b' || c == 'B' || c == 'o' || c == 'O' || c == 'd' || c == 'D' || c == 'h' || c == 'H'

/-- What `.` matches in an ECMAScript `std::regex`: any character that is not a
line terminator. -/
def isRegexDot (c : Char) : Bool := !(c == '\n' || c == '\r')

/-- The value of a string of decimal digits, most significant digit first. -/
def decimalValue (ds : List Char) : Nat :=
  ds.foldl (fun acc c => acc * 10 + (c.toNat - '0'.toNat)) 0

/-! ## ConstantWidthCheck.cpp -/

namespace ConstantWidthCheck

/-- Embeds `UINT64_MAX`. -/
def UINT64_MAX : Nat := 2 ^ 64 - 1

/-- Embeds `INT_MAX` for the 32-bit `int` that `std::stoi` returns. -/
def INT_MAX : Nat := 2 ^ 31 - 1

/-- Embeds `std::tolower` in the C locale. -/
def tolower (c : Char) : Char :=
  if 'A' ≤ c ∧ c ≤ 'Z' then Char.ofNat (c.toNat + 32) else c

/-- Embeds `std::isxdigit` in the C locale. -/
def isxdigit (c : Char) : Bool :=
  (decide ('0' ≤ c) && decide (c ≤ '9')) || (decide ('a' ≤ c) && decide (c ≤ 'f')) ||
    (decide ('A' ≤ c) && decide (c ≤ 'F'))

/-- Embeds `std::stoi` on a string of decimal digits (the only strings group 1 of
`sized_pattern` can hold): the value, or `none` for the `std::out_of_range`
it throws when the value does not fit an `int`. -/
def stoi (ds : List Char) : Option Nat :=
  if decimalValue ds ≤ INT_MAX then some (decimalValue ds) else none

/-- Embeds `std::regex_match(text, match, sized_pattern)` with
`sized_pattern = "^([0-9]+)'([bBoOdDhH])(.+)$"`: the three groups when the
whole text matches. Group 1 is followed by an apostrophe, which is no digit,
so it is the longest prefix of digits. -/
def matchSized (text : List Char) : Option (List Char × Char × List Char) :=
  match text.span isDecDigit with
  | (width, q :: b :: v :: vs) =>
      if !width.isEmpty && q == apostrophe && isBaseChar b && (v :: vs).all isRegexDot then
        some (width, b, v :: vs)
      else none
  | _ => none

/-- The `for (char c : valueStr)` loop of `isValidForBase`. -/
def isValidForBaseLoop (base : Char) : List Char → Bool
  | [] => true
  | c :: cs =>
      if c = '_' then isValidForBaseLoop base cs
      else if base = 'b' then
        if c ≠ '0' ∧ c ≠ '1' then false else isValidForBaseLoop base cs
      else if base = 'o' then
        if c < '0' ∨ c > '7' then false else isValidForBaseLoop base cs
      else if base = 'd' then
        if c < '0' ∨ c > '9' then false else isValidForBaseLoop base cs
      else if base = 'h' then
        if !isxdigit c then false else isValidForBaseLoop base cs
      else false

/-- Embeds `MainVisitor::isValidForBase`. -/
def isValidForBase (valueStr : List Char) (base : Char) : Bool :=
  if valueStr.isEmpty then false else isValidForBaseLoop base valueStr

/-- The digit a character stands for in `parseValueByBase` (`none` is the
final `else` branch, which returns `UINT64_MAX`). -/
def digitOf (c : Char) : Option Nat :=
  if '0' ≤ c ∧ c ≤ '9' then some (c.toNat - '0'.toNat)
  else if 'a' ≤ c ∧ c ≤ 'f' then some (c.toNat - 'a'.toNat + 10)
  else if 'A' ≤ c ∧ c ≤ 'F' then some (c.toNat - 'A'.toNat + 10)
  else none

/-- The `for (char c : cleanValue)` loop of `parseValueByBase`, from the
accumulator `result`; the accumulator is a `uint64_t`. -/
def parseLoop (baseValue : Nat) : List Char → Nat → Nat
  | [], result => result
  | c :: cs, result =>
      match digitOf c with
      | none => UINT64_MAX
      | some digit =>
          if digit ≥ baseValue then UINT64_MAX
          else if result > (UINT64_MAX - digit) / baseValue then UINT64_MAX
          else parseLoop baseValue cs ((result * baseValue + digit) % 2 ^ 64)

/-- Embeds `MainVisitor::parseValueByBase`; `UINT64_MAX` is its failure value. -/
def parseValueByBase (valueStr : List Char) (base : Char) : Nat :=
  if !isValidForBase valueStr base then UINT64_MAX
  else
    let cleanValue := valueStr.filter (fun c => c != '_')
    if cleanValue.isEmpty then UINT64_MAX
    else if base = 'b' then parseLoop 2 cleanValue 0
    else if base = 'o' then parseLoop 8 cleanValue 0
    else if base = 'd' then parseLoop 10 cleanValue 0
    else if base = 'h' then parseLoop 16 cleanValue 0
    else UINT64_MAX

/-- The message of the width diagnostic. -/
def widthMessage (originalValue : Nat) (text : List Char) (declaredWidth maxVal : Nat) : String :=
  "constant value " ++ toString originalValue ++ " in '" ++ String.mk text ++ "' overflows " ++
    toString declaredWidth ++ "-bit width (max value: " ++ toString maxVal ++ ")"

/-- Embeds `MainVisitor::handle(const IntegerLiteral&)`: the diagnostics it adds, or
`none` when `std::stoi` throws. -/
def handle (literal : IntegerLiteral) : Option (List Diagnostic) :=
  match literal.syntaxNode with
  | .null => some []
  | .node _ text _ _ =>
      match matchSized text with
      | none => some []
      | some (widthStr, baseChar, valueStr) =>
          match stoi widthStr with
          | none => none
          | some declaredWidth =>
              let base := tolower baseChar
              if declaredWidth ≥ 64 ∨ declaredWidth ≤ 0 then some []
              else
                let originalValue := parseValueByBase valueStr base
                if originalValue = UINT64_MAX then some []
                else
                  let maxVal := ((1 <<< declaredWidth) % 2 ^ 64 + 2 ^ 64 - 1) % 2 ^ 64
                  if originalValue > maxVal then
                    some [⟨DiagCode.ConstantWidthCheck, literal.sourceRange,
                      widthMessage originalValue text declaredWidth maxVal⟩]
                  else some []

end ConstantWidthCheck

/-! ## ConstantFormatting.cpp -/

namespace ConstantFormatting

/-- The test `node && node->kind == kind` on a nullable pointer. -/
def hasKind (node : SyntaxNode) (kind : SyntaxKind) : Bool :=
  match node with
  | .null => false
  | .node k _ _ _ => k == kind

/-- Embeds `MainVisitor::isTimingDelay`: the parent or the grandparent is a
`DelayControl`. -/
def isTimingDelay (expr : IntegerLiteral) : Bool :=
  match expr.syntaxNode with
  | .null => false
  | .node _ _ _ parent =>
      if hasKind parent .DelayControl then true
      else if parent != .null && hasKind parent.parent .DelayControl then true
      else false

/-- The `while (parent && depth < 5)` loop of `isParameterAssignment`. -/
def isParameterAssignmentLoop : SyntaxNode → Nat → Bool
  | .null, _ => false
  | .node kind _ _ parent, depth =>
      if depth < 5 then
        if kind = .ParameterDeclarationStatement ∨ kind = .ParameterDeclaration ∨
            kind = .ParameterPortList then true
        else isParameterAssignmentLoop parent (depth + 1)
      else false

/-- Embeds `MainVisitor::isParameterAssignment`. -/
def isParameterAssignment (expr : IntegerLiteral) : Bool :=
  match expr.syntaxNode with
  | .null => false
  | .node _ _ _ parent => isParameterAssignmentLoop parent 0

/-- The `while (parent && parent->kind != SyntaxKind::CompilationUnit)` loop
shared by `isBitSelect`, `isRangeSelect`, `isArrayDimension` and
`isGenerateLoopBound`; `target` is the disjunction of kind tests in its body. -/
def ancestorLoop (target : SyntaxKind → Bool) : SyntaxNode → Bool
  | .null => false
  | .node kind _ _ parent =>
      if kind ≠ .CompilationUnit then
        if target kind then true else ancestorLoop target parent
      else false

/-- Embeds `MainVisitor::isBitSelect`. -/
def isBitSelect (expr : IntegerLiteral) : Bool :=
  match expr.syntaxNode with
  | .null => false
  | .node _ _ _ parent =>
      ancestorLoop (fun k => k == .ElementSelectExpression || k == .IdentifierSelectName ||
        k == .BitSelect) parent

/-- Embeds `MainVisitor::isRangeSelect`. -/
def isRangeSelect (expr : IntegerLiteral) : Bool :=
  match expr.syntaxNode with
  | .null => false
  | .node _ _ _ parent =>
      ancestorLoop (fun k => k == .SimpleRangeSelect || k == .AscendingRangeSelect ||
        k == .DescendingRangeSelect) parent

/-- Embeds `MainVisitor::isArrayDimension`. -/
def isArrayDimension (expr : IntegerLiteral) : Bool :=
  match expr.syntaxNode with
  | .null => false
  | .node _ _ _ parent => ancestorLoop (fun k => k == .VariableDimension) parent

/-- Embeds `MainVisitor::isGenerateLoopBound`. -/
def isGenerateLoopBound (expr : IntegerLiteral) : Bool :=
  match expr.syntaxNode with
  | .null => false
  | .node _ _ _ parent =>
      ancestorLoop (fun k => k == .ForLoopStatement || k == .LoopGenerate) parent

/-- The `for (int i = cleanBinary.length() - 1; i >= 0; i--)` loop of
`formatBinaryWithUnderscores`: the first argument holds the characters still to
visit, `cleanBinary[i]` first (so it is a reversed prefix of `cleanBinary`),
then the `result` built so far and `count`. -/
def formatLoop : List Char → List Char → Nat → List Char
  | [], result, _ => result
  | c :: rest, result, count =>
      let result := if count > 0 ∧ count % 4 = 0 then '_' :: result else result
      formatLoop rest (c :: result) (count + 1)

/-- Embeds `MainVisitor::formatBinaryWithUnderscores`. -/
def formatBinaryWithUnderscores (cleanBinary : List Char) : List Char :=
  if cleanBinary.length ≤ 4 then cleanBinary
  else formatLoop cleanBinary.reverse [] 0

/-- Embeds `std::regex_replace(binary, std::regex("_"), "")`. -/
def removeUnderscores (binary : List Char) : List Char :=
  binary.filter (fun c => c != '_')

/-- Embeds `MainVisitor::isProperlyFormattedBinary`. -/
def isProperlyFormattedBinary (binary : List Char) : Bool :=
  let clean := removeUnderscores binary
  let expected := formatBinaryWithUnderscores clean
  binary == expected

/-- Embeds `std::regex_match(text, std::regex("^[0-9]+$"))`. -/
def matchUnsizedDecimal (text : List Char) : Bool :=
  !text.isEmpty && text.all isDecDigit

/-- The character class `[0-9a-fA-F_]`. -/
def isHexDigitOrUnderscore (c : Char) : Bool :=
  (decide ('0' ≤ c) && decide (c ≤ '9')) || (decide ('a' ≤ c) && decide (c ≤ 'f')) ||
    (decide ('A' ≤ c) && decide (c ≤ 'F')) || c == '_'

/-- Embeds `std::regex_match(text, std::regex("^'[bBoOdDhH][0-9a-fA-F_]+$"))`. -/
def matchUnsizedBased (text : List Char) : Bool :=
  match text with
  | q :: b :: d :: ds => q == apostrophe && isBaseChar b && (d :: ds).all isHexDigitOrUnderscore
  | _ => false

/-- The character class `[01_]`. -/
def isBinDigitOrUnderscore (c : Char) : Bool := c == '0' || c == '1' || c == '_'

/-- Embeds `std::regex_match(text, match, std::regex("^([0-9]+)'[bB]([01_]+)$"))`:
the two groups when the whole text matches. -/
def matchSizedBinary (text : List Char) : Option (List Char × List Char) :=
  match text.span isDecDigit with
  | (width, q :: b :: d :: ds) =>
      if !width.isEmpty && q == apostrophe && (b == 'b' || b == 'B') &&
          (d :: ds).all isBinDigitOrUnderscore then
        some (width, d :: ds)
      else none
  | _ => none

/-- The message for an unsized decimal constant. -/
def unsizedDecimalMessage (text : List Char) : String :=
  "All constants other than 0 and 1 must be sized (e.g., 18'd" ++ String.mk text ++
    " instead of " ++ String.mk text ++ ")"

/-- The message for an unsized based constant. -/
def unsizedBasedMessage (text : List Char) : String :=
  "Constants must be sized (e.g., 8" ++ String.mk text ++ " instead of " ++ String.mk text ++ ")"

/-- The message for a binary constant that is not grouped. -/
def binaryGroupingMessage (width properFormat : List Char) : String :=
  "Binary constants of more than 4 bits must be separated every 4 places with underscores (e.g., " ++
    String.mk width ++ "'b" ++ String.mk properFormat ++ ")"

/-- Embeds `MainVisitor::handle(const IntegerLiteral&)`: the diagnostics it adds. -/
def handle (expr : IntegerLiteral) : List Diagnostic :=
  match expr.syntaxNode with
  | .null => []
  | .node _ text location _ =>
      if isTimingDelay expr then []
      else if isParameterAssignment expr then []
      else if isBitSelect expr then []
      else if isRangeSelect expr then []
      else if isArrayDimension expr then []
      else if isGenerateLoopBound expr then []
      else if matchUnsizedDecimal text then
        if text ≠ ['0'] ∧ text ≠ ['1'] then
          [⟨DiagCode.ConstantFormatting, location, unsizedDecimalMessage text⟩]
        else []
      else if matchUnsizedBased text then
        [⟨DiagCode.ConstantFormatting, location, unsizedBasedMessage text⟩]
      else
        match matchSizedBinary text with
        | some (width, binary) =>
            let cleanBinary := removeUnderscores binary
            if cleanBinary.length > 4 then
              if !isProperlyFormattedBinary binary then
                let properFormat := formatBinaryWithUnderscores cleanBinary
                [⟨DiagCode.ConstantFormatting, location, binaryGroupingMessage width properFormat⟩]
              else []
            else []
        | none => []

end ConstantFormatting

/-! ## LoopsInGenerate.cpp -/

namespace LoopsInGenerate

/-- A `ForLoopStatementSyntax`: the node and the location of its `forKeyword`. -/
structure ForLoopStatementSyntax where
  node : SyntaxNode
  forKeyword : SourceLocation
  deriving DecidableEq, Repr

/-- A `LoopGenerateSyntax`: the node and the location of its `keyword`. -/
structure LoopGenerateSyntax where
  node : SyntaxNode
  keyword : SourceLocation
  deriving DecidableEq, Repr

/-- The `LoopVisitor` after a visit: the loops its two `handle` overloads were
called on, in visiting order. -/
structure LoopVisitor where
  foundForLoops : List ForLoopStatementSyntax
  foundGenerateLoops : List LoopGenerateSyntax
  deriving DecidableEq, Repr

/-- The function `isInsideGenerateOrProcedural`; the walk starts at the node itself. -/
def isInsideGenerateOrProcedural : SyntaxNode → Bool
  | .null => false
  | .node kind _ _ parent =>
      if kind = .GenerateRegion ∨ kind = .GenerateBlock then true
      else if kind = .AlwaysBlock ∨ kind = .AlwaysCombBlock ∨ kind = .AlwaysFFBlock ∨
          kind = .InitialBlock ∨ kind = .FinalBlock then true
      else isInsideGenerateOrProcedural parent

/-- The two `for` loops over `visitor.foundForLoops` and
`visitor.foundGenerateLoops`, the same in both `handle` overloads of
`MainVisitor`. -/
def report (visitor : LoopVisitor) : List Diagnostic :=
  ((visitor.foundForLoops.filter (fun loop => !isInsideGenerateOrProcedural loop.node)).map
      (fun loop => (⟨DiagCode.LoopsInGenerate, loop.forKeyword, ""⟩ : Diagnostic))) ++
  ((visitor.foundGenerateLoops.filter
      (fun genLoop => !isInsideGenerateOrProcedural genLoop.node)).map
      (fun genLoop => (⟨DiagCode.LoopsInGenerate, genLoop.keyword, ""⟩ : Diagnostic)))

/-- Embeds `MainVisitor::handle(const InstanceBodySymbol&)`: `needsSkip` is what the
macro `NEEDS_SKIP_SYMBOL` decides, `body` the `LoopVisitor` after visiting
`symbol.getSyntax()`, or `none` when that pointer is null. -/
def handleInstanceBody (needsSkip : Bool) (body : Option LoopVisitor) : List Diagnostic :=
  if needsSkip then []
  else
    match body with
    | none => []
    | some visitor => report visitor

/-- Embeds `MainVisitor::handle(const RootSymbol&)`: one `LoopVisitor` per syntax tree
of the compilation, each after visiting the root of its tree. -/
def handleRoot (trees : List LoopVisitor) : List Diagnostic :=
  trees.flatMap report

end LoopsInGenerate

/-! ## NoLogicInPortConnections.cpp -/

namespace NoLogicInPortConnections

/-- An `ExpressionSyntax` as the check navigates it downwards: its `kind`, the
start of its `sourceRange()` and its child expressions; for a
`ConcatenationExpressionSyntax` the children are its `expressions`. -/
inductive ExpressionSyntax where
  | node (kind : SyntaxKind) (sourceRange : SourceLocation)
      (children : List ExpressionSyntax) : ExpressionSyntax

/-- The member `kind`. -/
def ExpressionSyntax.kind : ExpressionSyntax → SyntaxKind
  | .node k _ _ => k

/-- The member `sourceRange()`. -/
def ExpressionSyntax.sourceRange : ExpressionSyntax → SourceLocation
  | .node _ r _ => r

/-- The member `expressions` of a `ConcatenationExpressionSyntax`. -/
def ExpressionSyntax.expressions : ExpressionSyntax → List ExpressionSyntax
  | .node _ _ cs => cs

/-- A `SequenceExprSyntax`: a `SimpleSequenceExprSyntax` with its `expr`, or a
sequence expression of any other kind. -/
inductive SequenceExprSyntax where
  | SimpleSequenceExpr (expr : ExpressionSyntax)
  | OtherSequenceExpr

/-- A `PropertyExprSyntax`: a `SimplePropertyExprSyntax` with its `expr`, or a
property expression of any other kind. -/
inductive PropertyExprSyntax where
  | SimplePropertyExpr (expr : SequenceExprSyntax)
  | OtherPropertyExpr

/-- A `NamedPortConnectionSyntax`: `name.valueText()`, whether the token
`openParen` is present, and the nullable `expr`. -/
structure NamedPortConnectionSyntax where
  name : String
  openParen : Bool
  expr : Option PropertyExprSyntax

/-- The struct `PortConnectionVisitor::LogicPort`. -/
structure LogicPort where
  expr : ExpressionSyntax
  portName : String

/-- Embeds `PortConnectionVisitor::extractExpressionFromSequence`. -/
def extractExpressionFromSequence (sequence : SequenceExprSyntax) : Option ExpressionSyntax :=
  match sequence with
  | .SimpleSequenceExpr expr => some expr
  | .OtherSequenceExpr => none

/-- Embeds `PortConnectionVisitor::extractExpressionFromProperty`. -/
def extractExpressionFromProperty (property : PropertyExprSyntax) : Option ExpressionSyntax :=
  match property with
  | .SimplePropertyExpr expr => extractExpressionFromSequence expr
  | .OtherPropertyExpr => none

/-- Embeds `PortConnectionVisitor::isIdentifierLikeExpression`. -/
def isIdentifierLikeExpression (kind : SyntaxKind) : Bool :=
  kind == .IdentifierName || kind == .IdentifierSelectName || kind == .EmptyIdentifierName

/-- Embeds `PortConnectionVisitor::isAllowedInPortConnection`. -/
def isAllowedInPortConnection (kind : SyntaxKind) : Bool :=
  isIdentifierLikeExpression kind || kind == .IntegerLiteralExpression ||
    kind == .IntegerVectorExpression || kind == .UnbasedUnsizedLiteralExpression ||
    kind == .NullLiteralExpression || kind == .TimeLiteralExpression ||
    kind == .WildcardLiteralExpression || kind == .ElementSelectExpression ||
    kind == .BitSelect || kind == .BitType

/-- Embeds `PortConnectionVisitor::checkExpression`: the entries it pushes to
`foundPorts`. -/
def checkExpression (expr : ExpressionSyntax) (portName : String) : List LogicPort :=
  let kind := expr.kind
  if isIdentifierLikeExpression kind then []
  else if kind == .IntegerLiteralExpression || kind == .IntegerVectorExpression ||
      kind == .RealLiteralExpression || kind == .StringLiteralExpression ||
      kind == .UnbasedUnsizedLiteralExpression || kind == .NullLiteralExpression ||
      kind == .TimeLiteralExpression || kind == .WildcardLiteralExpression then []
  else if kind == .ElementSelectExpression || kind == .IdentifierSelectName ||
      kind == .BitSelect || kind == .BitType then []
  else if kind == .MemberAccessExpression then []
  else if kind == .ConcatenationExpression &&
      expr.expressions.all (fun element => isAllowedInPortConnection element.kind) then []
  else [⟨expr, portName⟩]

/-- Embeds `PortConnectionVisitor::handle(const NamedPortConnectionSyntax&)`: the
entries it pushes to `foundPorts`. -/
def handlePort (port : NamedPortConnectionSyntax) : List LogicPort :=
  if port.openParen then
    match port.expr with
    | none => []
    | some property =>
        match extractExpressionFromProperty property with
        | some expr => checkExpression expr port.name
        | none => []
  else []

/-- The message of the diagnostic for a port. -/
def logicMessage (portName : String) : String :=
  "logic expression in port connection '" ++ portName ++
    "' (move logic outside the port instantiation for Quartus compatibility)"

/-- Embeds `MainVisitor::handle(const InstanceBodySymbol&)`: `needsSkip` is what the
macro `NEEDS_SKIP_SYMBOL` decides, `ports` the named port connections that the
`PortConnectionVisitor` is called on while visiting `symbol.getSyntax()`, or
`none` when that pointer is null. -/
def handleInstanceBody (needsSkip : Bool) (ports : Option (List NamedPortConnectionSyntax)) :
    List Diagnostic :=
  if needsSkip then []
  else
    match ports with
    | none => []
    | some ports =>
        (ports.flatMap handlePort).map (fun port =>
          (⟨DiagCode.NoLogicInPortConnections, port.expr.sourceRange,
            logicMessage port.portName⟩ : Diagnostic))

end NoLogicInPortConnections

/-! ## DefaultNettypeNone.cpp -/

namespace DefaultNettypeNone

/-- The string literal searched first: a grave accent and `default_nettype`. -/
def directive : List Char :=
  [Char.ofNat 96, 'd', 'e', 'f', 'a', 'u', 'l', 't', '_', 'n', 'e', 't', 't', 'y', 'p', 'e']

/-- The string literal `"none"`. -/
def noneText : List Char := ['n', 'o', 'n', 'e']

/-- The search of `std::string_view::find` below position `index`: `rest` is
the text from `index` on. -/
def findAt (needle : List Char) : List Char → Nat → Option Nat
  | [], index => if needle.isEmpty then some index else none
  | c :: cs, index =>
      if needle.isPrefixOf (c :: cs) then some index else findAt needle cs (index + 1)

/-- Embeds `text.find(needle, pos)`: the first position at or after `pos` where
`needle` occurs, `none` being `npos`. -/
def find (text needle : List Char) (pos : Nat) : Option Nat :=
  if pos > text.length then none else findAt needle (text.drop pos) pos

/-- Embeds `text.substr(start, count)`: `none` is the `std::out_of_range` thrown when
`start` lies behind the end. -/
def substr (text : List Char) (start count : Nat) : Option (List Char) :=
  if start > text.length then none else some ((text.drop start).take count)

/-- The `for (char c : between)` loop: only blanks and tabs. -/
def onlyWhitespace (between : List Char) : Bool :=
  between.all (fun c => !(c != ' ' && c != '\t'))

/-- The difference `a - b` of two `size_t` values: it wraps around modulo
`2 ^ 64` when `a < b`. -/
def sizeSub (a b : Nat) : Nat :=
  if b ≤ a then a - b else a + 2 ^ 64 - b

/-- The `while (pos != std::string_view::npos)` loop of `checkSyntaxTree`, run
for at most `fuel` iterations from `pos`. The result is `some (some b)` when
the loop ends with `hasDefaultNettypeNone = b`, `some none` when `substr`
throws, and `none` when the fuel runs out. -/
def scanLoop (text : List Char) : Nat → Option Nat → Option (Option Bool)
  | _, none => some (some false)
  | 0, some _ => none
  | fuel + 1, some pos =>
      match find text noneText pos with
      | some nonePos =>
          if sizeSub nonePos pos < 20 then
            match substr text (pos + 16) (sizeSub (sizeSub nonePos pos) 16) with
            | none => some none
            | some between =>
                if onlyWhitespace between then some (some true)
                else scanLoop text fuel (find text directive (pos + 1))
          else scanLoop text fuel (find text directive (pos + 1))
      | none => scanLoop text fuel (find text directive (pos + 1))

/-- The value of `hasDefaultNettypeNone` after the loop; every iteration moves
`pos` forward, so `text.length + 1` iterations are enough. -/
def hasDefaultNettypeNone (text : List Char) : Option (Option Bool) :=
  scanLoop text (text.length + 1) (find text directive 0)

/-- A `SyntaxTree` as `checkSyntaxTree` uses it: `root().sourceRange().start()`. -/
structure SyntaxTree where
  rootStart : SourceLocation
  deriving DecidableEq, Repr

/-- Embeds `MainVisitor::checkSyntaxTree`: `getSourceText` is
`sourceManager.getSourceText`, from a buffer to its text. The result is the
list of diagnostics added, `none` when the function does not return normally. -/
def checkSyntaxTree (getSourceText : Nat → List Char) (tree : SyntaxTree) :
    Option (List Diagnostic) :=
  let text := getSourceText tree.rootStart.buffer
  match hasDefaultNettypeNone text with
  | some (some true) => some []
  | some (some false) => some [⟨DiagCode.DefaultNettypeNone, tree.rootStart, ""⟩]
  | _ => none

/-- The loop of `MainVisitor::handle(const RootSymbol&)` over the syntax trees. -/
def handleRoot (getSourceText : Nat → List Char) : List SyntaxTree → Option (List Diagnostic)
  | [] => some []
  | tree :: trees =>
      match checkSyntaxTree getSourceText tree with
      | none => none
      | some ds =>
          match handleRoot getSourceText trees with
          | none => none
          | some rest => some (ds ++ rest)

end DefaultNettypeNone

/-! ## tidy.cpp -/

namespace Tidy

/-- The enumeration `slang::DiagnosticSeverity`. -/
inductive DiagnosticSeverity where
  | Ignored
  | Note
  | Warning
  | Error
  | Fatal
  deriving DecidableEq, Repr

/-- A check made by `Registry::create(checkName)`, together with what its
visitor finds in the compilation at hand: `name()`, `diagCode()`, the severity
given by the configuration (the `std::optional` passed to the constructor),
`diagDefaultSeverity()`, and the location and message of every
`diags.add(diagCode(), location) << message` of its visitor, in order. Each
check of `src/style` adds diagnostics with its own code only. -/
structure TidyCheck where
  name : String
  diagCode : DiagCode
  severity : Option DiagnosticSeverity
  diagDefaultSeverity : DiagnosticSeverity
  findings : List (SourceLocation × String)
  deriving DecidableEq, Repr

/-- Modelled from the spec: `TidyCheck::diagSeverity()` of `TidyCheck.h`, the
effective severity of a rule, where "an override from config takes precedence
over the rule's default severity". -/
def TidyCheck.diagSeverity (check : TidyCheck) : DiagnosticSeverity :=
  check.severity.getD check.diagDefaultSeverity

/-- Embeds `TidyCheck::getDiagnostics()` after `check` has run. -/
def TidyCheck.getDiagnostics (check : TidyCheck) : List Diagnostic :=
  check.findings.map (fun f => ⟨check.diagCode, f.1, f.2⟩)

/-- The member `check(root, analysisManager)`, which every check of `src/style`
ends with `return diagnostics.empty();`. -/
def TidyCheck.check (check : TidyCheck) : Bool :=
  check.getDiagnostics.isEmpty

/-- Modelled from the spec: the severity table of `driver.diagEngine`
(`DiagnosticEngine` is not part of the embedded sources), which gives every
diagnostic code its effective severity. -/
structure DiagnosticEngine where
  severityTable : DiagCode → DiagnosticSeverity

/-- Modelled from the spec: `DiagnosticEngine::setSeverity(code, severity)`. -/
def DiagnosticEngine.setSeverity (engine : DiagnosticEngine) (code : DiagCode)
    (severity : DiagnosticSeverity) : DiagnosticEngine :=
  ⟨fun c => if c = code then severity else engine.severityTable c⟩

/-- Modelled from the spec: `DiagnosticEngine::getSeverity(code, location)`,
the effective severity of a diagnostic. -/
def DiagnosticEngine.getSeverity (engine : DiagnosticEngine) (code : DiagCode)
    (_location : SourceLocation) : DiagnosticSeverity :=
  engine.severityTable code

/-- The local variables of `main` that the loop over the enabled checks
updates, and the severity table of `driver.diagEngine`. -/
structure RunState where
  retCode : Nat
  totalErrors : Nat
  totalWarnings : Nat
  totalNotes : Nat
  passedChecks : Nat
  failedChecks : Nat
  failedRuleNames : List String
  diagEngine : DiagnosticEngine

/-- The state before the loop. -/
def RunState.initial (diagEngine : DiagnosticEngine) : RunState :=
  ⟨0, 0, 0, 0, 0, 0, [], diagEngine⟩

/-- The body of `for (const auto& diag : check->getDiagnostics())`, the
`switch (severity)` that counts a diagnostic. -/
def countDiagnostic (st : RunState) (diag : Diagnostic) : RunState :=
  match st.diagEngine.getSeverity diag.code diag.location with
  | .Note => { st with totalNotes := st.totalNotes + 1 }
  | .Warning => { st with totalWarnings := st.totalWarnings + 1 }
  | .Error => { st with totalErrors := st.totalErrors + 1 }
  | .Fatal => { st with totalErrors := st.totalErrors + 1 }
  | _ => st

/-- The `if (!quiet) { ... }` block that prints the verdict of a failed check
and sets `retCode`; printing is left out. -/
def verdict (quiet : Bool) (st : RunState) (check : TidyCheck) : RunState :=
  if !quiet then
    if check.diagSeverity = .Ignored then st
    else if check.diagSeverity = .Note then st
    else if check.diagSeverity = .Warning then st
    else if check.diagSeverity = .Error ∨ check.diagSeverity = .Fatal then
      { st with retCode := 1 }
    else st
  else st

/-- The body of `for (const auto& checkName : Registry::getEnabledChecks())`;
printing is left out. -/
def runCheck (quiet : Bool) (st : RunState) (check : TidyCheck) : RunState :=
  let st := { st with
    diagEngine := st.diagEngine.setSeverity check.diagCode check.diagSeverity }
  let checkOk := check.check
  if !checkOk then
    let st := { st with
      failedChecks := st.failedChecks + 1
      failedRuleNames := st.failedRuleNames ++ [check.name] }
    let st := check.getDiagnostics.foldl countDiagnostic st
    verdict quiet st check
  else
    { st with passedChecks := st.passedChecks + 1 }

/-- The loop over the enabled checks, from the state `st`. -/
def runChecks (quiet : Bool) (st : RunState) (checks : List TidyCheck) : RunState :=
  checks.foldl (runCheck quiet) st

/-- The function `main` from `int retCode = 0;` to `return retCode;`, for a
run that reaches the loop: `quietArg` and `superQuietArg` are the two
command-line options, `checks` the checks of `Registry::getEnabledChecks()`
in order. The result is the exit code. -/
def main (quietArg superQuietArg : Option Bool) (diagEngine : DiagnosticEngine)
    (checks : List TidyCheck) : Nat :=
  let superQuiet := superQuietArg.getD false
  let quiet := quietArg.getD false || superQuiet
  (runChecks quiet (RunState.initial diagEngine) checks).retCode

end Tidy

/-! ## Notions the properties are stated with -/

namespace ConstantFormatting

/-- The literal is in one of the six contexts in which `handle` returns before
looking at the text. -/
def isExempt (expr : IntegerLiteral) : Bool :=
  isTimingDelay expr || isParameterAssignment expr || isBitSelect expr ||
    isRangeSelect expr || isArrayDimension expr || isGenerateLoopBound expr

/-- The grouping a binary digit part should have, in the words of the
specification: counted from the least significant (last) character, the
positions 4, 9, 14, ... hold an underscore and no other position does, an
underscore being a separator, so that the digit part does not begin with one. -/
def GroupedEveryFour (digits : List Char) : Prop :=
  (∀ i, i < digits.length → (digits.reverse[i]? = some '_' ↔ i % 5 = 4)) ∧
    digits.head? ≠ some '_'

instance (digits : List Char) : Decidable (GroupedEveryFour digits) := by
  unfold GroupedEveryFour; infer_instance

/-- The characters `formatLoop` emits, in emission order (least significant
first), when `count` digits were emitted before. -/
def groupRev : List Char → Nat → List Char
  | [], _ => []
  | c :: rest, count =>
      if count > 0 ∧ count % 4 = 0 then '_' :: c :: groupRev rest (count + 1)
      else c :: groupRev rest (count + 1)

/-- The positional grouping property for a suffix that starts at position
`offset` from the least significant character. -/
def GroupedFrom : List Char → Nat → Prop
  | [], _ => True
  | c :: rest, offset => (c = '_' ↔ offset % 5 = 4) ∧ GroupedFrom rest (offset + 1)

/-- The position in the output at which `formatLoop` stands after `count`
digits, modulo 5. -/
def Link (count offset : Nat) : Prop :=
  (count = 0 ∧ offset % 5 = 0) ∨ (0 < count ∧ count % 4 ≠ 0 ∧ offset % 5 = count % 4) ∨
    (0 < count ∧ count % 4 = 0 ∧ offset % 5 = 4)

/-- The canonicalisation of the grouping of a binary digit part, in the words
of the specification: strip the underscores and insert one every 4 digits
counted from the right. -/
def canon (s : List Char) : List Char :=
  formatBinaryWithUnderscores (removeUnderscores s)

/-- The kinds of a node and of all its ancestors, innermost first. -/
def ancestorKinds : SyntaxNode → List SyntaxKind
  | .null => []
  | .node kind _ _ parent => kind :: ancestorKinds parent

/-- The kinds of a node and of its ancestors that lie below the compilation
unit, innermost first. -/
def kindsBelowUnit (node : SyntaxNode) : List SyntaxKind :=
  (ancestorKinds node).takeWhile (fun kind => kind != .CompilationUnit)

/-- The kinds of a bit select, element select or identifier select, of a range
select, of a variable dimension, and of a `for` loop or generate loop. -/
def isSelectDimensionOrLoop (kind : SyntaxKind) : Bool :=
  kind == .ElementSelectExpression || kind == .IdentifierSelectName || kind == .BitSelect ||
    kind == .SimpleRangeSelect || kind == .AscendingRangeSelect ||
    kind == .DescendingRangeSelect || kind == .VariableDimension ||
    kind == .ForLoopStatement || kind == .LoopGenerate

/-- The kinds of a parameter declaration and of a parameter port list. -/
def isParameterKind (kind : SyntaxKind) : Bool :=
  kind == .ParameterDeclarationStatement || kind == .ParameterDeclaration ||
    kind == .ParameterPortList

end ConstantFormatting

namespace LoopsInGenerate

/-- The kinds of the procedural blocks of the language: `always`,
`always_comb`, `always_ff`, `always_latch`, `initial` and `final`. -/
def isProceduralBlock (kind : SyntaxKind) : Bool :=
  kind == .AlwaysBlock || kind == .AlwaysCombBlock || kind == .AlwaysFFBlock ||
    kind == .AlwaysLatchBlock || kind == .InitialBlock || kind == .FinalBlock

/-- The kinds of a node and of all its ancestors, innermost first. -/
def kindsUpward : SyntaxNode → List SyntaxKind
  | .null => []
  | .node kind _ _ parent => kind :: kindsUpward parent

/-- The node has an enclosing generate region, generate block or procedural
block: one of its proper ancestors is of such a kind. -/
def hasEnclosingGenerateOrProcedural (loop : SyntaxNode) : Bool :=
  (kindsUpward loop.parent).any
    (fun kind => kind == .GenerateRegion || kind == .GenerateBlock || isProceduralBlock kind)

/-- The `for` loop of `always_latch begin for (...) ...; end` in a module. -/
def loopInAlwaysLatch : ForLoopStatementSyntax :=
  ⟨.node .ForLoopStatement [] ⟨0, 40⟩ (.node .SequentialBlockStatement [] ⟨0, 30⟩
    (.node .AlwaysLatchBlock [] ⟨0, 17⟩ (.node .ModuleDeclaration [] ⟨0, 0⟩
      (.node .CompilationUnit [] ⟨0, 0⟩ .null)))), ⟨0, 40⟩⟩

/-- The `for` loop of `always_latch for (...) ...;` in a module, the loop
being the statement of the block itself. -/
def loopDirectlyInAlwaysLatch : ForLoopStatementSyntax :=
  ⟨.node .ForLoopStatement [] ⟨0, 30⟩ (.node .AlwaysLatchBlock [] ⟨0, 17⟩
    (.node .ModuleDeclaration [] ⟨0, 0⟩ (.node .CompilationUnit [] ⟨0, 0⟩ .null))), ⟨0, 30⟩⟩

/-- A loop generate construct directly in a module body:
`module top (); for (i = 0; i < 4; i++) begin : bad_loop ... end endmodule`. -/
def loopInModuleBody : LoopGenerateSyntax :=
  ⟨.node .LoopGenerate [] ⟨0, 17⟩ (.node .ModuleDeclaration [] ⟨0, 0⟩
    (.node .CompilationUnit [] ⟨0, 0⟩ .null)), ⟨0, 17⟩⟩

/-- The same loop between `generate` and `endgenerate`. -/
def loopInGenerateRegion : LoopGenerateSyntax :=
  ⟨.node .LoopGenerate [] ⟨0, 30⟩ (.node .GenerateRegion [] ⟨0, 17⟩
    (.node .ModuleDeclaration [] ⟨0, 0⟩ (.node .CompilationUnit [] ⟨0, 0⟩ .null))), ⟨0, 30⟩⟩

end LoopsInGenerate

namespace NoLogicInPortConnections

/-- The kinds of unary operator expressions. -/
def isUnaryOperator (kind : SyntaxKind) : Bool :=
  kind == .UnaryPlusExpression || kind == .UnaryMinusExpression ||
    kind == .UnaryBitwiseNotExpression || kind == .UnaryLogicalNotExpression ||
    kind == .UnaryBitwiseAndExpression || kind == .UnaryBitwiseOrExpression ||
    kind == .UnaryBitwiseXorExpression

/-- The kinds of binary operator expressions. -/
def isBinaryOperator (kind : SyntaxKind) : Bool :=
  kind == .AddExpression || kind == .SubtractExpression || kind == .MultiplyExpression ||
    kind == .DivideExpression || kind == .BinaryAndExpression || kind == .BinaryOrExpression ||
    kind == .BinaryXorExpression || kind == .LogicalAndExpression ||
    kind == .LogicalOrExpression || kind == .EqualityExpression ||
    kind == .InequalityExpression || kind == .LessThanExpression ||
    kind == .GreaterThanExpression || kind == .LogicalShiftLeftExpression ||
    kind == .LogicalShiftRightExpression

/-- The kinds of unary and binary operator expressions: the ones that the
enumeration names, and `Other`, which stands (among other kinds) for the
operator kinds that it does not name, such as the power, modulo, arithmetic
shift, case equality and reduction `nand` expressions. -/
def isOperatorKind (kind : SyntaxKind) : Bool :=
  isUnaryOperator kind || isBinaryOperator kind || kind == .Other

/-- The expression contains a unary or binary operator anywhere in it: at its
top, or in one of its children. -/
inductive ContainsOperator : ExpressionSyntax → Prop where
  | atTop (kind : SyntaxKind) (range : SourceLocation) (children : List ExpressionSyntax)
      (h : isOperatorKind kind = true) :
      ContainsOperator (.node kind range children)
  | inChild (kind : SyntaxKind) (range : SourceLocation) (children : List ExpressionSyntax)
      (child : ExpressionSyntax) (hmem : child ∈ children) (h : ContainsOperator child) :
      ContainsOperator (.node kind range children)

/-- A plain signal reference: an identifier. -/
def isPlainReference (expr : ExpressionSyntax) : Bool :=
  expr.kind == .IdentifierName

/-- A named port connection `.name(expr)` with a plain expression, which the
parser wraps into a simple sequence and a simple property expression. -/
def connection (name : String) (expr : ExpressionSyntax) : NamedPortConnectionSyntax :=
  ⟨name, true, some (.SimplePropertyExpr (.SimpleSequenceExpr expr))⟩

/-- The expression `bus[i + 1]`: an identifier select whose selector holds an
addition. -/
def selectWithAddition : ExpressionSyntax :=
  .node .IdentifierSelectName ⟨0, 100⟩
    [.node .ElementSelect ⟨0, 103⟩
      [.node .BitSelect ⟨0, 104⟩
        [.node .AddExpression ⟨0, 104⟩
          [.node .IdentifierName ⟨0, 104⟩ [], .node .IntegerLiteralExpression ⟨0, 108⟩ []]]]]

/-- The expression `~d`. -/
def negatedSignal : ExpressionSyntax :=
  .node .UnaryBitwiseNotExpression ⟨0, 200⟩ [.node .IdentifierName ⟨0, 201⟩ []]

/-- The expression `(~d)`: the negation in parentheses. -/
def parenthesizedNegation : ExpressionSyntax :=
  .node .ParenthesizedExpression ⟨0, 210⟩
    [.node .UnaryBitwiseNotExpression ⟨0, 211⟩ [.node .IdentifierName ⟨0, 212⟩ []]]

/-- The expression `{a, bus[i + 1]}`: a concatenation of an identifier and an
identifier select whose selector holds an addition. -/
def concatenationWithSelect : ExpressionSyntax :=
  .node .ConcatenationExpression ⟨0, 220⟩
    [.node .IdentifierName ⟨0, 221⟩ [],
      .node .IdentifierSelectName ⟨0, 224⟩
        [.node .ElementSelect ⟨0, 227⟩
          [.node .BitSelect ⟨0, 228⟩
            [.node .AddExpression ⟨0, 228⟩
              [.node .IdentifierName ⟨0, 228⟩ [],
                .node .IntegerLiteralExpression ⟨0, 232⟩ []]]]]]

end NoLogicInPortConnections

namespace Tidy

/-- The effective severity of a diagnostic of `check` as the loop of `main`
finds it: what `driver.diagEngine.getSeverity(diag.code, diag.location)`
returns once `setSeverity(check->diagCode(), check->diagSeverity())` is done. -/
def effectiveSeverity (diagEngine : DiagnosticEngine) (check : TidyCheck) (diag : Diagnostic) :
    DiagnosticSeverity :=
  (diagEngine.setSeverity check.diagCode check.diagSeverity).getSeverity diag.code diag.location

/-- A check fails with an effective severity of `Error` or `Fatal`. -/
def failsWithError (check : TidyCheck) : Bool :=
  !check.check && (check.diagSeverity == .Error || check.diagSeverity == .Fatal)

/-- A diagnostic engine in which every code has the severity `Warning`. -/
def warningEngine : DiagnosticEngine := ⟨fun _ => .Warning⟩

/-- The check `ConstantWidthCheck` (default severity `Error`, no override)
after it found the literal `4'h10`. -/
def widthCheckWithFinding : TidyCheck :=
  ⟨"ConstantWidthCheck", .ConstantWidthCheck, none, .Error,
    [(⟨0, 33⟩, "constant value 16 in '4'h10' overflows 4-bit width (max value: 15)")]⟩

/-- The check `DefaultNettypeNone` (default severity `Warning`, no override)
after it found a file without the directive. -/
def nettypeCheckWithFinding : TidyCheck :=
  ⟨"DefaultNettypeNone", .DefaultNettypeNone, none, .Warning, [(⟨0, 0⟩, "")]⟩

end Tidy

namespace DefaultNettypeNone

/-- The text contains the directive followed by the argument `none`: the 16
characters of the directive, then blanks and tabs only (any number of them),
then the 4 characters `none`. -/
def ContainsDirectiveWithNone (text : List Char) : Prop :=
  ∃ pre ws post : List Char,
    text = pre ++ directive ++ ws ++ noneText ++ post ∧ ∀ c ∈ ws, c = ' ' ∨ c = '\t'

/-- The source manager of a compilation with one file, buffer 1, that holds the
text of the test "File without default_nettype none". -/
def sourceWithoutDirective (buffer : Nat) : List Char :=
  if buffer = 1 then
    "\nmodule top ();\n    logic a, b, c;\n    assign c = a & b;\nendmodule\n".toList
  else []

/-- The text contains the directive followed by at most 3 blanks and tabs and
then the 4 characters `none`. -/
def ContainsDirectiveNear (text : List Char) : Prop :=
  ∃ pre ws post : List Char,
    text = pre ++ directive ++ ws ++ noneText ++ post ∧ (∀ c ∈ ws, c = ' ' ∨ c = '\t') ∧
      ws.length ≤ 3

/-- The text behind an occurrence of the directive begins, after its blanks and
tabs, with the 4 characters `none`. -/
def followedByNone (rest : List Char) : Bool :=
  noneText.isPrefixOf (rest.dropWhile (fun c => c == ' ' || c == '\t'))

/-- A decision procedure for `ContainsDirectiveWithNone`: some occurrence of the
directive is followed by `none`. -/
def containsDirectiveWithNone : List Char → Bool
  | [] => false
  | c :: cs =>
      (directive.isPrefixOf (c :: cs) && followedByNone ((c :: cs).drop 16)) ||
        containsDirectiveWithNone cs

/-- The file is reported when it is checked alone: the loop of `checkSyntaxTree`
ends with `hasDefaultNettypeNone = false` on its text. -/
def lacksDirective (text : List Char) : Bool :=
  decide (hasDefaultNettypeNone text = some (some false))

/-- The diagnostic of the check for a syntax tree. -/
def missingDirective (tree : SyntaxTree) : Diagnostic :=
  ⟨DiagCode.DefaultNettypeNone, tree.rootStart, ""⟩

/-- A source manager with one file, buffer 1: the directive, 4 blanks, `none`,
and a module. -/
def sourceWithFourBlanks (buffer : Nat) : List Char :=
  if buffer = 1 then directive ++ "    none\nmodule top ();\nendmodule\n".toList else []

/-- A source manager with one file, buffer 1: the directive, one blank, `none`,
and a module, as in the test "File with default_nettype none". -/
def sourceWithDirective (buffer : Nat) : List Char :=
  if buffer = 1 then directive ++ " none\n\nmodule top ();\nendmodule\n".toList else []

/-- A source manager with one file, buffer 1: the directive with the argument
`wire`, and a module, as in the test "File with default_nettype wire". -/
def sourceWithWire (buffer : Nat) : List Char :=
  if buffer = 1 then directive ++ " wire\n\nmodule top ();\nendmodule\n".toList else []

/-- A source manager with one file, buffer 1, in which the directive comes
behind a module declaration. -/
def sourceWithLateDirective (buffer : Nat) : List Char :=
  if buffer = 1 then "module top ();\nendmodule\n".toList ++ directive ++ " none\n".toList
  else []

end DefaultNettypeNone

namespace ConstantWidthCheck

/-- The number a base letter stands for: 2 for `b`, 8 for `o`, 10 for `d` and
16 for `h`. -/
def baseValueOf (base : Char) : Nat :=
  if base = 'b' then 2 else if base = 'o' then 8 else if base = 'd' then 10
  else if base = 'h' then 16 else 0

/-- The character is a digit of the base with the given letter: `0` and `1`
for `b`, `0` to `7` for `o`, `0` to `9` for `d`, and `0` to `9`, `a` to `f`
and `A` to `F` for `h`. -/
def isDigitOfBase (base : Char) (c : Char) : Bool :=
  if base = 'b' then c == '0' || c == '1'
  else if base = 'o' then decide ('0' ≤ c) && decide (c ≤ '7')
  else if base = 'd' then decide ('0' ≤ c) && decide (c ≤ '9')
  else if base = 'h' then
    (decide ('0' ≤ c) && decide (c ≤ '9')) || (decide ('a' ≤ c) && decide (c ≤ 'f')) ||
      (decide ('A' ≤ c) && decide (c ≤ 'F'))
  else false

/-- The numeric value of a digit character; the letters `a` to `f` and `A` to
`F` stand for 10 to 15. -/
def digitValue (c : Char) : Nat :=
  if '0' ≤ c ∧ c ≤ '9' then c.toNat - '0'.toNat
  else if 'a' ≤ c ∧ c ≤ 'f' then c.toNat - 'a'.toNat + 10
  else if 'A' ≤ c ∧ c ≤ 'F' then c.toNat - 'A'.toNat + 10
  else 0

/-- The value of the digits `s`, most significant first, read in the base
`baseValue` behind the more significant digits of value `acc`. -/
def valueFrom (baseValue : Nat) (s : List Char) (acc : Nat) : Nat :=
  s.foldl (fun value c => value * baseValue + digitValue c) acc

/-- The numeric value of a digit string in the base `baseValue`, its
underscores being left out. -/
def numericValue (baseValue : Nat) (s : List Char) : Nat :=
  valueFrom baseValue (s.filter (fun c => c != '_')) 0

/-- A digit string that is valid for the base with the given letter: digits of
the base and underscores only, and at least one digit. -/
def ValidDigits (base : Char) (s : List Char) : Prop :=
  (∀ c ∈ s, c = '_' ∨ isDigitOfBase base c = true) ∧ ∃ c ∈ s, c ≠ '_'

/-- The four base letters in lower case. -/
def isLowerBase (base : Char) : Prop :=
  base = 'b' ∨ base = 'o' ∨ base = 'd' ∨ base = 'h'

end ConstantWidthCheck

namespace NoLogicInPortConnections

/-- The allow-list for the top-level kind of a port connection: identifiers
(also the empty identifier) and identifier selects; integer, vector, real,
unbased unsized, string, time, null and wildcard literals; element and bit
selects (a range select is an identifier select or an element select at the
top level); the bit type; member access. -/
def isTopLevelAllowed (kind : SyntaxKind) : Bool :=
  kind == .IdentifierName || kind == .IdentifierSelectName || kind == .EmptyIdentifierName ||
    kind == .IntegerLiteralExpression || kind == .IntegerVectorExpression ||
    kind == .RealLiteralExpression || kind == .UnbasedUnsizedLiteralExpression ||
    kind == .StringLiteralExpression || kind == .TimeLiteralExpression ||
    kind == .NullLiteralExpression || kind == .WildcardLiteralExpression ||
    kind == .ElementSelectExpression || kind == .BitSelect || kind == .BitType ||
    kind == .MemberAccessExpression

/-- An allowed concatenation: a concatenation all of whose elements have a kind
that `isAllowedInPortConnection` accepts. -/
def isAllowedConcatenation (expr : ExpressionSyntax) : Bool :=
  expr.kind == .ConcatenationExpression &&
    expr.expressions.all (fun element => isAllowedInPortConnection element.kind)

/-- The expression `~a | b`. -/
def orOfNegation : ExpressionSyntax :=
  .node .BinaryOrExpression ⟨0, 300⟩
    [.node .UnaryBitwiseNotExpression ⟨0, 300⟩ [.node .IdentifierName ⟨0, 301⟩ []],
      .node .IdentifierName ⟨0, 303⟩ []]

/-- The expression `{a, b}`. -/
def concatenationOfSignals : ExpressionSyntax :=
  .node .ConcatenationExpression ⟨0, 90⟩
    [.node .IdentifierName ⟨0, 91⟩ [], .node .IdentifierName ⟨0, 94⟩ []]

end NoLogicInPortConnections

namespace Tidy

/-- The effective severities of all diagnostics of a run, check by check in the
order of the checks. -/
def runSeverities (diagEngine : DiagnosticEngine) (checks : List TidyCheck) :
    List DiagnosticSeverity :=
  checks.flatMap (fun check => check.getDiagnostics.map (effectiveSeverity diagEngine check))

/-- The check produced zero diagnostics. -/
def producedNoDiagnostics (check : TidyCheck) : Bool :=
  check.getDiagnostics.isEmpty

end Tidy

namespace NoLogicInPortConnections

/-- The connection `.clk`: no parentheses and no expression. -/
def implicitConnection : NamedPortConnectionSyntax := ⟨"clk", false, none⟩

/-- The connection `.clk()`: parentheses without an expression. -/
def emptyConnection : NamedPortConnectionSyntax := ⟨"clk", true, none⟩

/-- A connection whose property expression is not a simple one, such as
`.p(a |-> b)`. -/
def propertyConnection : NamedPortConnectionSyntax := ⟨"p", true, some .OtherPropertyExpr⟩

/-- A connection whose sequence expression is not a simple one, such as
`.s(a ##1 b)`. -/
def sequenceConnection : NamedPortConnectionSyntax :=
  ⟨"s", true, some (.SimplePropertyExpr .OtherSequenceExpr)⟩

/-- The expression `{a, {b, c}}`: a concatenation with a nested concatenation
of two identifiers as its second element. -/
def nestedConcatenation : ExpressionSyntax :=
  .node .ConcatenationExpression ⟨0, 400⟩
    [.node .IdentifierName ⟨0, 401⟩ [],
      .node .ConcatenationExpression ⟨0, 404⟩
        [.node .IdentifierName ⟨0, 405⟩ [], .node .IdentifierName ⟨0, 408⟩ []]]

/-- The expression `{a, s.f}`: a concatenation with a member access as its
second element. -/
def concatenationWithMember : ExpressionSyntax :=
  .node .ConcatenationExpression ⟨0, 500⟩
    [.node .IdentifierName ⟨0, 501⟩ [],
      .node .MemberAccessExpression ⟨0, 504⟩ [.node .IdentifierName ⟨0, 504⟩ []]]

end NoLogicInPortConnections

namespace ConstantFormatting

/-- Modelled from the spec: the walk of `classify` (section 4.1) upward from
the ancestor `ancestor`, with `maxDepth` ancestors still to be looked at when a
depth bound is provided. It returns true the first time the kind of an ancestor
is a member of `targetKinds`, and false when there is no further ancestor (the
structural root lies behind), when the kind of the ancestor is listed in
`boundaryKinds`, or when looking at the ancestor would exceed the depth
bound. -/
def classifyWalk (targetKinds boundaryKinds : List SyntaxKind) :
    SyntaxNode → Option Nat → Bool
  | .null, _ => false
  | .node kind _ _ parent, maxDepth =>
      if maxDepth = some 0 then false
      else if targetKinds.contains kind then true
      else if boundaryKinds.contains kind then false
      else classifyWalk targetKinds boundaryKinds parent (maxDepth.map (fun depth => depth - 1))

/-- Modelled from the spec: the operation
`classify(node, targetKinds, {boundaryKinds?, maxDepth?})` of section 4.1; the
walk starts at the parent of `node`. Boundary kinds that are not provided are
the empty list, a depth bound that is not provided is `none`. -/
def classify (node : SyntaxNode) (targetKinds boundaryKinds : List SyntaxKind)
    (maxDepth : Option Nat) : Bool :=
  classifyWalk targetKinds boundaryKinds node.parent maxDepth

end ConstantFormatting

namespace ConstantFormatting

/-- The list in groups of 4 from its front; the last group holds what is left,
1 to 4 elements when the list is not empty. -/
def chunksOfFour : List Char → List (List Char)
  | a :: b :: c :: d :: e :: rest => [a, b, c, d] :: chunksOfFour (e :: rest)
  | l => [l]

end ConstantFormatting

/-! ## Concrete inputs -/

/-- A sized (vector) integer literal with the given text under the given
parent, at the start of buffer 0. -/
def literalUnder (text : String) (parent : SyntaxNode) : IntegerLiteral :=
  ⟨.node .IntegerVectorExpression text.toList ⟨0, 0⟩ parent, ⟨0, 0⟩⟩

/-- The ancestors of the initialiser in `module top (); logic a = <literal>; endmodule`. -/
def initialiserContext : SyntaxNode :=
  .node .EqualsValueClause [] ⟨0, 0⟩ (.node .Declarator [] ⟨0, 0⟩
    (.node .DataDeclaration [] ⟨0, 0⟩ (.node .ModuleDeclaration [] ⟨0, 0⟩
      (.node .CompilationUnit [] ⟨0, 0⟩ .null))))

/-- A sized integer literal with the given text as the initialiser of a
variable of a module, as in `logic [3:0] a = 4'hF;`. -/
def literalOfText (text : String) : IntegerLiteral :=
  literalUnder text initialiserContext

/-- An unsized decimal literal with the given text as the initialiser of a
variable of a module, as in `logic [7:0] data = 255;`. -/
def decimalLiteralOfText (text : String) : IntegerLiteral :=
  ⟨.node .IntegerLiteralExpression text.toList ⟨0, 0⟩ initialiserContext, ⟨0, 0⟩⟩

/-- The ancestors of a literal in the statement `x = <literal>;` of the body of
a `for` loop of an `always_comb` block. The statement is no initialiser,
condition or step of the loop. -/
def loopBodyContext : SyntaxNode :=
  .node .ExpressionStatement [] ⟨0, 0⟩ (.node .SequentialBlockStatement [] ⟨0, 0⟩
    (.node .ForLoopStatement [] ⟨0, 0⟩ (.node .SequentialBlockStatement [] ⟨0, 0⟩
      (.node .AlwaysCombBlock [] ⟨0, 0⟩ (.node .ModuleDeclaration [] ⟨0, 0⟩
        (.node .CompilationUnit [] ⟨0, 0⟩ .null))))))

/-- The ancestors of the literal `10` in `assign #(10 + 5) a = b;`: the addition,
the parentheses, the delay control, the continuous assignment and the module. -/
def delayExpressionContext : SyntaxNode :=
  .node .AddExpression [] ⟨0, 0⟩ (.node .ParenthesizedExpression [] ⟨0, 0⟩
    (.node .DelayControl [] ⟨0, 0⟩ (.node .ContinuousAssign [] ⟨0, 0⟩
      (.node .ModuleDeclaration [] ⟨0, 0⟩ (.node .CompilationUnit [] ⟨0, 0⟩ .null)))))

/-- The ancestors of the literal `255` in the module item
`parameter X = (A + (B * (C - 255)));`: three operators with their parentheses,
then the initialiser, the declarator and the parameter declaration. -/
def deepParameterContext : SyntaxNode :=
  .node .SubtractExpression [] ⟨0, 0⟩ (.node .ParenthesizedExpression [] ⟨0, 0⟩
    (.node .MultiplyExpression [] ⟨0, 0⟩ (.node .ParenthesizedExpression [] ⟨0, 0⟩
      (.node .AddExpression [] ⟨0, 0⟩ (.node .ParenthesizedExpression [] ⟨0, 0⟩
        (.node .EqualsValueClause [] ⟨0, 0⟩ (.node .Declarator [] ⟨0, 0⟩
          (.node .ParameterDeclaration [] ⟨0, 0⟩
            (.node .ParameterDeclarationStatement [] ⟨0, 0⟩
              (.node .ModuleDeclaration [] ⟨0, 0⟩
                (.node .CompilationUnit [] ⟨0, 0⟩ .null)))))))))))

/-- The ancestors of the literal `8` in the parameter port
`#(parameter WIDTH = 8)` of a module. -/
def parameterPortContext : SyntaxNode :=
  .node .EqualsValueClause [] ⟨0, 0⟩ (.node .Declarator [] ⟨0, 0⟩
    (.node .ParameterDeclaration [] ⟨0, 0⟩ (.node .ParameterPortList [] ⟨0, 0⟩
      (.node .ModuleDeclaration [] ⟨0, 0⟩ (.node .CompilationUnit [] ⟨0, 0⟩ .null)))))

/-- The ancestors of the literal `3` in the statement `bit_out = bus[3];` of an
`always_comb` block. -/
def bitSelectContext : SyntaxNode :=
  .node .BitSelect [] ⟨0, 0⟩ (.node .ElementSelect [] ⟨0, 0⟩
    (.node .IdentifierSelectName [] ⟨0, 0⟩ (.node .ExpressionStatement [] ⟨0, 0⟩
      (.node .SequentialBlockStatement [] ⟨0, 0⟩ (.node .AlwaysCombBlock [] ⟨0, 0⟩
        (.node .ModuleDeclaration [] ⟨0, 0⟩ (.node .CompilationUnit [] ⟨0, 0⟩ .null)))))))

/-- An unsized decimal literal with the given text under the given parent. -/
def decimalLiteralUnder (text : String) (parent : SyntaxNode) : IntegerLiteral :=
  ⟨.node .IntegerLiteralExpression text.toList ⟨0, 0⟩ parent, ⟨0, 0⟩⟩

/-- The ancestors of the literal `10` in `assign #10 a = b;`: the delay control
is the parent of the literal. -/
def plainDelayContext : SyntaxNode :=
  .node .DelayControl [] ⟨0, 0⟩ (.node .ContinuousAssign [] ⟨0, 0⟩
    (.node .ModuleDeclaration [] ⟨0, 0⟩ (.node .CompilationUnit [] ⟨0, 0⟩ .null)))

/-- The ancestors of the literal `255` in the statement `x = 255;` of the body
of a `for` loop of an `always_comb` block: the assignment expression, whose
kind the sources do not name, and above it the statement, the block of the
body, the loop, the block of `always_comb`, the module and the compilation
unit. -/
def assignmentInLoopBodyContext : SyntaxNode :=
  .node .Other [] ⟨0, 0⟩ loopBodyContext

/-! # Theorems -/

/-! ## ConstantWidthCheck -/

namespace ConstantWidthCheck

/-- For a width below 64 the `uint64_t` expression `(1ULL << w) - 1` is
`2 ^ w - 1`. -/
theorem maxVal_eq (w : Nat) (h64 : w < 64) :
    ((1 <<< w) % 2 ^ 64 + 2 ^ 64 - 1) % 2 ^ 64 = 2 ^ w - 1 := by
  have hlt : 2 ^ w < 2 ^ 64 := Nat.pow_lt_pow_right (by norm_num) h64
  have hpos : 1 ≤ 2 ^ w := Nat.one_le_two_pow
  rw [Nat.one_shiftLeft, Nat.mod_eq_of_lt hlt]
  have : 2 ^ w + 2 ^ 64 - 1 = (2 ^ w - 1) + 2 ^ 64 := by omega
  rw [this, Nat.add_mod_right, Nat.mod_eq_of_lt (by omega)]

/-- What `handle` does with a sized literal of width 1 to 63 whose digits do
not make `parseValueByBase` return `UINT64_MAX`: one diagnostic exactly when
the parsed value exceeds `2 ^ w - 1`. -/
theorem handle_of_parsed (literal : IntegerLiteral) (kind : SyntaxKind) (text : List Char)
    (start : SourceLocation) (parent : SyntaxNode) (widthStr valueStr : List Char)
    (baseChar : Char) (w : Nat)
    (hnode : literal.syntaxNode = .node kind text start parent)
    (hmatch : matchSized text = some (widthStr, baseChar, valueStr))
    (hwidth : stoi widthStr = some w) (h1 : 1 ≤ w) (h64 : w < 64)
    (hparse : parseValueByBase valueStr (tolower baseChar) ≠ UINT64_MAX) :
    handle literal =
      some (if parseValueByBase valueStr (tolower baseChar) > 2 ^ w - 1 then
        [⟨DiagCode.ConstantWidthCheck, literal.sourceRange,
          widthMessage (parseValueByBase valueStr (tolower baseChar)) text w (2 ^ w - 1)⟩]
      else []) := by
  have hw : ¬ (w ≥ 64 ∨ w ≤ 0) := by omega
  simp only [handle, hnode, hmatch, hwidth, hw, if_false, hparse, maxVal_eq w h64]
  split <;> rfl

/-- C1 (failing input): the digit string of `4'hFFFF_FFFF_FFFF_FFFF` is valid
for base 16, no step of the accumulation overflows, and its value
`2 ^ 64 - 1` exceeds `2 ^ 4 - 1`; yet `handle` adds no diagnostic, because
that value is also the failure value of `parseValueByBase`. The literals
`4'hF` and `4'h10` are treated as they should: none and one diagnostic. -/
theorem C1_max_value_not_reported :
    matchSized "4'hFFFF_FFFF_FFFF_FFFF".toList =
        some ("4".toList, 'h', "FFFF_FFFF_FFFF_FFFF".toList) ∧
      stoi "4".toList = some 4 ∧
      isValidForBase "FFFF_FFFF_FFFF_FFFF".toList 'h' = true ∧
      parseValueByBase "FFFF_FFFF_FFFF_FFFF".toList 'h' = 2 ^ 64 - 1 ∧
      2 ^ 64 - 1 > 2 ^ 4 - 1 ∧
      handle (literalOfText "4'hFFFF_FFFF_FFFF_FFFF") = some [] ∧
      handle (literalOfText "4'hF") = some [] ∧
      (handle (literalOfText "4'h10")).map List.length = some 1 := by
  refine ⟨by decide, by decide, by decide, by decide, by decide, by decide, by decide, ?_⟩
  rw [handle_of_parsed (literalOfText "4'h10") .IntegerVectorExpression "4'h10".toList ⟨0, 0⟩
    initialiserContext "4".toList "10".toList 'h' 4 rfl (by decide) (by decide) (by decide)
    (by decide) (by decide)]
  have h : parseValueByBase "10".toList (tolower 'h') > 2 ^ 4 - 1 := by decide
  rw [if_pos h]
  rfl

/-- The lower-case letter of a base letter is one of `b`, `o`, `d` and `h`. -/
theorem isLowerBase_tolower (b : Char) (hb : isBaseChar b = true) : isLowerBase (tolower b) := by
  have hcases : b = 'b' ∨ b = 'B' ∨ b = 'o' ∨ b = 'O' ∨ b = 'd' ∨ b = 'D' ∨ b = 'h' ∨ b = 'H' := by
    simpa [isBaseChar, or_assoc] using hb
  unfold isLowerBase
  rcases hcases with h | h | h | h | h | h | h | h <;> subst h <;> decide

/-- For a base letter, `isValidForBase` accepts the strings of underscores and
digits of the base. -/
theorem isValidForBaseLoop_eq_all (base : Char) (hbase : isLowerBase base) (s : List Char) :
    isValidForBaseLoop base s = s.all (fun c => c == '_' || isDigitOfBase base c) := by
  induction s with
  | nil => rfl
  | cons c cs ih =>
      by_cases hc : c = '_'
      · simp [isValidForBaseLoop, hc, ih]
      · rcases hbase with h | h | h | h <;> subst h
        · by_cases h0 : c = '0'
          · simp [isValidForBaseLoop, isDigitOfBase, h0, ih]
          · by_cases h1 : c = '1'
            · simp [isValidForBaseLoop, isDigitOfBase, h1, ih]
            · simp [isValidForBaseLoop, isDigitOfBase, hc, h0, h1]
        · by_cases hd : '0' ≤ c ∧ c ≤ '7'
          · have hn : ¬ (c < '0' ∨ c > '7') := by
              rintro (h | h)
              · exact absurd hd.1 (not_le.mpr h)
              · exact absurd hd.2 (not_le.mpr h)
            simp [isValidForBaseLoop, isDigitOfBase, hc, hn, hd.1, hd.2, ih]
          · have hn : c < '0' ∨ c > '7' := by
              by_contra hcon
              push_neg at hcon
              exact hd ⟨hcon.1, hcon.2⟩
            have hf : (decide ('0' ≤ c) && decide (c ≤ '7')) = false := by
              simpa using fun h => not_le.mp (fun h2 => hd ⟨h, h2⟩)
            simp only [isValidForBaseLoop, hc, if_false, hn, if_true, List.all_cons, isDigitOfBase]
            simp [hc, hf]
        · by_cases hd : '0' ≤ c ∧ c ≤ '9'
          · have hn : ¬ (c < '0' ∨ c > '9') := by
              rintro (h | h)
              · exact absurd hd.1 (not_le.mpr h)
              · exact absurd hd.2 (not_le.mpr h)
            simp [isValidForBaseLoop, isDigitOfBase, hc, hn, hd.1, hd.2, ih]
          · have hn : c < '0' ∨ c > '9' := by
              by_contra hcon
              push_neg at hcon
              exact hd ⟨hcon.1, hcon.2⟩
            have hf : (decide ('0' ≤ c) && decide (c ≤ '9')) = false := by
              simpa using fun h => not_le.mp (fun h2 => hd ⟨h, h2⟩)
            simp only [isValidForBaseLoop, hc, if_false, hn, if_true, List.all_cons, isDigitOfBase]
            simp [hc, hf]
        · have hx : isDigitOfBase 'h' c = isxdigit c := by
            simp [isDigitOfBase, isxdigit]
          cases hxd : isxdigit c
          · simp [isValidForBaseLoop, hc, hxd, hx]
          · simp [isValidForBaseLoop, hc, hxd, hx, ih]

/-- What `handle` does with a sized literal whose width `std::stoi` converts to
64 or more, or to 0: nothing. -/
theorem handle_of_unchecked_width (literal : IntegerLiteral) (kind : SyntaxKind)
    (text : List Char) (start : SourceLocation) (parent : SyntaxNode)
    (widthStr valueStr : List Char) (baseChar : Char) (w : Nat)
    (hnode : literal.syntaxNode = .node kind text start parent)
    (hmatch : matchSized text = some (widthStr, baseChar, valueStr))
    (hwidth : stoi widthStr = some w) (hw : w ≥ 64 ∨ w ≤ 0) :
    handle literal = some [] := by
  simp only [handle, hnode, hmatch, hwidth, hw, if_true]

/-- Where `std::stoi` gives up: the width digits `2147483648` denote `2 ^ 31`,
which does not fit an `int`, and `handle` leaves through the exception; the
widths 2147483647, 64 and 0 are converted. Such a literal is not an input of
the check: the front end rejects a literal of more than `2 ^ 24 - 1` bits as an
error, and `main` returns before its loop over the checks. -/
theorem handle_of_width_beyond_int :
    matchSized "2147483648'h1".toList = some ("2147483648".toList, 'h', "1".toList) ∧
      decimalValue "2147483648".toList = 2 ^ 31 ∧
      stoi "2147483648".toList = none ∧
      handle (literalOfText "2147483648'h1") = none ∧
      handle (literalOfText "2147483647'h1") = some [] ∧
      handle (literalOfText "64'h1") = some [] ∧
      handle (literalOfText "0'h1") = some [] := by
  refine ⟨by decide, by decide, by decide, by decide, by decide, by decide, by decide⟩

/-- What a match of `sized_pattern` says about the text: it is a non-empty
width of decimal digits, an apostrophe, a base letter and a non-empty digit
part; the groups are the width, the base letter and the digit part. -/
theorem matchSized_some (text widthStr valueStr : List Char) (baseChar : Char)
    (hmatch : matchSized text = some (widthStr, baseChar, valueStr)) :
    text = widthStr ++ apostrophe :: baseChar :: valueStr ∧ isBaseChar baseChar = true ∧
      widthStr ≠ [] ∧ (∀ c ∈ widthStr, isDecDigit c = true) ∧ valueStr ≠ [] := by
  unfold matchSized at hmatch
  have hspan : text.span isDecDigit =
      (text.takeWhile isDecDigit, text.dropWhile isDecDigit) := List.span_eq_take_drop _ _
  have htext : text = text.takeWhile isDecDigit ++ text.dropWhile isDecDigit :=
    (List.takeWhile_append_dropWhile isDecDigit text).symm
  have hdigits : ∀ c ∈ text.takeWhile isDecDigit, isDecDigit c = true :=
    fun c hc => List.mem_takeWhile_imp hc
  rw [hspan] at hmatch
  generalize text.takeWhile isDecDigit = w at hmatch htext hdigits
  generalize text.dropWhile isDecDigit = rest at hmatch htext
  match rest, hmatch with
  | q :: b :: v :: vs, hmatch =>
      simp only [] at hmatch
      split at hmatch
      · rename_i hcond
        simp only [Option.some.injEq, Prod.mk.injEq] at hmatch
        obtain ⟨hw, hb, hv⟩ := hmatch
        subst hw hb hv
        simp only [Bool.and_eq_true, Bool.not_eq_true', beq_iff_eq] at hcond
        obtain ⟨⟨⟨hne, hq⟩, hbase⟩, _⟩ := hcond
        refine ⟨by rw [htext, hq], hbase, ?_, hdigits, by simp⟩
        intro hnil
        rw [hnil] at hne
        simp at hne
      · simp at hmatch
  | [], hmatch => simp at hmatch
  | [_], hmatch => simp at hmatch
  | [_, _], hmatch => simp at hmatch

/-- C21: a sized literal whose declared width is 64 or more, or 0, gets no
check: `handle` returns normally without a diagnostic, however many digits the
width is written with. The width is one that fits an `int`, as every width
does that the front end lets through to the checks. -/
theorem C21_unchecked_width_skipped (literal : IntegerLiteral) (kind : SyntaxKind)
    (text : List Char) (start : SourceLocation) (parent : SyntaxNode)
    (widthStr valueStr : List Char) (baseChar : Char)
    (hnode : literal.syntaxNode = .node kind text start parent)
    (hmatch : matchSized text = some (widthStr, baseChar, valueStr))
    (hfit : decimalValue widthStr ≤ INT_MAX)
    (hw : decimalValue widthStr ≥ 64 ∨ decimalValue widthStr ≤ 0) :
    handle literal = some [] := by
  have hwidth : stoi widthStr = some (decimalValue widthStr) := by
    unfold stoi
    rw [if_pos hfit]
  exact handle_of_unchecked_width literal kind text start parent widthStr valueStr baseChar
    (decimalValue widthStr) hnode hmatch hwidth hw

/-- C21 (witness): the theorem at the literals `64'hFFFF_FFFF_FFFF_FFFF_F`,
`0'h1`, `16777215'h1` (the widest literal of the language) and
`00000000000000000000128'h1`, whose width has 23 digits. -/
theorem C21_unchecked_width_witness :
    handle (literalOfText "64'hFFFF_FFFF_FFFF_FFFF_F") = some [] ∧
      handle (literalOfText "0'h1") = some [] ∧
      handle (literalOfText "16777215'h1") = some [] ∧
      handle (literalOfText "00000000000000000000128'h1") = some [] :=
  ⟨C21_unchecked_width_skipped (literalOfText "64'hFFFF_FFFF_FFFF_FFFF_F")
      .IntegerVectorExpression "64'hFFFF_FFFF_FFFF_FFFF_F".toList ⟨0, 0⟩ initialiserContext
      "64".toList "FFFF_FFFF_FFFF_FFFF_F".toList 'h' rfl (by decide) (by decide)
      (Or.inl (by decide)),
    C21_unchecked_width_skipped (literalOfText "0'h1") .IntegerVectorExpression
      "0'h1".toList ⟨0, 0⟩ initialiserContext "0".toList "1".toList 'h' rfl (by decide)
      (by decide) (Or.inr (by decide)),
    C21_unchecked_width_skipped (literalOfText "16777215'h1") .IntegerVectorExpression
      "16777215'h1".toList ⟨0, 0⟩ initialiserContext "16777215".toList "1".toList 'h' rfl
      (by decide) (by decide) (Or.inl (by decide)),
    C21_unchecked_width_skipped (literalOfText "00000000000000000000128'h1")
      .IntegerVectorExpression "00000000000000000000128'h1".toList ⟨0, 0⟩ initialiserContext
      "00000000000000000000128".toList "1".toList 'h' rfl (by decide) (by decide)
      (Or.inl (by decide))⟩

/-- A digit string with a character that is neither an underscore nor a digit of
the base makes `parseValueByBase` return its failure value. -/
theorem parseValueByBase_of_invalid (valueStr : List Char) (base : Char)
    (hbase : isLowerBase base)
    (hinvalid : ∃ c ∈ valueStr, c ≠ '_' ∧ isDigitOfBase base c = false) :
    parseValueByBase valueStr base = UINT64_MAX := by
  have hloop : isValidForBaseLoop base valueStr = false := by
    rw [isValidForBaseLoop_eq_all base hbase, List.all_eq_false]
    obtain ⟨c, hmem, hne, hdig⟩ := hinvalid
    exact ⟨c, hmem, by simp [hne, hdig]⟩
  have hvalid : isValidForBase valueStr base = false := by
    unfold isValidForBase
    split
    · rfl
    · exact hloop
  simp [parseValueByBase, hvalid]

/-- What `handle` does with a sized literal whose width `std::stoi` converts
and whose digit string holds a character that is neither an underscore nor a
digit of the stated base: it returns normally and adds no diagnostic. -/
theorem handle_of_invalid_digit (literal : IntegerLiteral) (kind : SyntaxKind)
    (text : List Char) (start : SourceLocation) (parent : SyntaxNode)
    (widthStr valueStr : List Char) (baseChar : Char) (w : Nat)
    (hnode : literal.syntaxNode = .node kind text start parent)
    (hmatch : matchSized text = some (widthStr, baseChar, valueStr))
    (hbase : isBaseChar baseChar = true)
    (hwidth : stoi widthStr = some w)
    (hinvalid : ∃ c ∈ valueStr, c ≠ '_' ∧ isDigitOfBase (tolower baseChar) c = false) :
    handle literal = some [] := by
  have hparse := parseValueByBase_of_invalid valueStr (tolower baseChar)
    (isLowerBase_tolower baseChar hbase) hinvalid
  simp only [handle, hnode, hmatch, hwidth, hparse]
  split <;> simp

/-- C22: a sized literal whose digit string holds a character that is neither
an underscore nor a digit of the stated base is skipped: `handle` returns
normally and adds no diagnostic. The width is one that fits an `int`, as every
width does that the front end lets through to the checks. -/
theorem C22_invalid_digit_skipped (literal : IntegerLiteral) (kind : SyntaxKind)
    (text : List Char) (start : SourceLocation) (parent : SyntaxNode)
    (widthStr valueStr : List Char) (baseChar : Char)
    (hnode : literal.syntaxNode = .node kind text start parent)
    (hmatch : matchSized text = some (widthStr, baseChar, valueStr))
    (hfit : decimalValue widthStr ≤ INT_MAX)
    (hinvalid : ∃ c ∈ valueStr, c ≠ '_' ∧ isDigitOfBase (tolower baseChar) c = false) :
    parseValueByBase valueStr (tolower baseChar) = UINT64_MAX ∧ handle literal = some [] := by
  have hbase := (matchSized_some text widthStr valueStr baseChar hmatch).2.1
  have hwidth : stoi widthStr = some (decimalValue widthStr) := by
    unfold stoi
    rw [if_pos hfit]
  exact ⟨parseValueByBase_of_invalid valueStr (tolower baseChar)
      (isLowerBase_tolower baseChar hbase) hinvalid,
    handle_of_invalid_digit literal kind text start parent widthStr valueStr baseChar
      (decimalValue widthStr) hnode hmatch hbase hwidth hinvalid⟩

/-- C22 (witness): the theorem at the literals `3'b102`, `4'hxz` and
`64'o8`. -/
theorem C22_invalid_digit_witness :
    (parseValueByBase "102".toList (tolower 'b') = UINT64_MAX ∧
        handle (literalOfText "3'b102") = some []) ∧
      handle (literalOfText "4'hxz") = some [] ∧
      handle (literalOfText "64'o8") = some [] :=
  ⟨C22_invalid_digit_skipped (literalOfText "3'b102") .IntegerVectorExpression "3'b102".toList
      ⟨0, 0⟩ initialiserContext "3".toList "102".toList 'b' rfl (by decide) (by decide)
      ⟨'2', by decide, by decide, by decide⟩,
    (C22_invalid_digit_skipped (literalOfText "4'hxz") .IntegerVectorExpression "4'hxz".toList
      ⟨0, 0⟩ initialiserContext "4".toList "xz".toList 'h' rfl (by decide) (by decide)
      ⟨'x', by decide, by decide, by decide⟩).2,
    (C22_invalid_digit_skipped (literalOfText "64'o8") .IntegerVectorExpression "64'o8".toList
      ⟨0, 0⟩ initialiserContext "64".toList "8".toList 'o' rfl (by decide) (by decide)
      ⟨'8', by decide, by decide, by decide⟩).2⟩

/-- The code reads a hexadecimal digit as its numeric value. -/
theorem digitOf_of_isxdigit (c : Char) (h : isxdigit c = true) :
    digitOf c = some (digitValue c) := by
  unfold digitOf digitValue
  by_cases h1 : '0' ≤ c ∧ c ≤ '9'
  · simp [h1]
  · by_cases h2 : 'a' ≤ c ∧ c ≤ 'f'
    · simp [h1, h2]
    · by_cases h3 : 'A' ≤ c ∧ c ≤ 'F'
      · simp [h1, h2, h3]
      · exfalso
        simp only [isxdigit, Bool.or_eq_true, Bool.and_eq_true, decide_eq_true_eq] at h
        rcases h with (h | h) | h
        · exact h1 h
        · exact h2 h
        · exact h3 h

/-- A digit of a base is read by the code as its numeric value, which is below
the base. -/
theorem digitOf_of_isDigitOfBase (base c : Char) (hbase : isLowerBase base)
    (h : isDigitOfBase base c = true) :
    digitOf c = some (digitValue c) ∧ digitValue c < baseValueOf base := by
  rcases hbase with hb | hb | hb | hb <;> subst hb
  · have hc : c = '0' ∨ c = '1' := by simpa [isDigitOfBase] using h
    rcases hc with hc | hc <;> subst hc <;> exact ⟨by decide, by decide⟩
  · have hc : '0' ≤ c ∧ c ≤ '7' := by simpa [isDigitOfBase] using h
    have hlo : 48 ≤ c.toNat := hc.1
    have hhi : c.toNat ≤ 55 := hc.2
    have h9 : c ≤ '9' := le_trans hc.2 (by decide)
    refine ⟨digitOf_of_isxdigit c (by simp [isxdigit, hc.1, h9]), ?_⟩
    have hv : digitValue c = c.toNat - 48 := by simp [digitValue, hc.1, h9]
    rw [hv]
    simp only [baseValueOf]
    simp only [show ¬ ('o' : Char) = 'b' by decide, if_false, if_true]
    omega
  · have hc : '0' ≤ c ∧ c ≤ '9' := by simpa [isDigitOfBase] using h
    have hlo : 48 ≤ c.toNat := hc.1
    have hhi : c.toNat ≤ 57 := hc.2
    refine ⟨digitOf_of_isxdigit c (by simp [isxdigit, hc.1, hc.2]), ?_⟩
    have hv : digitValue c = c.toNat - 48 := by simp [digitValue, hc.1, hc.2]
    rw [hv]
    simp only [baseValueOf]
    simp only [show ¬ ('d' : Char) = 'b' by decide, show ¬ ('d' : Char) = 'o' by decide,
      if_false, if_true]
    omega
  · have hx : isxdigit c = true := by
      simpa [isDigitOfBase, isxdigit] using h
    refine ⟨digitOf_of_isxdigit c hx, ?_⟩
    have hbv : baseValueOf 'h' = 16 := by decide
    rw [hbv]
    unfold digitValue
    by_cases h1 : '0' ≤ c ∧ c ≤ '9'
    · have hlo : 48 ≤ c.toNat := h1.1
      have hhi : c.toNat ≤ 57 := h1.2
      simp only [h1, and_self, if_true]
      show c.toNat - 48 < 16
      omega
    · by_cases h2 : 'a' ≤ c ∧ c ≤ 'f'
      · have hlo : 97 ≤ c.toNat := h2.1
        have hhi : c.toNat ≤ 102 := h2.2
        simp only [h1, if_false, h2, and_self, if_true]
        show c.toNat - 97 + 10 < 16
        omega
      · by_cases h3 : 'A' ≤ c ∧ c ≤ 'F'
        · have hlo : 65 ≤ c.toNat := h3.1
          have hhi : c.toNat ≤ 70 := h3.2
          simp only [h1, if_false, h2, h3, and_self, if_true]
          show c.toNat - 65 + 10 < 16
          omega
        · simp [h1, h2, h3]

/-- The guard of the accumulation fires exactly when the multiply-add would
exceed `UINT64_MAX`. -/
theorem guard_iff (baseValue result digit : Nat) (hbase : 0 < baseValue)
    (hdigit : digit < baseValue) (hsmall : baseValue ≤ 16) :
    result > (UINT64_MAX - digit) / baseValue ↔ result * baseValue + digit > 2 ^ 64 - 1 := by
  have hm : UINT64_MAX = 2 ^ 64 - 1 := rfl
  rw [gt_iff_lt, Nat.div_lt_iff_lt_mul hbase, hm]
  have h64 : (2 : Nat) ^ 64 = 18446744073709551616 := by norm_num
  rw [h64]
  omega

/-- The value of a digit string is at least the value of the digits before. -/
theorem le_valueFrom (baseValue : Nat) (hbase : 0 < baseValue) (s : List Char) (acc : Nat) :
    acc ≤ valueFrom baseValue s acc := by
  induction s generalizing acc with
  | nil => exact Nat.le_refl _
  | cons c cs ih =>
      have hstep : valueFrom baseValue (c :: cs) acc =
          valueFrom baseValue cs (acc * baseValue + digitValue c) := rfl
      rw [hstep]
      have h1 : acc ≤ acc * baseValue + digitValue c :=
        le_trans (Nat.le_mul_of_pos_right acc hbase) (Nat.le_add_right _ _)
      exact le_trans h1 (ih _)

/-- On digits of the base, the loop of `parseValueByBase` returns the value of
the digits when it is at most `UINT64_MAX`, and `UINT64_MAX` otherwise. -/
theorem parseLoop_eq (baseValue : Nat) (hbase : 0 < baseValue) (hsmall : baseValue ≤ 16)
    (s : List Char)
    (hs : ∀ c ∈ s, digitOf c = some (digitValue c) ∧ digitValue c < baseValue)
    (acc : Nat) (hacc : acc ≤ 2 ^ 64 - 1) :
    parseLoop baseValue s acc =
      if valueFrom baseValue s acc ≤ 2 ^ 64 - 1 then valueFrom baseValue s acc
      else UINT64_MAX := by
  induction s generalizing acc with
  | nil =>
      have hv : valueFrom baseValue [] acc = acc := rfl
      rw [hv, if_pos hacc]
      rfl
  | cons c cs ih =>
      obtain ⟨hdig, hlt⟩ := hs c (List.mem_cons_self _ _)
      have hrest : ∀ d ∈ cs, digitOf d = some (digitValue d) ∧ digitValue d < baseValue :=
        fun d hd => hs d (List.mem_cons_of_mem _ hd)
      have hstep : valueFrom baseValue (c :: cs) acc =
          valueFrom baseValue cs (acc * baseValue + digitValue c) := rfl
      have hge : ¬ digitValue c ≥ baseValue := by omega
      rw [hstep]
      simp only [parseLoop, hdig, hge, if_false]
      by_cases hguard : acc > (UINT64_MAX - digitValue c) / baseValue
      · have hover := (guard_iff baseValue acc (digitValue c) hbase hlt hsmall).mp hguard
        have hmono := le_valueFrom baseValue hbase cs (acc * baseValue + digitValue c)
        have hnot : ¬ valueFrom baseValue cs (acc * baseValue + digitValue c) ≤ 2 ^ 64 - 1 := by
          omega
        simp only [hguard, if_true, hnot, if_false]
      · have hfit : ¬ acc * baseValue + digitValue c > 2 ^ 64 - 1 :=
          fun h => hguard ((guard_iff baseValue acc (digitValue c) hbase hlt hsmall).mpr h)
        have hmod : (acc * baseValue + digitValue c) % 2 ^ 64 = acc * baseValue + digitValue c :=
          Nat.mod_eq_of_lt (by
            have h64 : (2 : Nat) ^ 64 = 18446744073709551616 := by norm_num
            rw [h64] at hfit ⊢
            omega)
        simp only [hguard, if_false, hmod]
        exact ih hrest _ (by omega)

/-- On a valid digit string `parseValueByBase` returns the numeric value when
it is at most `UINT64_MAX`, and `UINT64_MAX` otherwise. -/
theorem parseValueByBase_eq (base : Char) (hbase : isLowerBase base) (s : List Char)
    (hvalid : ValidDigits base s) :
    parseValueByBase s base =
      if numericValue (baseValueOf base) s ≤ 2 ^ 64 - 1 then numericValue (baseValueOf base) s
      else UINT64_MAX := by
  obtain ⟨hall, c0, hc0, hne0⟩ := hvalid
  have hnonempty : s.isEmpty = false := by
    cases s with
    | nil => simp at hc0
    | cons _ _ => rfl
  have hloop : isValidForBaseLoop base s = true := by
    rw [isValidForBaseLoop_eq_all base hbase, List.all_eq_true]
    intro c hc
    rcases hall c hc with h | h
    · simp [h]
    · simp [h]
  have hv : isValidForBase s base = true := by
    simp [isValidForBase, hnonempty, hloop]
  have hclean : (s.filter (fun c => c != '_')).isEmpty = false := by
    have hmem : c0 ∈ s.filter (fun c => c != '_') :=
      List.mem_filter.mpr ⟨hc0, by simpa using hne0⟩
    cases hf : s.filter (fun c => c != '_') with
    | nil => rw [hf] at hmem; simp at hmem
    | cons _ _ => rfl
  have hdigits : ∀ c ∈ s.filter (fun c => c != '_'),
      digitOf c = some (digitValue c) ∧ digitValue c < baseValueOf base := by
    intro c hc
    obtain ⟨hmem, hne⟩ := List.mem_filter.mp hc
    have hne' : c ≠ '_' := by simpa using hne
    rcases hall c hmem with h | h
    · exact absurd h hne'
    · exact digitOf_of_isDigitOfBase base c hbase h
  have hmain : ∀ bv, bv = baseValueOf base → 0 < bv → bv ≤ 16 →
      parseLoop bv (s.filter (fun c => c != '_')) 0 =
        if numericValue bv s ≤ 2 ^ 64 - 1 then numericValue bv s else UINT64_MAX := by
    intro bv hbv hpos hsmall
    exact parseLoop_eq bv hpos hsmall _ (by rw [hbv]; exact hdigits) 0 (by omega)
  simp only [parseValueByBase, hv, Bool.not_true, Bool.false_eq_true, if_false, hclean]
  rcases hbase with hb | hb | hb | hb <;> subst hb
  · simpa using hmain 2 (by decide) (by omega) (by omega)
  · simpa using hmain 8 (by decide) (by omega) (by omega)
  · simpa using hmain 10 (by decide) (by omega) (by omega)
  · simpa using hmain 16 (by decide) (by omega) (by omega)

/-- The number of a base letter lies between 2 and 16. -/
theorem baseValueOf_bounds (base : Char) (hbase : isLowerBase base) :
    0 < baseValueOf base ∧ baseValueOf base ≤ 16 := by
  rcases hbase with hb | hb | hb | hb <;> subst hb <;> exact ⟨by decide, by decide⟩

/-- One pass of the loop of `parseValueByBase` over a digit of the base: the
guard fires and the loop returns the failure value when the multiply-add would
exceed `2 ^ 64 - 1`, and the loop goes on with exactly `result * base + digit`
when it would not. -/
theorem parseLoop_step (baseValue : Nat) (hbase : 0 < baseValue) (hsmall : baseValue ≤ 16)
    (c : Char) (rest : List Char) (result : Nat)
    (hc : digitOf c = some (digitValue c) ∧ digitValue c < baseValue) :
    (result * baseValue + digitValue c > 2 ^ 64 - 1 →
        parseLoop baseValue (c :: rest) result = UINT64_MAX) ∧
      (result * baseValue + digitValue c ≤ 2 ^ 64 - 1 →
        parseLoop baseValue (c :: rest) result =
          parseLoop baseValue rest (result * baseValue + digitValue c)) := by
  have h64 : (2 : Nat) ^ 64 = 18446744073709551616 := by norm_num
  have hguard := guard_iff baseValue result (digitValue c) hbase hc.2 hsmall
  have hnot : ¬ digitValue c ≥ baseValue := by omega
  constructor
  · intro hover
    simp only [parseLoop, hc.1, hnot, if_false, hguard.mpr hover, if_true]
  · intro hfits
    have hno : ¬ result > (UINT64_MAX - digitValue c) / baseValue :=
      fun h => absurd (hguard.mp h) (by omega)
    have hmod : (result * baseValue + digitValue c) % 2 ^ 64 =
        result * baseValue + digitValue c := by
      apply Nat.mod_eq_of_lt
      rw [h64] at hfits ⊢
      omega
    simp only [parseLoop, hc.1, hnot, if_false, hno, hmod]

/-- C23: in the loop of `parseValueByBase`, for a digit of the base, the guard
fires (the loop returns the failure value `UINT64_MAX` at that digit) when
`result * base + digit` would exceed `2 ^ 64 - 1`, and otherwise the loop goes
on with the accumulator `result * base + digit` itself, not wrapped around.
So for a digit string that is valid for its base, a numeric value of `2 ^ 64`
or more makes `parseValueByBase` return the failure value, and a numeric value
of at most `2 ^ 64 - 1` is returned exactly. The guard expression of the code
is true exactly when the multiply-add would exceed `2 ^ 64 - 1`. -/
theorem C23_overflow_guard_exact (base : Char) (s : List Char) (hbase : isLowerBase base)
    (hvalid : ValidDigits base s) :
    (∀ (c : Char) (rest : List Char) (result : Nat), isDigitOfBase base c = true →
      (result * baseValueOf base + digitValue c > 2 ^ 64 - 1 →
          parseLoop (baseValueOf base) (c :: rest) result = UINT64_MAX) ∧
        (result * baseValueOf base + digitValue c ≤ 2 ^ 64 - 1 →
          parseLoop (baseValueOf base) (c :: rest) result =
            parseLoop (baseValueOf base) rest (result * baseValueOf base + digitValue c))) ∧
      (numericValue (baseValueOf base) s ≥ 2 ^ 64 → parseValueByBase s base = UINT64_MAX) ∧
      (numericValue (baseValueOf base) s ≤ 2 ^ 64 - 1 →
        parseValueByBase s base = numericValue (baseValueOf base) s) ∧
      (∀ result digit : Nat, digit < baseValueOf base →
        (result > (UINT64_MAX - digit) / baseValueOf base ↔
          result * baseValueOf base + digit > 2 ^ 64 - 1)) := by
  obtain ⟨hpos, hsmall⟩ := baseValueOf_bounds base hbase
  have h64 : (2 : Nat) ^ 64 = 18446744073709551616 := by norm_num
  refine ⟨?_, ?_, ?_, fun result digit hd => guard_iff _ result digit hpos hd hsmall⟩
  · intro c rest result hc
    exact parseLoop_step (baseValueOf base) hpos hsmall c rest result
      (digitOf_of_isDigitOfBase base c hbase hc)
  · intro hbig
    rw [parseValueByBase_eq base hbase s hvalid, if_neg]
    rw [h64] at hbig ⊢
    omega
  · intro hle
    rw [parseValueByBase_eq base hbase s hvalid, if_pos hle]

/-- C23 (witness): the theorem at the 17 hexadecimal digits
`FFFF_FFFF_FFFF_FFFF_F`, whose value is `2 ^ 68 - 1`, and at one pass of the
loop over the digit `0` from the accumulator `2 ^ 60 - 1`, the largest from
which the guard does not fire. -/
theorem C23_overflow_guard_witness :
    numericValue 16 "FFFF_FFFF_FFFF_FFFF_F".toList = 2 ^ 68 - 1 ∧
      parseValueByBase "FFFF_FFFF_FFFF_FFFF_F".toList 'h' = UINT64_MAX ∧
      parseLoop (baseValueOf 'h') ['0'] (2 ^ 60 - 1) =
        parseLoop (baseValueOf 'h') [] ((2 ^ 60 - 1) * baseValueOf 'h' + digitValue '0') ∧
      parseLoop (baseValueOf 'h') ['0'] (2 ^ 60) = UINT64_MAX :=
  ⟨by decide,
    (C23_overflow_guard_exact 'h' "FFFF_FFFF_FFFF_FFFF_F".toList (Or.inr (Or.inr (Or.inr rfl)))
      ⟨by decide, 'F', by decide, by decide⟩).2.1 (by decide),
    ((C23_overflow_guard_exact 'h' "FFFF_FFFF_FFFF_FFFF_F".toList (Or.inr (Or.inr (Or.inr rfl)))
      ⟨by decide, 'F', by decide, by decide⟩).1 '0' [] (2 ^ 60 - 1) (by decide)).2 (by decide),
    ((C23_overflow_guard_exact 'h' "FFFF_FFFF_FFFF_FFFF_F".toList (Or.inr (Or.inr (Or.inr rfl)))
      ⟨by decide, 'F', by decide, by decide⟩).1 '0' [] (2 ^ 60) (by decide)).1 (by decide)⟩

/-- Lower-casing keeps a hexadecimal digit a hexadecimal digit of the same
value, and does not make it an underscore. -/
theorem tolower_hex (c : Char) (h : isDigitOfBase 'h' c = true) :
    isDigitOfBase 'h' (tolower c) = true ∧ digitValue (tolower c) = digitValue c ∧
      tolower c ≠ '_' := by
  have hx : ('0' ≤ c ∧ c ≤ '9') ∨ ('a' ≤ c ∧ c ≤ 'f') ∨ ('A' ≤ c ∧ c ≤ 'F') := by
    simpa [isDigitOfBase, or_assoc] using h
  have hne : c ≠ '_' := by
    intro hc
    subst hc
    revert h
    decide
  rcases hx with h1 | h2 | h3
  · have hid : tolower c = c := by
      unfold tolower
      rw [if_neg]
      rintro ⟨hA, _⟩
      have h9 : c.toNat ≤ 57 := h1.2
      have hA' : 65 ≤ c.toNat := hA
      omega
    rw [hid]
    exact ⟨h, rfl, hne⟩
  · have hid : tolower c = c := by
      unfold tolower
      rw [if_neg]
      rintro ⟨_, hZ⟩
      have ha : 97 ≤ c.toNat := h2.1
      have hZ' : c.toNat ≤ 90 := hZ
      omega
    rw [hid]
    exact ⟨h, rfl, hne⟩
  · have hlo : 65 ≤ c.toNat := h3.1
    have hhi : c.toNat ≤ 70 := h3.2
    have hc : Char.ofNat c.toNat = c := Char.ofNat_toNat c
    clear h h3 hne
    generalize c.toNat = n at *
    interval_cases n <;> subst hc <;> exact ⟨by decide, by decide, by decide⟩

/-- The value of hexadecimal digits does not depend on the case of the letters. -/
theorem valueFrom_map_tolower (baseValue : Nat) (l : List Char) (acc : Nat)
    (hl : ∀ c ∈ l, digitValue (tolower c) = digitValue c) :
    valueFrom baseValue (l.map tolower) acc = valueFrom baseValue l acc := by
  induction l generalizing acc with
  | nil => rfl
  | cons c cs ih =>
      have hstep : ∀ (d : Char) (ds : List Char) (a : Nat),
          valueFrom baseValue (d :: ds) a = valueFrom baseValue ds (a * baseValue + digitValue d) :=
        fun _ _ _ => rfl
      rw [List.map_cons, hstep, hstep, hl c (List.mem_cons_self _ _)]
      exact ih _ (fun d hd => hl d (List.mem_cons_of_mem _ hd))

/-- Lower-casing commutes with the removal of the underscores of a string of
hexadecimal digits and underscores. -/
theorem filter_map_tolower (s : List Char)
    (hs : ∀ c ∈ s, c = '_' ∨ isDigitOfBase 'h' c = true) :
    (s.map tolower).filter (fun c => c != '_') =
      (s.filter (fun c => c != '_')).map tolower := by
  induction s with
  | nil => rfl
  | cons c cs ih =>
      have ih' := ih (fun d hd => hs d (List.mem_cons_of_mem _ hd))
      rcases hs c (List.mem_cons_self _ _) with hc | hc
      · subst hc
        have hu : tolower '_' = '_' := by decide
        simp [List.filter_cons, hu, ih']
      · have hne : c ≠ '_' := by
          intro h
          subst h
          revert hc
          decide
        have hne' := (tolower_hex c hc).2.2
        simp [List.filter_cons, hne, hne', ih']

/-- C24: for a digit string that is valid for its base and whose numeric value
is at most `2 ^ 64 - 1`, `parseValueByBase` returns exactly that value; the
result is that for the string without its underscores; and for base 16 it is
that for the string in lower case. -/
theorem C24_parse_returns_value (base : Char) (s : List Char) (hbase : isLowerBase base)
    (hvalid : ValidDigits base s)
    (hle : numericValue (baseValueOf base) s ≤ 2 ^ 64 - 1) :
    parseValueByBase s base = numericValue (baseValueOf base) s ∧
      parseValueByBase (s.filter (fun c => c != '_')) base = parseValueByBase s base ∧
      (base = 'h' → parseValueByBase (s.map tolower) base = parseValueByBase s base) := by
  have hvalue : parseValueByBase s base = numericValue (baseValueOf base) s := by
    rw [parseValueByBase_eq base hbase s hvalid, if_pos hle]
  obtain ⟨hall, c0, hc0, hne0⟩ := hvalid
  refine ⟨hvalue, ?_, ?_⟩
  · have hvalid' : ValidDigits base (s.filter (fun c => c != '_')) :=
      ⟨fun c hc => hall c (List.mem_filter.mp hc).1,
        c0, List.mem_filter.mpr ⟨hc0, by simpa using hne0⟩, hne0⟩
    have hsame : numericValue (baseValueOf base) (s.filter (fun c => c != '_')) =
        numericValue (baseValueOf base) s := by
      unfold numericValue
      rw [List.filter_filter]
      simp
    rw [parseValueByBase_eq base hbase _ hvalid', hsame, if_pos hle, hvalue]
  · intro hb
    subst hb
    have hvalid' : ValidDigits 'h' (s.map tolower) := by
      refine ⟨?_, tolower c0, List.mem_map.mpr ⟨c0, hc0, rfl⟩, ?_⟩
      · intro c hc
        obtain ⟨d, hd, hdc⟩ := List.mem_map.mp hc
        subst hdc
        rcases hall d hd with h | h
        · subst h
          exact Or.inl (by decide)
        · exact Or.inr (tolower_hex d h).1
      · rcases hall c0 hc0 with h | h
        · exact absurd h hne0
        · exact (tolower_hex c0 h).2.2
    have hsame : numericValue (baseValueOf 'h') (s.map tolower) =
        numericValue (baseValueOf 'h') s := by
      unfold numericValue
      rw [filter_map_tolower s hall]
      apply valueFrom_map_tolower
      intro c hc
      obtain ⟨hmem, hne⟩ := List.mem_filter.mp hc
      rcases hall c hmem with h | h
      · subst h
        simp at hne
      · exact (tolower_hex c h).2.1
    rw [parseValueByBase_eq 'h' hbase _ hvalid', hsame, if_pos hle, hvalue]

/-- C24 (witness): the theorem at the hexadecimal digit string `F_f`. -/
theorem C24_parse_returns_value_witness :
    numericValue 16 "F_f".toList = 255 ∧
      (parseValueByBase "F_f".toList 'h' = numericValue (baseValueOf 'h') "F_f".toList ∧
        parseValueByBase ("F_f".toList.filter (fun c => c != '_')) 'h' =
          parseValueByBase "F_f".toList 'h' ∧
        (('h' : Char) = 'h' →
          parseValueByBase ("F_f".toList.map tolower) 'h' = parseValueByBase "F_f".toList 'h')) :=
  ⟨by decide,
    C24_parse_returns_value 'h' "F_f".toList (Or.inr (Or.inr (Or.inr rfl)))
      ⟨by decide, 'F', by decide, by decide⟩ (by decide)⟩

/-- C25: whenever `handle` emits a diagnostic for a literal with text `text`,
the literal is a sized literal with a width `w` from 1 to 63 and a parsed
value `v` above `2 ^ w - 1`, the diagnostic is the only one, and its message
names `v` in decimal, the text, `w` and the maximal value `2 ^ w - 1`. -/
theorem C25_message_names_value_text_width_max (literal : IntegerLiteral) (kind : SyntaxKind)
    (text : List Char) (start : SourceLocation) (parent : SyntaxNode)
    (diags : List Diagnostic) (diag : Diagnostic)
    (hnode : literal.syntaxNode = .node kind text start parent)
    (hret : handle literal = some diags) (hmem : diag ∈ diags) :
    ∃ (widthStr valueStr : List Char) (baseChar : Char) (w : Nat),
      matchSized text = some (widthStr, baseChar, valueStr) ∧ stoi widthStr = some w ∧
        1 ≤ w ∧ w ≤ 63 ∧ parseValueByBase valueStr (tolower baseChar) > 2 ^ w - 1 ∧
        diags = [diag] ∧
        diag.message =
          "constant value " ++ toString (parseValueByBase valueStr (tolower baseChar)) ++
            " in '" ++ String.mk text ++ "' overflows " ++ toString w ++
            "-bit width (max value: " ++ toString (2 ^ w - 1) ++ ")" := by
  unfold handle at hret
  rw [hnode] at hret
  simp only [] at hret
  cases hmatch : matchSized text with
  | none =>
      rw [hmatch] at hret
      simp only [Option.some.injEq] at hret
      rw [← hret] at hmem
      exact absurd hmem (List.not_mem_nil _)
  | some groups =>
      obtain ⟨widthStr, baseChar, valueStr⟩ := groups
      rw [hmatch] at hret
      simp only [] at hret
      cases hwidth : stoi widthStr with
      | none =>
          rw [hwidth] at hret
          simp at hret
      | some w =>
          rw [hwidth] at hret
          simp only [] at hret
          by_cases hw : w ≥ 64 ∨ w ≤ 0
          · rw [if_pos hw, Option.some.injEq] at hret
            rw [← hret] at hmem
            exact absurd hmem (List.not_mem_nil _)
          · rw [if_neg hw] at hret
            have h64 : w < 64 := by omega
            rw [maxVal_eq w h64] at hret
            by_cases hfail : parseValueByBase valueStr (tolower baseChar) = UINT64_MAX
            · rw [if_pos hfail, Option.some.injEq] at hret
              rw [← hret] at hmem
              exact absurd hmem (List.not_mem_nil _)
            · rw [if_neg hfail] at hret
              by_cases hover : parseValueByBase valueStr (tolower baseChar) > 2 ^ w - 1
              · rw [if_pos hover, Option.some.injEq] at hret
                rw [← hret, List.mem_singleton] at hmem
                refine ⟨widthStr, valueStr, baseChar, w, rfl, hwidth, by omega, by omega, hover, ?_, ?_⟩
                · rw [← hret, hmem]
                · rw [hmem]
                  rfl
              · rw [if_neg hover, Option.some.injEq] at hret
                rw [← hret] at hmem
                exact absurd hmem (List.not_mem_nil _)

/-- C25 (witness): the theorem at the literal `4'h10`, whose diagnostic has the
message with the value 16, the width 4 and the maximal value 15. -/
theorem C25_message_witness :
    handle (literalOfText "4'h10") =
        some [⟨DiagCode.ConstantWidthCheck, ⟨0, 0⟩,
          "constant value 16 in '4'h10' overflows 4-bit width (max value: 15)"⟩] ∧
      ∃ (widthStr valueStr : List Char) (baseChar : Char) (w : Nat),
        matchSized "4'h10".toList = some (widthStr, baseChar, valueStr) ∧
          stoi widthStr = some w ∧ 1 ≤ w ∧ w ≤ 63 ∧
          parseValueByBase valueStr (tolower baseChar) > 2 ^ w - 1 ∧
          [(⟨DiagCode.ConstantWidthCheck, ⟨0, 0⟩,
            "constant value 16 in '4'h10' overflows 4-bit width (max value: 15)"⟩ :
              Diagnostic)] =
            [⟨DiagCode.ConstantWidthCheck, ⟨0, 0⟩,
              "constant value 16 in '4'h10' overflows 4-bit width (max value: 15)"⟩] ∧
          "constant value 16 in '4'h10' overflows 4-bit width (max value: 15)" =
            "constant value " ++ toString (parseValueByBase valueStr (tolower baseChar)) ++
              " in '" ++ String.mk "4'h10".toList ++ "' overflows " ++ toString w ++
              "-bit width (max value: " ++ toString (2 ^ w - 1) ++ ")" :=
  ⟨by decide,
    C25_message_names_value_text_width_max (literalOfText "4'h10") .IntegerVectorExpression
      "4'h10".toList ⟨0, 0⟩ initialiserContext _
      ⟨DiagCode.ConstantWidthCheck, ⟨0, 0⟩,
        "constant value 16 in '4'h10' overflows 4-bit width (max value: 15)"⟩
      rfl (by decide) (List.mem_singleton.mpr rfl)⟩

/-- A digit string can only be valid for one of the four base letters. -/
theorem isLowerBase_of_validDigits (base : Char) (s : List Char) (hvalid : ValidDigits base s) :
    isLowerBase base := by
  obtain ⟨hall, c, hc, hne⟩ := hvalid
  have hdig : isDigitOfBase base c = true := (hall c hc).resolve_left hne
  unfold isLowerBase
  by_contra hno
  simp only [not_or] at hno
  obtain ⟨h1, h2, h3, h4⟩ := hno
  simp [isDigitOfBase, h1, h2, h3, h4] at hdig

/-- C36: for a sized literal of a declared width `w` from 1 to 63 whose digit
string is valid for its base and has the numeric value `2 ^ 64 - 1`, the result of
`parseValueByBase` is that value, which is also the failure value
`UINT64_MAX`; the value exceeds `2 ^ w - 1`, and `handle` returns without a
diagnostic. -/
theorem C36_sentinel_value_not_reported (literal : IntegerLiteral) (kind : SyntaxKind)
    (text : List Char) (start : SourceLocation) (parent : SyntaxNode)
    (widthStr valueStr : List Char) (baseChar : Char) (w : Nat)
    (hnode : literal.syntaxNode = .node kind text start parent)
    (hmatch : matchSized text = some (widthStr, baseChar, valueStr))
    (hdeclared : decimalValue widthStr = w) (h1 : 1 ≤ w) (h63 : w ≤ 63)
    (hvalid : ValidDigits (tolower baseChar) valueStr)
    (hvalue : numericValue (baseValueOf (tolower baseChar)) valueStr = 2 ^ 64 - 1) :
    parseValueByBase valueStr (tolower baseChar) =
        numericValue (baseValueOf (tolower baseChar)) valueStr ∧
      parseValueByBase valueStr (tolower baseChar) = UINT64_MAX ∧
      numericValue (baseValueOf (tolower baseChar)) valueStr > 2 ^ w - 1 ∧
      handle literal = some [] := by
  have hbase := isLowerBase_of_validDigits _ _ hvalid
  have hwidth : stoi widthStr = some w := by
    unfold stoi INT_MAX
    rw [hdeclared, if_pos (by omega)]
  have hparse : parseValueByBase valueStr (tolower baseChar) =
      numericValue (baseValueOf (tolower baseChar)) valueStr := by
    rw [parseValueByBase_eq _ hbase _ hvalid, if_pos (le_of_eq hvalue)]
  have hmax : parseValueByBase valueStr (tolower baseChar) = UINT64_MAX := by
    rw [hparse, hvalue]
    rfl
  have hlt : 2 ^ w < 2 ^ 64 := Nat.pow_lt_pow_right (by norm_num) (by omega)
  have hpos : 1 ≤ 2 ^ w := Nat.one_le_two_pow
  refine ⟨hparse, hmax, by rw [hvalue]; omega, ?_⟩
  simp only [handle, hnode, hmatch, hwidth, hmax]
  split <;> simp

/-- C36 (witness): the theorem at the literal `4'hFFFF_FFFF_FFFF_FFFF`. -/
theorem C36_sentinel_value_witness :
    parseValueByBase "FFFF_FFFF_FFFF_FFFF".toList (tolower 'h') =
        numericValue (baseValueOf (tolower 'h')) "FFFF_FFFF_FFFF_FFFF".toList ∧
      parseValueByBase "FFFF_FFFF_FFFF_FFFF".toList (tolower 'h') = UINT64_MAX ∧
      numericValue (baseValueOf (tolower 'h')) "FFFF_FFFF_FFFF_FFFF".toList > 2 ^ 4 - 1 ∧
      handle (literalOfText "4'hFFFF_FFFF_FFFF_FFFF") = some [] :=
  C36_sentinel_value_not_reported (literalOfText "4'hFFFF_FFFF_FFFF_FFFF")
    .IntegerVectorExpression "4'hFFFF_FFFF_FFFF_FFFF".toList ⟨0, 0⟩ initialiserContext
    "4".toList "FFFF_FFFF_FFFF_FFFF".toList 'h' 4 rfl (by decide) (by decide) (by decide)
    (by decide) ⟨by decide, 'F', by decide, by decide⟩ (by decide)

end ConstantWidthCheck

/-! ## ConstantFormatting -/

namespace ConstantFormatting

theorem formatLoop_eq (rest result : List Char) (count : Nat) :
    formatLoop rest result count = (groupRev rest count).reverse ++ result := by
  induction rest generalizing result count with
  | nil => simp [formatLoop, groupRev]
  | cons c rest ih =>
      by_cases h : count > 0 ∧ count % 4 = 0
      · simp [formatLoop, groupRev, h, ih]
      · simp [formatLoop, groupRev, h, ih]

theorem removeUnderscores_groupRev (s : List Char) (count : Nat) (hs : ∀ c ∈ s, c ≠ '_') :
    removeUnderscores (groupRev s count) = s := by
  induction s generalizing count with
  | nil => simp [groupRev, removeUnderscores]
  | cons c rest ih =>
      have hc : c ≠ '_' := hs c (List.mem_cons_self _ _)
      have hrest : ∀ d ∈ rest, d ≠ '_' := fun d hd => hs d (List.mem_cons_of_mem _ hd)
      have ih' := ih (count + 1) hrest
      unfold removeUnderscores at ih' ⊢
      by_cases h : count > 0 ∧ count % 4 = 0
      · simp [groupRev, h, hc, ih']
      · simp [groupRev, h, hc, ih']

theorem groupedFrom_groupRev (s : List Char) (count offset : Nat) (hl : Link count offset)
    (hs : ∀ c ∈ s, c ≠ '_') : GroupedFrom (groupRev s count) offset := by
  induction s generalizing count offset with
  | nil => simp [groupRev, GroupedFrom]
  | cons c rest ih =>
      have hc : c ≠ '_' := hs c (List.mem_cons_self _ _)
      have hrest : ∀ d ∈ rest, d ≠ '_' := fun d hd => hs d (List.mem_cons_of_mem _ hd)
      by_cases h : count > 0 ∧ count % 4 = 0
      · have ho : offset % 5 = 4 := by unfold Link at hl; omega
        have hl' : Link (count + 1) (offset + 1 + 1) := by unfold Link at hl ⊢; omega
        have ho' : ¬ (offset + 1) % 5 = 4 := by omega
        simp only [groupRev, h, and_self, if_true, GroupedFrom, ho, true_iff, hc, false_iff, ho',
          not_false_eq_true, true_and]
        exact ih (count + 1) (offset + 1 + 1) hl' hrest
      · have ho : ¬ offset % 5 = 4 := by unfold Link at hl; omega
        have hl' : Link (count + 1) (offset + 1) := by unfold Link at hl ⊢; omega
        simp only [groupRev, h, if_false, GroupedFrom, hc, ho, iff_self, true_and]
        exact ih (count + 1) (offset + 1) hl' hrest

theorem getLast_groupRev (s : List Char) (count : Nat) (hs : ∀ c ∈ s, c ≠ '_') :
    (groupRev s count).getLast? ≠ some '_' := by
  induction s generalizing count with
  | nil => simp [groupRev]
  | cons c rest ih =>
      have hc : c ≠ '_' := hs c (List.mem_cons_self _ _)
      have hrest : ∀ d ∈ rest, d ≠ '_' := fun d hd => hs d (List.mem_cons_of_mem _ hd)
      have ih' := ih (count + 1) hrest
      cases hg : groupRev rest (count + 1) with
      | nil =>
          by_cases h : count > 0 ∧ count % 4 = 0
          · simp [groupRev, h, hg, hc]
          · simp [groupRev, h, hg, hc]
      | cons d ds =>
          rw [hg] at ih'
          by_cases h : count > 0 ∧ count % 4 = 0
          · simpa [groupRev, h, hg, List.getLast?_cons_cons] using ih'
          · simpa [groupRev, h, hg, List.getLast?_cons_cons] using ih'

/-- A list that does not end with an underscore and has no other characters
than underscores is empty. -/
theorem eq_nil_of_removeUnderscores_eq_nil (r : List Char) (offset : Nat)
    (hg : GroupedFrom r offset) (hlast : r.getLast? ≠ some '_')
    (hs : removeUnderscores r = []) : r = [] := by
  cases r with
  | nil => rfl
  | cons c rest =>
      exfalso
      have hc : c = '_' := by
        by_contra hne
        simp [removeUnderscores, List.filter_cons, hne] at hs
      subst hc
      cases rest with
      | nil => simp at hlast
      | cons d ds =>
          have hd : d = '_' := by
            by_contra hne
            simp [removeUnderscores, List.filter_cons, hne] at hs
          subst hd
          simp only [GroupedFrom, true_iff] at hg
          omega

theorem grouped_unique (r r2 : List Char) (offset : Nat)
    (hg : GroupedFrom r offset) (hg2 : GroupedFrom r2 offset)
    (hs : removeUnderscores r = removeUnderscores r2)
    (hlast : r.getLast? ≠ some '_') (hlast2 : r2.getLast? ≠ some '_') : r = r2 := by
  induction r generalizing r2 offset with
  | nil =>
      exact (eq_nil_of_removeUnderscores_eq_nil r2 offset hg2 hlast2
        (by rw [← hs]; rfl)).symm
  | cons c rest ih =>
      cases r2 with
      | nil =>
          exact eq_nil_of_removeUnderscores_eq_nil (c :: rest) offset hg hlast (by rw [hs]; rfl)
      | cons c2 rest2 =>
          simp only [GroupedFrom] at hg hg2
          have htail : rest.getLast? ≠ some '_' := by
            cases rest with
            | nil => simp
            | cons d ds => simpa [List.getLast?_cons_cons] using hlast
          have htail2 : rest2.getLast? ≠ some '_' := by
            cases rest2 with
            | nil => simp
            | cons d ds => simpa [List.getLast?_cons_cons] using hlast2
          by_cases ho : offset % 5 = 4
          · have hc : c = '_' := hg.1.2 ho
            have hc2 : c2 = '_' := hg2.1.2 ho
            subst hc; subst hc2
            have hs' : removeUnderscores rest = removeUnderscores rest2 := by
              simpa [removeUnderscores, List.filter_cons] using hs
            rw [ih rest2 (offset + 1) hg.2 hg2.2 hs' htail htail2]
          · have hc : c ≠ '_' := fun h => ho (hg.1.1 h)
            have hc2 : c2 ≠ '_' := fun h => ho (hg2.1.1 h)
            have hs' : c = c2 ∧ removeUnderscores rest = removeUnderscores rest2 := by
              simpa [removeUnderscores, List.filter_cons, hc, hc2] using hs
            rw [hs'.1, ih rest2 (offset + 1) hg.2 hg2.2 hs'.2 htail htail2]

theorem groupedFrom_iff (r : List Char) (offset : Nat) :
    GroupedFrom r offset ↔
      ∀ i, i < r.length → (r[i]? = some '_' ↔ (offset + i) % 5 = 4) := by
  induction r generalizing offset with
  | nil => simp [GroupedFrom]
  | cons c rest ih =>
      simp only [GroupedFrom, ih (offset + 1)]
      constructor
      · rintro ⟨h0, hrest⟩ i hi
        cases i with
        | zero => simpa using h0
        | succ j =>
            have := hrest j (by simpa using hi)
            simpa [Nat.add_assoc, Nat.add_comm 1 j] using this
      · intro h
        refine ⟨by simpa using h 0 (by simp), fun j hj => ?_⟩
        have := h (j + 1) (by simpa using hj)
        simpa [Nat.add_assoc, Nat.add_comm 1 j] using this

/-- The reversed digit part equals what `formatLoop` emits exactly when it is
grouped at the positions 4, 9, 14, ... and does not end with an underscore. -/
theorem eq_groupRev_iff (r : List Char) :
    r = groupRev (removeUnderscores r) 0 ↔ GroupedFrom r 0 ∧ r.getLast? ≠ some '_' := by
  have hclean : ∀ c ∈ removeUnderscores r, c ≠ '_' := by
    intro c hc
    simpa [removeUnderscores] using (List.mem_filter.mp hc).2
  have hlink : Link 0 0 := by unfold Link; omega
  constructor
  · intro h
    rw [h]
    exact ⟨groupedFrom_groupRev _ 0 0 hlink hclean, getLast_groupRev _ 0 hclean⟩
  · rintro ⟨hg, hlast⟩
    exact grouped_unique r _ 0 hg (groupedFrom_groupRev _ 0 0 hlink hclean)
      (removeUnderscores_groupRev _ 0 hclean).symm hlast (getLast_groupRev _ 0 hclean)

/-- For a digit part with more than 4 digits, `isProperlyFormattedBinary`
decides the grouping property of the specification. -/
theorem isProperlyFormattedBinary_iff (binary : List Char)
    (hlen : (removeUnderscores binary).length > 4) :
    isProperlyFormattedBinary binary = true ↔ GroupedEveryFour binary := by
  have hnot : ¬ (removeUnderscores binary).length ≤ 4 := by omega
  have hrev : removeUnderscores binary.reverse = (removeUnderscores binary).reverse := by
    simp [removeUnderscores, List.filter_reverse]
  have hstep : binary = (groupRev (removeUnderscores binary).reverse 0).reverse ↔
      binary.reverse = groupRev (removeUnderscores binary.reverse) 0 := by
    rw [hrev]
    constructor
    · intro h
      rw [← List.reverse_reverse (groupRev _ 0), ← h]
    · intro h
      rw [← h, List.reverse_reverse]
  simp only [isProperlyFormattedBinary, formatBinaryWithUnderscores, hnot, if_false,
    formatLoop_eq, List.append_nil, beq_iff_eq]
  rw [hstep, eq_groupRev_iff, groupedFrom_iff]
  simp [GroupedEveryFour, List.getLast?_reverse]

theorem span_digits (width rest : List Char) (hwidth : ∀ c ∈ width, isDecDigit c = true) :
    (width ++ apostrophe :: rest).span isDecDigit = (width, apostrophe :: rest) := by
  rw [List.span_eq_take_drop]
  induction width with
  | nil =>
      have h : isDecDigit apostrophe = false := by decide
      simp [List.takeWhile_cons, List.dropWhile_cons, h]
  | cons c cs ih =>
      have hc : isDecDigit c = true := hwidth c (List.mem_cons_self _ _)
      have ih' := ih (fun d hd => hwidth d (List.mem_cons_of_mem _ hd))
      simp only [List.cons_append, List.takeWhile_cons, List.dropWhile_cons, hc, if_true]
      simp only [Prod.mk.injEq] at ih' ⊢
      exact ⟨by rw [ih'.1], ih'.2⟩

/-- The third regular expression matches a text made of a width, an apostrophe,
`b` or `B` and a non-empty digit part over `0`, `1` and `_`, and returns the
width and the digit part. -/
theorem matchSizedBinary_eq (width digits : List Char) (b : Char)
    (hne : width ≠ []) (hwidth : ∀ c ∈ width, isDecDigit c = true) (hb : b = 'b' ∨ b = 'B')
    (hd : digits ≠ []) (hdigits : ∀ c ∈ digits, c = '0' ∨ c = '1' ∨ c = '_') :
    matchSizedBinary (width ++ apostrophe :: b :: digits) = some (width, digits) := by
  cases digits with
  | nil => exact absurd rfl hd
  | cons d ds =>
      have hall : (d :: ds).all isBinDigitOrUnderscore = true := by
        rw [List.all_eq_true]
        intro c hc
        rcases hdigits c hc with h | h | h <;> subst h <;> decide
      have hw : width.isEmpty = false := by
        cases width with
        | nil => exact absurd rfl hne
        | cons _ _ => rfl
      have hb' : (b == 'b' || b == 'B') = true := by
        rcases hb with h | h <;> subst h <;> decide
      have hq : (apostrophe == apostrophe) = true := by decide
      simp only [matchSizedBinary, span_digits width _ hwidth, hw, hq, hb', hall,
        Bool.not_false, Bool.and_self, if_true]

/-- A text with an apostrophe behind a non-empty width matches neither of the
first two regular expressions. -/
theorem not_unsized_of_sized (width rest : List Char) (hne : width ≠ [])
    (hwidth : ∀ c ∈ width, isDecDigit c = true) :
    matchUnsizedDecimal (width ++ apostrophe :: rest) = false ∧
      matchUnsizedBased (width ++ apostrophe :: rest) = false := by
  constructor
  · have h : isDecDigit apostrophe = false := by decide
    simp [matchUnsizedDecimal, List.all_append, h]
  · cases width with
    | nil => exact absurd rfl hne
    | cons c cs =>
        have hc : isDecDigit c = true := hwidth c (List.mem_cons_self _ _)
        have hq : (c == apostrophe) = false := by
          rw [beq_eq_false_iff_ne]
          intro h
          rw [h] at hc
          exact absurd hc (by decide)
        have hall : ∀ t : List Char, matchUnsizedBased (c :: t) = false := by
          intro t
          cases t with
          | nil => rfl
          | cons b t' =>
              cases t' with
              | nil => rfl
              | cons d ds => simp [matchUnsizedBased, hq]
        exact hall _

/-- What `handle` does with a literal that is in no exempt context, from its
text alone. -/
theorem handle_of_not_exempt (expr : IntegerLiteral) (kind : SyntaxKind) (text : List Char)
    (start : SourceLocation) (parent : SyntaxNode)
    (hnode : expr.syntaxNode = .node kind text start parent) (hctx : isExempt expr = false) :
    handle expr =
      if matchUnsizedDecimal text then
        if text ≠ ['0'] ∧ text ≠ ['1'] then
          [⟨DiagCode.ConstantFormatting, start, unsizedDecimalMessage text⟩]
        else []
      else if matchUnsizedBased text then
        [⟨DiagCode.ConstantFormatting, start, unsizedBasedMessage text⟩]
      else
        match matchSizedBinary text with
        | some (width, binary) =>
            if (removeUnderscores binary).length > 4 then
              if !isProperlyFormattedBinary binary then
                [⟨DiagCode.ConstantFormatting, start, binaryGroupingMessage width
                  (formatBinaryWithUnderscores (removeUnderscores binary))⟩]
              else []
            else []
        | none => [] := by
  simp only [isExempt, Bool.or_eq_false_iff] at hctx
  obtain ⟨⟨⟨⟨⟨h1, h2⟩, h3⟩, h4⟩, h5⟩, h6⟩ := hctx
  unfold handle
  rw [hnode]
  simp only [h1, h2, h3, h4, h5, h6, Bool.false_eq_true, if_false]

/-- What `handle` does with a literal in an exempt context: nothing. -/
theorem handle_of_exempt (expr : IntegerLiteral) (hctx : isExempt expr = true) :
    handle expr = [] := by
  unfold handle
  cases hnode : expr.syntaxNode with
  | null => rfl
  | node kind text start parent =>
      simp only [isExempt, Bool.or_eq_true] at hctx
      simp only []
      rcases hctx with ((((h | h) | h) | h) | h) | h <;> simp [h]

/-- The value of a text of decimal digits is 0 for the text `0` and 1 for the
text `1`. -/
theorem decimalValue_zero_one : decimalValue ['0'] = 0 ∧ decimalValue ['1'] = 1 := by
  constructor <;> decide

/-- What `handle` does with a text of decimal digits only whose value is neither
0 nor 1, when none of the six context tests holds: exactly one diagnostic, at
the start of the literal. -/
theorem handle_of_unsized_decimal (expr : IntegerLiteral) (kind : SyntaxKind)
    (text : List Char) (start : SourceLocation) (parent : SyntaxNode)
    (hnode : expr.syntaxNode = .node kind text start parent)
    (hne : text ≠ []) (hdigits : ∀ c ∈ text, isDecDigit c = true)
    (h0 : decimalValue text ≠ 0) (h1 : decimalValue text ≠ 1)
    (hctx : isExempt expr = false) :
    handle expr = [⟨DiagCode.ConstantFormatting, start, unsizedDecimalMessage text⟩] ∧
      (handle expr).length = 1 := by
  have hm : matchUnsizedDecimal text = true := by
    have hempty : text.isEmpty = false := by
      cases text with
      | nil => exact absurd rfl hne
      | cons _ _ => rfl
    simp only [matchUnsizedDecimal, hempty, Bool.not_false, Bool.true_and, List.all_eq_true]
    exact hdigits
  have ht0 : text ≠ ['0'] := fun h => h0 (by rw [h]; exact decimalValue_zero_one.1)
  have ht1 : text ≠ ['1'] := fun h => h1 (by rw [h]; exact decimalValue_zero_one.2)
  rw [handle_of_not_exempt expr kind text start parent hnode hctx]
  simp [hm, ht0, ht1]

/-- A text that begins with an apostrophe does not match the first regular
expression. -/
theorem not_unsizedDecimal_of_apostrophe (rest : List Char) :
    matchUnsizedDecimal (apostrophe :: rest) = false := by
  have h : isDecDigit apostrophe = false := by decide
  simp [matchUnsizedDecimal, h]

/-- C16 (counterexample): the unsized decimal literal `00` denotes the value
zero, and `handle` reports it; so it does with `01`, which denotes one. -/
theorem C16_double_zero_reported :
    decimalValue "00".toList = 0 ∧ decimalValue "01".toList = 1 ∧
      matchUnsizedDecimal "00".toList = true ∧
      handle (decimalLiteralOfText "00") =
        [⟨DiagCode.ConstantFormatting, ⟨0, 0⟩, unsizedDecimalMessage "00".toList⟩] ∧
      handle (decimalLiteralOfText "01") =
        [⟨DiagCode.ConstantFormatting, ⟨0, 0⟩, unsizedDecimalMessage "01".toList⟩] := by
  refine ⟨by decide, by decide, by decide, by decide, by decide⟩

/-- C16 (amended): an unsized decimal literal (a text of decimal digits only)
gets no diagnostic if and only if its text is exactly `0` or exactly `1`, or it
is in an exempt context. -/
theorem C16_text_zero_or_one_not_reported (expr : IntegerLiteral) (kind : SyntaxKind)
    (text : List Char) (start : SourceLocation) (parent : SyntaxNode)
    (hnode : expr.syntaxNode = .node kind text start parent)
    (hne : text ≠ []) (hdigits : ∀ c ∈ text, isDecDigit c = true) :
    handle expr = [] ↔ (text = ['0'] ∨ text = ['1'] ∨ isExempt expr = true) := by
  cases hctx : isExempt expr
  · have hm : matchUnsizedDecimal text = true := by
      have hempty : text.isEmpty = false := by
        cases text with
        | nil => exact absurd rfl hne
        | cons _ _ => rfl
      simp only [matchUnsizedDecimal, hempty, Bool.not_false, Bool.true_and, List.all_eq_true]
      exact hdigits
    rw [handle_of_not_exempt expr kind text start parent hnode hctx, hm]
    by_cases h0 : text = ['0']
    · simp [h0]
    · by_cases h1 : text = ['1']
      · simp [h1]
      · simp [h0, h1]
  · simp [handle_of_exempt expr hctx]

/-- C16 (witness): the theorem at the initialiser `0`. -/
theorem C16_text_zero_or_one_witness :
    handle (decimalLiteralOfText "0") = [] ↔
      ("0".toList = ['0'] ∨ "0".toList = ['1'] ∨ isExempt (decimalLiteralOfText "0") = true) :=
  C16_text_zero_or_one_not_reported (decimalLiteralOfText "0") .IntegerLiteralExpression
    "0".toList ⟨0, 0⟩ initialiserContext rfl (by decide) (by decide)

/-- Stripping the underscores of the canonical grouping of a digit string
without underscores gives the digit string back. -/
theorem removeUnderscores_format (clean : List Char) (hclean : ∀ c ∈ clean, c ≠ '_') :
    removeUnderscores (formatBinaryWithUnderscores clean) = clean := by
  unfold formatBinaryWithUnderscores
  by_cases hlen : clean.length ≤ 4
  · rw [if_pos hlen]
    unfold removeUnderscores
    rw [List.filter_eq_self]
    intro c hc
    simpa using hclean c hc
  · rw [if_neg hlen, formatLoop_eq, List.append_nil]
    have hrev : ∀ c ∈ clean.reverse, c ≠ '_' := fun c hc => hclean c (List.mem_reverse.mp hc)
    have h := removeUnderscores_groupRev clean.reverse 0 hrev
    unfold removeUnderscores at h ⊢
    rw [List.filter_reverse, h, List.reverse_reverse]

/-- C17: the canonicalisation of the binary grouping is idempotent, for every
string, and its result is what `isProperlyFormattedBinary` accepts. -/
theorem C17_canon_idempotent (s : List Char) :
    canon (canon s) = canon s ∧ isProperlyFormattedBinary (canon s) = true := by
  have hclean : ∀ c ∈ removeUnderscores s, c ≠ '_' := by
    intro c hc
    simpa [removeUnderscores] using (List.mem_filter.mp hc).2
  have hstrip : removeUnderscores (canon s) = removeUnderscores s :=
    removeUnderscores_format _ hclean
  constructor
  · unfold canon at hstrip ⊢
    rw [hstrip]
  · unfold isProperlyFormattedBinary
    unfold canon at hstrip ⊢
    simp only [hstrip, beq_self_eq_true]

/-- The walk of `ancestorLoop` finds a target kind exactly when one lies below
the compilation unit. -/
theorem ancestorLoop_eq_any (target : SyntaxKind → Bool) (node : SyntaxNode) :
    ancestorLoop target node = (kindsBelowUnit node).any target := by
  induction node with
  | null => rfl
  | node kind text start parent ih =>
      unfold kindsBelowUnit at ih ⊢
      by_cases hk : kind = .CompilationUnit
      · subst hk
        simp [ancestorLoop, ancestorKinds, List.takeWhile_cons]
      · have hne : (kind != .CompilationUnit) = true := by simpa using hk
        simp only [ancestorLoop, ancestorKinds, List.takeWhile_cons, hne, if_true, ne_eq, hk,
          not_false_eq_true, List.any_cons, ih]
        cases target kind <;> simp

/-- The walk of `isParameterAssignment` from depth `depth` finds a parameter kind
exactly when one is among the next `5 - depth` kinds. -/
theorem isParameterAssignmentLoop_eq_any (node : SyntaxNode) (depth : Nat) :
    isParameterAssignmentLoop node depth =
      ((ancestorKinds node).take (5 - depth)).any isParameterKind := by
  induction node generalizing depth with
  | null => simp [isParameterAssignmentLoop, ancestorKinds]
  | node kind text start parent ih =>
      by_cases hd : depth < 5
      · obtain ⟨m, hm⟩ : ∃ m, 5 - depth = m + 1 := ⟨4 - depth, by omega⟩
        have hm' : 5 - (depth + 1) = m := by omega
        simp only [isParameterAssignmentLoop, hd, if_true, ancestorKinds, hm, List.take_succ_cons,
          List.any_cons, ih (depth + 1), hm']
        cases kind <;> simp [isParameterKind]
      · have h0 : 5 - depth = 0 := by omega
        simp [isParameterAssignmentLoop, hd, h0]

/-- C18: an integer literal that has, below the compilation unit, an ancestor
that is a bit, element or identifier select, a range select, a variable
dimension, or a `for` loop or generate loop gets no diagnostic, whatever its
text. -/
theorem C18_select_dimension_loop_exempt (expr : IntegerLiteral) (kind : SyntaxKind)
    (text : List Char) (start : SourceLocation) (parent : SyntaxNode)
    (hnode : expr.syntaxNode = .node kind text start parent)
    (h : ∃ k ∈ kindsBelowUnit parent, isSelectDimensionOrLoop k = true) :
    handle expr = [] := by
  obtain ⟨k, hmem, hk⟩ := h
  apply handle_of_exempt
  have hbit : isBitSelect expr = (kindsBelowUnit parent).any (fun k =>
      k == .ElementSelectExpression || k == .IdentifierSelectName || k == .BitSelect) := by
    simp only [isBitSelect, hnode, ancestorLoop_eq_any]
  have hrange : isRangeSelect expr = (kindsBelowUnit parent).any (fun k =>
      k == .SimpleRangeSelect || k == .AscendingRangeSelect || k == .DescendingRangeSelect) := by
    simp only [isRangeSelect, hnode, ancestorLoop_eq_any]
  have hdim : isArrayDimension expr =
      (kindsBelowUnit parent).any (fun k => k == .VariableDimension) := by
    simp only [isArrayDimension, hnode, ancestorLoop_eq_any]
  have hloop : isGenerateLoopBound expr = (kindsBelowUnit parent).any (fun k =>
      k == .ForLoopStatement || k == .LoopGenerate) := by
    simp only [isGenerateLoopBound, hnode, ancestorLoop_eq_any]
  have hcases : (k == .ElementSelectExpression || k == .IdentifierSelectName ||
        k == .BitSelect) = true ∨
      (k == .SimpleRangeSelect || k == .AscendingRangeSelect ||
        k == .DescendingRangeSelect) = true ∨
      (k == .VariableDimension) = true ∨ (k == .ForLoopStatement || k == .LoopGenerate) = true := by
    revert hk
    cases k <;> decide
  simp only [isExempt, Bool.or_eq_true]
  rcases hcases with h1 | h2 | h3 | h4
  · exact Or.inl (Or.inl (Or.inl (Or.inr (by rw [hbit]; exact List.any_eq_true.mpr ⟨k, hmem, h1⟩))))
  · exact Or.inl (Or.inl (Or.inr (by rw [hrange]; exact List.any_eq_true.mpr ⟨k, hmem, h2⟩)))
  · exact Or.inl (Or.inr (by rw [hdim]; exact List.any_eq_true.mpr ⟨k, hmem, h3⟩))
  · exact Or.inr (by rw [hloop]; exact List.any_eq_true.mpr ⟨k, hmem, h4⟩)

/-- C18 (witness): the theorem at the literal `3` of `bit_out = bus[3];`. -/
theorem C18_select_dimension_loop_witness :
    handle (decimalLiteralUnder "3" bitSelectContext) = [] :=
  C18_select_dimension_loop_exempt (decimalLiteralUnder "3" bitSelectContext)
    .IntegerLiteralExpression "3".toList ⟨0, 0⟩ bitSelectContext rfl
    ⟨.BitSelect, by decide, by decide⟩

/-- C19 (counterexample): the literal `10` of `assign #(10 + 5) a = b;` has a
`DelayControl` ancestor, three levels up, and `handle` reports it. -/
theorem C19_literal_in_delay_expression_reported :
    SyntaxKind.DelayControl ∈ ancestorKinds delayExpressionContext ∧
      isTimingDelay (decimalLiteralUnder "10" delayExpressionContext) = false ∧
      handle (decimalLiteralUnder "10" delayExpressionContext) =
        [⟨DiagCode.ConstantFormatting, ⟨0, 0⟩, unsizedDecimalMessage "10".toList⟩] := by
  refine ⟨by decide, by decide, by decide⟩

/-- C19 (amended): an integer literal whose parent or grandparent is a
`DelayControl` gets no diagnostic. -/
theorem C19_delay_parent_or_grandparent_exempt (expr : IntegerLiteral) (kind : SyntaxKind)
    (text : List Char) (start : SourceLocation) (parent : SyntaxNode)
    (hnode : expr.syntaxNode = .node kind text start parent)
    (h : SyntaxKind.DelayControl ∈ (ancestorKinds parent).take 2) :
    handle expr = [] := by
  apply handle_of_exempt
  have hdelay : isTimingDelay expr = true := by
    simp only [isTimingDelay, hnode]
    cases parent with
    | null => simp [ancestorKinds] at h
    | node pk ptext pstart pp =>
        cases pp with
        | null =>
            have hpk : pk = .DelayControl := by simpa [ancestorKinds, eq_comm] using h
            simp [hasKind, hpk]
        | node gk gtext gstart gp =>
            have hor : pk = .DelayControl ∨ gk = .DelayControl := by
              simpa [ancestorKinds, eq_comm] using h
            rcases hor with hpk | hgk
            · simp [hasKind, hpk]
            · simp [hasKind, hgk, SyntaxNode.parent]
  simp [isExempt, hdelay]

/-- C19 (witness): the theorem at the literal `10` of `assign #10 a = b;`. -/
theorem C19_delay_parent_or_grandparent_witness :
    handle (decimalLiteralUnder "10" plainDelayContext) = [] :=
  C19_delay_parent_or_grandparent_exempt (decimalLiteralUnder "10" plainDelayContext)
    .IntegerLiteralExpression "10".toList ⟨0, 0⟩ plainDelayContext rfl (by decide)

/-- C20 (counterexample): the literal `255` of
`parameter X = (A + (B * (C - 255)));` lies in a parameter declaration, nine
levels up, and `handle` reports it. -/
theorem C20_literal_deep_in_parameter_reported :
    SyntaxKind.ParameterDeclaration ∈ ancestorKinds deepParameterContext ∧
      isParameterAssignment (decimalLiteralUnder "255" deepParameterContext) = false ∧
      handle (decimalLiteralUnder "255" deepParameterContext) =
        [⟨DiagCode.ConstantFormatting, ⟨0, 0⟩, unsizedDecimalMessage "255".toList⟩] := by
  refine ⟨by decide, by decide, by decide⟩

/-- C20 (amended): an integer literal that has a `ParameterDeclaration`,
`ParameterDeclarationStatement` or `ParameterPortList` among its first five
ancestors gets no diagnostic. -/
theorem C20_parameter_within_five_levels_exempt (expr : IntegerLiteral) (kind : SyntaxKind)
    (text : List Char) (start : SourceLocation) (parent : SyntaxNode)
    (hnode : expr.syntaxNode = .node kind text start parent)
    (h : ∃ k ∈ (ancestorKinds parent).take 5, isParameterKind k = true) :
    handle expr = [] := by
  apply handle_of_exempt
  have hparam : isParameterAssignment expr = true := by
    simp only [isParameterAssignment, hnode, isParameterAssignmentLoop_eq_any]
    exact List.any_eq_true.mpr h
  simp [isExempt, hparam]

/-- C20 (witness): the theorem at the literal `8` of `#(parameter WIDTH = 8)`. -/
theorem C20_parameter_within_five_levels_witness :
    handle (decimalLiteralUnder "8" parameterPortContext) = [] :=
  C20_parameter_within_five_levels_exempt (decimalLiteralUnder "8" parameterPortContext)
    .IntegerLiteralExpression "8".toList ⟨0, 0⟩ parameterPortContext rfl
    ⟨.ParameterDeclaration, by decide, by decide⟩

/-- The third regular expression, on a text made of a width, an apostrophe, a
letter and a digit part, either does not match, or the letter is `b` or `B`
and the groups are the width and the digit part. -/
theorem matchSizedBinary_cases (width digits : List Char) (b : Char)
    (hwidth : ∀ c ∈ width, isDecDigit c = true) :
    matchSizedBinary (width ++ apostrophe :: b :: digits) = none ∨
      (matchSizedBinary (width ++ apostrophe :: b :: digits) = some (width, digits) ∧
        (b = 'b' ∨ b = 'B')) := by
  cases digits with
  | nil =>
      left
      simp only [matchSizedBinary, span_digits width _ hwidth]
  | cons d ds =>
      by_cases hcond : (!width.isEmpty && apostrophe == apostrophe && (b == 'b' || b == 'B') &&
          (d :: ds).all isBinDigitOrUnderscore) = true
      · right
        refine ⟨by simp only [matchSizedBinary, span_digits width _ hwidth, hcond, if_true], ?_⟩
        simp only [Bool.and_eq_true, Bool.or_eq_true, beq_iff_eq] at hcond
        exact hcond.1.2
      · left
        simp only [matchSizedBinary, span_digits width _ hwidth, hcond, if_false]
        rfl

/-- C26: a sized literal with the base letter of octal, decimal or hexadecimal,
and a sized binary literal with at most 4 digits besides its underscores, get
no diagnostic. -/
theorem C26_other_bases_and_short_binary_pass (expr : IntegerLiteral) (kind : SyntaxKind)
    (text : List Char) (start : SourceLocation) (parent : SyntaxNode)
    (width digits : List Char) (b : Char)
    (hnode : expr.syntaxNode = .node kind text start parent)
    (htext : text = width ++ apostrophe :: b :: digits)
    (hne : width ≠ []) (hwidth : ∀ c ∈ width, isDecDigit c = true)
    (hb : (b = 'o' ∨ b = 'O' ∨ b = 'd' ∨ b = 'D' ∨ b = 'h' ∨ b = 'H') ∨
      ((b = 'b' ∨ b = 'B') ∧ (removeUnderscores digits).length ≤ 4)) :
    handle expr = [] := by
  cases hctx : isExempt expr
  · have hun := not_unsized_of_sized width (b :: digits) hne hwidth
    rw [handle_of_not_exempt expr kind text start parent hnode hctx, htext, hun.1, hun.2]
    simp only [Bool.false_eq_true, if_false]
    rcases matchSizedBinary_cases width digits b hwidth with hnone | ⟨hsome, hbin⟩
    · rw [hnone]
    · rw [hsome]
      rcases hb with hb | ⟨_, hlen⟩
      · exfalso
        rcases hbin with h | h <;> subst h <;> revert hb <;> decide
      · have hnot : ¬ (removeUnderscores digits).length > 4 := by omega
        simp only [hnot, if_false]
  · exact handle_of_exempt expr hctx

/-- C26 (witness): the theorem at the initialisers `16'd65535` and `4'b10_10`. -/
theorem C26_other_bases_and_short_binary_witness :
    handle (literalOfText "16'd65535") = [] ∧ handle (literalOfText "4'b10_10") = [] :=
  ⟨C26_other_bases_and_short_binary_pass (literalOfText "16'd65535") .IntegerVectorExpression
      "16'd65535".toList ⟨0, 0⟩ initialiserContext "16".toList "65535".toList 'd' rfl
      (by decide) (by decide) (by decide) (Or.inl (by decide)),
    C26_other_bases_and_short_binary_pass (literalOfText "4'b10_10") .IntegerVectorExpression
      "4'b10_10".toList ⟨0, 0⟩ initialiserContext "4".toList "10_10".toList 'b' rfl
      (by decide) (by decide) (by decide) (Or.inr ⟨Or.inl rfl, by decide⟩)⟩

/-- C37: `isGenerateLoopBound` returns `true` exactly for the literals that
have a `ForLoopStatement` or `LoopGenerate` among their ancestors below the
compilation unit, wherever in the loop they stand; such a literal gets no
diagnostic, whatever its text. -/
theorem C37_literal_anywhere_in_loop_exempt (expr : IntegerLiteral) (kind : SyntaxKind)
    (text : List Char) (start : SourceLocation) (parent : SyntaxNode)
    (hnode : expr.syntaxNode = .node kind text start parent) :
    (isGenerateLoopBound expr = true ↔
        ∃ k ∈ kindsBelowUnit parent, k = .ForLoopStatement ∨ k = .LoopGenerate) ∧
      ((∃ k ∈ kindsBelowUnit parent, k = .ForLoopStatement ∨ k = .LoopGenerate) →
        handle expr = []) := by
  have hloop : isGenerateLoopBound expr = true ↔
      ∃ k ∈ kindsBelowUnit parent, k = .ForLoopStatement ∨ k = .LoopGenerate := by
    simp only [isGenerateLoopBound, hnode, ancestorLoop_eq_any, List.any_eq_true,
      Bool.or_eq_true, beq_iff_eq]
  refine ⟨hloop, fun h => ?_⟩
  apply handle_of_exempt
  simp [isExempt, hloop.mpr h]

/-- C37 (witness): the theorem at the literal `8'b10101100` of the statement
`x = 8'b10101100;` in the body of a `for` loop, which is no initialiser,
condition or step of the loop. -/
theorem C37_literal_anywhere_in_loop_witness :
    isGenerateLoopBound (literalUnder "8'b10101100" loopBodyContext) = true ∧
      handle (literalUnder "8'b10101100" loopBodyContext) = [] :=
  ⟨(C37_literal_anywhere_in_loop_exempt (literalUnder "8'b10101100" loopBodyContext)
      .IntegerVectorExpression "8'b10101100".toList ⟨0, 0⟩ loopBodyContext rfl).1.mpr
      ⟨.ForLoopStatement, by decide, Or.inl rfl⟩,
    (C37_literal_anywhere_in_loop_exempt (literalUnder "8'b10101100" loopBodyContext)
      .IntegerVectorExpression "8'b10101100".toList ⟨0, 0⟩ loopBodyContext rfl).2
      ⟨.ForLoopStatement, by decide, Or.inl rfl⟩⟩

/-- The walk of `classify` returns true exactly when some ancestor that the
depth bound admits has a target kind and no ancestor before it has a boundary
kind. -/
theorem classifyWalk_iff (targetKinds boundaryKinds : List SyntaxKind) (node : SyntaxNode)
    (maxDepth : Option Nat) :
    classifyWalk targetKinds boundaryKinds node maxDepth = true ↔
      ∃ (before : List SyntaxKind) (k : SyntaxKind) (after : List SyntaxKind),
        ancestorKinds node = before ++ k :: after ∧ k ∈ targetKinds ∧
          (∀ b ∈ before, b ∉ boundaryKinds) ∧
          ∀ depth, maxDepth = some depth → before.length < depth := by
  induction node generalizing maxDepth with
  | null => simp [classifyWalk, ancestorKinds]
  | node kind text start parent ih =>
      have hstep : classifyWalk targetKinds boundaryKinds (.node kind text start parent)
          maxDepth =
            if maxDepth = some 0 then false
            else if kind ∈ targetKinds then true
            else if kind ∈ boundaryKinds then false
            else classifyWalk targetKinds boundaryKinds parent
              (maxDepth.map (fun depth => depth - 1)) := by
        simp [classifyWalk]
      rw [hstep]
      constructor
      · intro h
        by_cases h0 : maxDepth = some 0
        · simp [h0] at h
        · by_cases ht : kind ∈ targetKinds
          · refine ⟨[], kind, ancestorKinds parent, rfl, ht, by simp, ?_⟩
            intro depth hd
            subst hd
            have : depth ≠ 0 := fun hz => h0 (by rw [hz])
            simpa using Nat.pos_of_ne_zero this
          · by_cases hb : kind ∈ boundaryKinds
            · simp [h0, ht, hb] at h
            · simp only [h0, ht, hb, if_false] at h
              obtain ⟨before, k, after, hanc, hk, hbefore, hdepth⟩ := (ih _).mp h
              refine ⟨kind :: before, k, after, by simp [ancestorKinds, hanc], hk, ?_, ?_⟩
              · intro b hmem
                rcases List.mem_cons.mp hmem with hbk | hbm
                · subst hbk
                  exact hb
                · exact hbefore b hbm
              · intro depth hd
                subst hd
                have hlt := hdepth (depth - 1) rfl
                simp only [List.length_cons]
                omega
      · rintro ⟨before, k, after, hanc, hk, hbefore, hdepth⟩
        have h0 : maxDepth ≠ some 0 := by
          intro hz
          exact absurd (hdepth 0 hz) (by omega)
        by_cases ht : kind ∈ targetKinds
        · simp [h0, ht]
        · cases before with
          | nil =>
              simp only [ancestorKinds, List.nil_append, List.cons.injEq] at hanc
              rw [hanc.1] at ht
              exact absurd hk ht
          | cons b rest =>
              simp only [ancestorKinds, List.cons_append, List.cons.injEq] at hanc
              have hb : kind ∉ boundaryKinds := by
                rw [hanc.1]
                exact hbefore b (List.mem_cons_self _ _)
              simp only [h0, ht, hb, if_false]
              refine (ih _).mpr ⟨rest, k, after, hanc.2, hk,
                fun b2 hb2 => hbefore b2 (List.mem_cons_of_mem _ hb2), ?_⟩
              intro depth hd
              cases maxDepth with
              | none => simp at hd
              | some d =>
                  simp only [Option.map_some', Option.some.injEq] at hd
                  have hlt := hdepth d rfl
                  simp only [List.length_cons] at hlt
                  omega

/-- The loop shared by the four unbounded predicates is the walk of `classify`
with the boundary kind `CompilationUnit` and no depth bound, when
`CompilationUnit` is no target kind. -/
theorem ancestorLoop_eq_classifyWalk (target : SyntaxKind → Bool) (targetKinds : List SyntaxKind)
    (htarget : ∀ k, target k = targetKinds.contains k)
    (hunit : SyntaxKind.CompilationUnit ∉ targetKinds) (node : SyntaxNode) :
    ancestorLoop target node = classifyWalk targetKinds [.CompilationUnit] node none := by
  induction node with
  | null => rfl
  | node kind text start parent ih =>
      by_cases hk : kind = .CompilationUnit
      · subst hk
        simp [ancestorLoop, classifyWalk, hunit]
      · have hb : ([SyntaxKind.CompilationUnit].contains kind) = false := by simpa using hk
        simp only [ancestorLoop, classifyWalk, ne_eq, hk, not_false_eq_true, if_true, htarget, hb,
          ih, Option.map_none', Bool.false_eq_true, if_false]
        simp

/-- The loop of `isParameterAssignment` at depth `depth` is the walk of
`classify` with `5 - depth` ancestors left. -/
theorem isParameterAssignmentLoop_eq_classifyWalk (node : SyntaxNode) (depth : Nat) :
    isParameterAssignmentLoop node depth =
      classifyWalk [.ParameterDeclarationStatement, .ParameterDeclaration, .ParameterPortList] []
        node (some (5 - depth)) := by
  induction node generalizing depth with
  | null => simp [isParameterAssignmentLoop, classifyWalk]
  | node kind text start parent ih =>
      by_cases hd : depth < 5
      · have hne : 5 - depth ≠ 0 := by omega
        have hsub : 5 - depth - 1 = 5 - (depth + 1) := by omega
        simp only [isParameterAssignmentLoop, hd, if_true, classifyWalk, Option.some.injEq, hne,
          if_false, ih (depth + 1), Option.map_some', hsub]
        cases kind <;> simp
      · have h0 : 5 - depth = 0 := by omega
        simp [isParameterAssignmentLoop, hd, classifyWalk, h0]

/-- C32: each of the six context predicates of `ConstantFormatting` is the
generic walk `classify` of the specification from the parent of the literal:
`isTimingDelay` with the target `DelayControl` and the depth bound 2,
`isParameterAssignment` with the three parameter kinds and the depth bound 5,
and `isBitSelect`, `isRangeSelect`, `isArrayDimension` and
`isGenerateLoopBound` with their target kinds, the boundary `CompilationUnit`
and no depth bound. The walk is true exactly when an ancestor within the depth
bound has a target kind and no ancestor before it is of a boundary kind; so it
is false when the root, a boundary kind or the depth bound comes first. -/
theorem C32_context_predicates_are_classify (expr : IntegerLiteral) :
    isTimingDelay expr = classify expr.syntaxNode [.DelayControl] [] (some 2) ∧
      isParameterAssignment expr =
        classify expr.syntaxNode
          [.ParameterDeclarationStatement, .ParameterDeclaration, .ParameterPortList] []
          (some 5) ∧
      isBitSelect expr =
        classify expr.syntaxNode [.ElementSelectExpression, .IdentifierSelectName, .BitSelect]
          [.CompilationUnit] none ∧
      isRangeSelect expr =
        classify expr.syntaxNode
          [.SimpleRangeSelect, .AscendingRangeSelect, .DescendingRangeSelect]
          [.CompilationUnit] none ∧
      isArrayDimension expr =
        classify expr.syntaxNode [.VariableDimension] [.CompilationUnit] none ∧
      isGenerateLoopBound expr =
        classify expr.syntaxNode [.ForLoopStatement, .LoopGenerate] [.CompilationUnit] none ∧
      (∀ (node : SyntaxNode) (targetKinds boundaryKinds : List SyntaxKind)
        (maxDepth : Option Nat),
        classify node targetKinds boundaryKinds maxDepth = true ↔
          ∃ (before : List SyntaxKind) (k : SyntaxKind) (after : List SyntaxKind),
            ancestorKinds node.parent = before ++ k :: after ∧ k ∈ targetKinds ∧
              (∀ b ∈ before, b ∉ boundaryKinds) ∧
              ∀ depth, maxDepth = some depth → before.length < depth) := by
  refine ⟨?_, ?_, ?_, ?_, ?_, ?_, fun node targetKinds boundaryKinds maxDepth =>
    classifyWalk_iff targetKinds boundaryKinds node.parent maxDepth⟩
  · unfold isTimingDelay classify
    cases expr.syntaxNode with
    | null => rfl
    | node kind text start parent =>
        cases parent with
        | null => rfl
        | node k1 t1 s1 grandparent =>
            by_cases h1 : k1 = .DelayControl
            · subst h1
              simp [hasKind, classifyWalk, SyntaxNode.parent]
            · cases grandparent with
              | null => simp [hasKind, classifyWalk, SyntaxNode.parent, h1]
              | node k2 t2 s2 rest =>
                  by_cases h2 : k2 = .DelayControl
                  · subst h2
                    simp [hasKind, classifyWalk, SyntaxNode.parent, h1]
                  · cases rest <;> simp [hasKind, classifyWalk, SyntaxNode.parent, h1, h2]
  · unfold isParameterAssignment classify
    cases expr.syntaxNode with
    | null => rfl
    | node kind text start parent =>
        exact isParameterAssignmentLoop_eq_classifyWalk parent 0
  · unfold isBitSelect classify
    cases expr.syntaxNode with
    | null => rfl
    | node kind text start parent =>
        exact ancestorLoop_eq_classifyWalk _ [.ElementSelectExpression, .IdentifierSelectName, .BitSelect]
          (fun k => by cases k <;> rfl) (by decide) parent
  · unfold isRangeSelect classify
    cases expr.syntaxNode with
    | null => rfl
    | node kind text start parent =>
        exact ancestorLoop_eq_classifyWalk _ [.SimpleRangeSelect, .AscendingRangeSelect, .DescendingRangeSelect]
          (fun k => by cases k <;> rfl) (by decide) parent
  · unfold isArrayDimension classify
    cases expr.syntaxNode with
    | null => rfl
    | node kind text start parent =>
        exact ancestorLoop_eq_classifyWalk _ [.VariableDimension]
          (fun k => by cases k <;> rfl) (by decide) parent
  · unfold isGenerateLoopBound classify
    cases expr.syntaxNode with
    | null => rfl
    | node kind text start parent =>
        exact ancestorLoop_eq_classifyWalk _ [.ForLoopStatement, .LoopGenerate]
          (fun k => by cases k <;> rfl) (by decide) parent

/-- What a match of the third regular expression says about the text: it is
a non-empty width of decimal digits, an apostrophe, `b` or `B`, and a non-empty
digit part over `0`, `1` and `_`; the groups are the width and the digit part. -/
theorem matchSizedBinary_some (text width binary : List Char)
    (hmatch : matchSizedBinary text = some (width, binary)) :
    ∃ b : Char, text = width ++ apostrophe :: b :: binary ∧ (b = 'b' ∨ b = 'B') ∧
      width ≠ [] ∧ (∀ c ∈ width, isDecDigit c = true) ∧ binary ≠ [] ∧
      ∀ c ∈ binary, c = '0' ∨ c = '1' ∨ c = '_' := by
  unfold matchSizedBinary at hmatch
  have hspan : text.span isDecDigit =
      (text.takeWhile isDecDigit, text.dropWhile isDecDigit) := List.span_eq_take_drop _ _
  have htext : text = text.takeWhile isDecDigit ++ text.dropWhile isDecDigit :=
    (List.takeWhile_append_dropWhile isDecDigit text).symm
  have hdigits : ∀ c ∈ text.takeWhile isDecDigit, isDecDigit c = true :=
    fun c hc => List.mem_takeWhile_imp hc
  rw [hspan] at hmatch
  generalize text.takeWhile isDecDigit = w at hmatch htext hdigits
  generalize text.dropWhile isDecDigit = rest at hmatch htext
  match rest, hmatch with
  | q :: b :: d :: ds, hmatch =>
      simp only [] at hmatch
      split at hmatch
      · rename_i hcond
        simp only [Option.some.injEq, Prod.mk.injEq] at hmatch
        obtain ⟨hw, hbin⟩ := hmatch
        subst hw hbin
        simp only [Bool.and_eq_true, Bool.not_eq_true', Bool.or_eq_true, beq_iff_eq,
          List.all_eq_true] at hcond
        obtain ⟨⟨⟨hne, hq⟩, hb⟩, hall⟩ := hcond
        refine ⟨b, by rw [htext, hq], hb, ?_, hdigits, by simp, ?_⟩
        · intro hnil
          rw [hnil] at hne
          simp at hne
        · intro c hc
          have hbin := hall c hc
          simp only [isBinDigitOrUnderscore, Bool.or_eq_true, beq_iff_eq] at hbin
          rcases hbin with (h0 | h1) | hu
          · exact Or.inl h0
          · exact Or.inr (Or.inl h1)
          · exact Or.inr (Or.inr hu)
      · simp at hmatch
  | [], hmatch => simp at hmatch
  | [_], hmatch => simp at hmatch
  | [_, _], hmatch => simp at hmatch

/-- The characters of the canonical grouping are those of the digit string, and
underscores. -/
theorem mem_formatBinaryWithUnderscores (clean : List Char) (hclean : ∀ c ∈ clean, c ≠ '_')
    (c : Char) (hc : c ∈ formatBinaryWithUnderscores clean) : c ∈ clean ∨ c = '_' := by
  by_cases hu : c = '_'
  · exact Or.inr hu
  · left
    have hmem : c ∈ removeUnderscores (formatBinaryWithUnderscores clean) := by
      unfold removeUnderscores
      exact List.mem_filter.mpr ⟨hc, by simpa using hu⟩
    rwa [removeUnderscores_format clean hclean] at hmem

/-- A sized binary literal whose digit part is a canonical grouping gets no
diagnostic. -/
theorem handle_of_canonical (replacement : IntegerLiteral) (kind : SyntaxKind)
    (start : SourceLocation) (parent : SyntaxNode) (width clean : List Char) (b : Char)
    (hnode : replacement.syntaxNode =
      .node kind (width ++ apostrophe :: b :: formatBinaryWithUnderscores clean) start parent)
    (hne : width ≠ []) (hwidth : ∀ c ∈ width, isDecDigit c = true) (hb : b = 'b' ∨ b = 'B')
    (hclean : ∀ c ∈ clean, c = '0' ∨ c = '1') (hlen : clean ≠ []) :
    handle replacement = [] := by
  have hnu : ∀ c ∈ clean, c ≠ '_' := by
    intro c hc
    rcases hclean c hc with h | h <;> subst h <;> decide
  have hstrip := removeUnderscores_format clean hnu
  cases hctx : isExempt replacement
  · have hfmt : formatBinaryWithUnderscores clean ≠ [] := by
      intro hnil
      rw [hnil] at hstrip
      exact hlen (by simpa [removeUnderscores] using hstrip.symm)
    have hdigits : ∀ c ∈ formatBinaryWithUnderscores clean, c = '0' ∨ c = '1' ∨ c = '_' := by
      intro c hc
      rcases mem_formatBinaryWithUnderscores clean hnu c hc with h | h
      · rcases hclean c h with h0 | h1
        · exact Or.inl h0
        · exact Or.inr (Or.inl h1)
      · exact Or.inr (Or.inr h)
    have hun := not_unsized_of_sized width (b :: formatBinaryWithUnderscores clean) hne hwidth
    have hproper : isProperlyFormattedBinary (formatBinaryWithUnderscores clean) = true := by
      unfold isProperlyFormattedBinary
      simp only [hstrip, beq_self_eq_true]
    rw [handle_of_not_exempt replacement kind _ start parent hnode hctx, hun.1, hun.2,
      matchSizedBinary_eq width _ b hne hwidth hb hfmt hdigits]
    simp [hproper]
  · exact handle_of_exempt replacement hctx

/-- C35: when `handle` reports a literal whose text matches the pattern of a
sized binary literal, the diagnostic is the one of the binary grouping, its
message shows the literal made of the width, `'b` and
`formatBinaryWithUnderscores` of the digits without their underscores, and a
literal with that text gets no diagnostic, wherever it stands. -/
theorem C35_replacement_literal_accepted (expr : IntegerLiteral) (kind : SyntaxKind)
    (text : List Char) (start : SourceLocation) (parent : SyntaxNode)
    (width binary : List Char)
    (hnode : expr.syntaxNode = .node kind text start parent)
    (hmatch : matchSizedBinary text = some (width, binary))
    (hreport : handle expr ≠ []) :
    handle expr =
        [⟨DiagCode.ConstantFormatting, start,
          "Binary constants of more than 4 bits must be separated every 4 places with underscores (e.g., " ++
            String.mk (width ++ apostrophe :: 'b' ::
              formatBinaryWithUnderscores (removeUnderscores binary)) ++ ")"⟩] ∧
      ∀ (replacement : IntegerLiteral) (kind2 : SyntaxKind) (start2 : SourceLocation)
        (parent2 : SyntaxNode),
        replacement.syntaxNode =
            .node kind2 (width ++ apostrophe :: 'b' ::
              formatBinaryWithUnderscores (removeUnderscores binary)) start2 parent2 →
          handle replacement = [] := by
  obtain ⟨b, htext, hb, hne, hwidth, hbin, hdigits⟩ := matchSizedBinary_some text width binary hmatch
  have hctx : isExempt expr = false := by
    cases h : isExempt expr
    · rfl
    · exact absurd (handle_of_exempt expr h) hreport
  have hun := not_unsized_of_sized width (b :: binary) hne hwidth
  have hhandle := handle_of_not_exempt expr kind text start parent hnode hctx
  rw [htext, hun.1, hun.2, ← htext, hmatch] at hhandle
  simp only [Bool.false_eq_true, if_false] at hhandle
  have hmessage : binaryGroupingMessage width
      (formatBinaryWithUnderscores (removeUnderscores binary)) =
        "Binary constants of more than 4 bits must be separated every 4 places with underscores (e.g., " ++
          String.mk (width ++ apostrophe :: 'b' ::
            formatBinaryWithUnderscores (removeUnderscores binary)) ++ ")" := by
    unfold binaryGroupingMessage
    apply String.ext
    simp [apostrophe]
  by_cases hlen : (removeUnderscores binary).length > 4
  · rw [if_pos hlen] at hhandle
    cases hproper : isProperlyFormattedBinary binary
    · rw [hproper] at hhandle
      simp only [Bool.not_false, if_true] at hhandle
      refine ⟨by rw [hhandle, hmessage], ?_⟩
      intro replacement kind2 start2 parent2 hnode2
      refine handle_of_canonical replacement kind2 start2 parent2 width
        (removeUnderscores binary) 'b' hnode2 hne hwidth (Or.inl rfl) ?_ ?_
      · intro c hc
        obtain ⟨hmem, hnu⟩ := List.mem_filter.mp hc
        rcases hdigits c hmem with h | h | h
        · exact Or.inl h
        · exact Or.inr h
        · subst h
          simp at hnu
      · intro hnil
        rw [hnil] at hlen
        simp at hlen
    · rw [hproper] at hhandle
      simp only [Bool.not_true, Bool.false_eq_true, if_false] at hhandle
      exact absurd hhandle hreport
  · rw [if_neg hlen] at hhandle
    exact absurd hhandle hreport

/-- C35 (witness): the theorem at the initialiser `8'B10101100`, for which the
message shows `8'b1010_1100`. -/
theorem C35_replacement_literal_witness :
    handle (literalOfText "8'B10101100") =
        [⟨DiagCode.ConstantFormatting, ⟨0, 0⟩,
          "Binary constants of more than 4 bits must be separated every 4 places with underscores (e.g., " ++
            String.mk ("8".toList ++ apostrophe :: 'b' ::
              formatBinaryWithUnderscores (removeUnderscores "10101100".toList)) ++ ")"⟩] ∧
      formatBinaryWithUnderscores (removeUnderscores "10101100".toList) = "1010_1100".toList ∧
      handle (literalOfText "8'b1010_1100") = [] :=
  ⟨(C35_replacement_literal_accepted (literalOfText "8'B10101100") .IntegerVectorExpression
      "8'B10101100".toList ⟨0, 0⟩ initialiserContext "8".toList "10101100".toList rfl
      (by decide) (by decide)).1,
    by decide,
    (C35_replacement_literal_accepted (literalOfText "8'B10101100") .IntegerVectorExpression
      "8'B10101100".toList ⟨0, 0⟩ initialiserContext "8".toList "10101100".toList rfl
      (by decide) (by decide)).2 (literalOfText "8'b1010_1100") .IntegerVectorExpression ⟨0, 0⟩
      initialiserContext (by decide)⟩

/-- The first group of a list of more than 4 elements. -/
theorem chunksOfFour_cons (a b c d e : Char) (rest : List Char) :
    chunksOfFour (a :: b :: c :: d :: e :: rest) = [a, b, c, d] :: chunksOfFour (e :: rest) := by
  rw [chunksOfFour]

/-- A list of at most 4 elements is one group. -/
theorem chunksOfFour_short (l : List Char) (h : l.length ≤ 4) : chunksOfFour l = [l] := by
  match l, h with
  | [], _ => rfl
  | [_], _ => rfl
  | [_, _], _ => rfl
  | [_, _, _], _ => rfl
  | [_, _, _, _], _ => rfl
  | _ :: _ :: _ :: _ :: _ :: _, h => simp at h

/-- There is always a group. -/
theorem chunksOfFour_ne_nil (l : List Char) : chunksOfFour l ≠ [] := by
  match l with
  | [] => simp [chunksOfFour]
  | [_] => simp [chunksOfFour]
  | [_, _] => simp [chunksOfFour]
  | [_, _, _] => simp [chunksOfFour]
  | [_, _, _, _] => simp [chunksOfFour]
  | a :: b :: c :: d :: e :: rest => rw [chunksOfFour_cons]; simp

/-- What `formatLoop` emits depends on `count` modulo 4 only, once `count` is
positive. -/
theorem groupRev_add_four (s : List Char) (count : Nat) (h : 0 < count) :
    groupRev s (count + 4) = groupRev s count := by
  induction s generalizing count with
  | nil => rfl
  | cons c rest ih =>
      have hcond : (count + 4 > 0 ∧ (count + 4) % 4 = 0) ↔ (count > 0 ∧ count % 4 = 0) := by
        omega
      have hnext : count + 4 + 1 = count + 1 + 4 := by omega
      simp only [groupRev, hcond, hnext, ih (count + 1) (by omega)]

/-- Joining at least two groups: the first, the separator, and the rest
joined. -/
theorem intercalate_cons_cons (sep g h : List Char) (t : List (List Char)) :
    List.intercalate sep (g :: h :: t) = g ++ sep ++ List.intercalate sep (h :: t) := by
  simp [List.intercalate]

/-- Joining one group. -/
theorem intercalate_single (sep g : List Char) : List.intercalate sep [g] = g := by
  simp [List.intercalate]

/-- Joining with one more group at the end. -/
theorem intercalate_concat (sep g : List Char) (L : List (List Char)) (hL : L ≠ []) :
    List.intercalate sep (L ++ [g]) = List.intercalate sep L ++ sep ++ g := by
  induction L with
  | nil => exact absurd rfl hL
  | cons h t ih =>
      cases t with
      | nil => simp [List.intercalate]
      | cons h2 t2 =>
          have := ih (by simp)
          rw [List.cons_append, List.cons_append, intercalate_cons_cons, ← List.cons_append, this,
            intercalate_cons_cons]
          simp

/-- Reversing a joined list reverses the groups and their order. -/
theorem reverse_intercalate (x : Char) (L : List (List Char)) :
    (List.intercalate [x] L).reverse = List.intercalate [x] (L.map List.reverse).reverse := by
  induction L with
  | nil => rfl
  | cons g t ih =>
      cases t with
      | nil => simp [List.intercalate]
      | cons h t2 =>
          rw [intercalate_cons_cons, List.map_cons, List.reverse_cons,
            intercalate_concat _ _ _ (by simp), ← ih]
          simp

/-- What `formatLoop` emits from `count = 0` is the groups of 4 of its input,
joined by underscores. -/
theorem groupRev_zero (n : Nat) : ∀ s : List Char, s.length = n →
    groupRev s 0 = List.intercalate ['_'] (chunksOfFour s) := by
  induction n using Nat.strong_induction_on with
  | _ n ih =>
      intro s hs
      match s, hs with
      | [], _ => rfl
      | [_], _ => rfl
      | [_, _], _ => rfl
      | [_, _, _], _ => rfl
      | [_, _, _, _], _ => rfl
      | a :: b :: c :: d :: e :: rest, hs =>
          have hrec := ih (e :: rest).length (by simp at hs ⊢; omega) (e :: rest) rfl
          have h5 : groupRev rest 5 = groupRev rest 1 := groupRev_add_four rest 1 (by omega)
          have hstep : groupRev (a :: b :: c :: d :: e :: rest) 0 =
              [a, b, c, d] ++ ['_'] ++ groupRev (e :: rest) 0 := by
            simp [groupRev, h5]
          rw [hstep, hrec, chunksOfFour_cons]
          cases hch : chunksOfFour (e :: rest) with
          | nil =>
              exfalso
              revert hch
              exact chunksOfFour_ne_nil _
          | cons g t => rw [intercalate_cons_cons]

/-- The chunks of a non-empty list: all but the last hold 4 elements, the last
1 to 4, their number is the length divided by 4 and rounded up, and their
elements are elements of the list. -/
theorem chunksOfFour_spec (n : Nat) : ∀ s : List Char, s.length = n → s ≠ [] →
    ∃ (init : List (List Char)) (last : List Char), chunksOfFour s = init ++ [last] ∧
      (∀ g ∈ init, g.length = 4) ∧ 1 ≤ last.length ∧ last.length ≤ 4 ∧
      init.length + 1 = (s.length + 3) / 4 ∧ ∀ g ∈ chunksOfFour s, ∀ c ∈ g, c ∈ s := by
  induction n using Nat.strong_induction_on with
  | _ n ih =>
      intro s hs hne
      match s, hs, hne with
      | [], _, hne => exact absurd rfl hne
      | [a], hs, _ =>
          exact ⟨[], [a], rfl, by simp, by simp, by simp, by simp, by simp [chunksOfFour]⟩
      | [a, b], hs, _ =>
          exact ⟨[], [a, b], rfl, by simp, by simp, by simp, by simp,
            by simp [chunksOfFour]⟩
      | [a, b, c], hs, _ =>
          exact ⟨[], [a, b, c], rfl, by simp, by simp, by simp, by simp,
            by simp [chunksOfFour]⟩
      | [a, b, c, d], hs, _ =>
          exact ⟨[], [a, b, c, d], rfl, by simp, by simp, by simp, by simp,
            by simp [chunksOfFour]⟩
      | a :: b :: c :: d :: e :: rest, hs, _ =>
          obtain ⟨init, last, hch, hinit, h1, h4, hcount, hmem⟩ :=
            ih (e :: rest).length (by simp at hs ⊢; omega) (e :: rest) rfl (by simp)
          refine ⟨[a, b, c, d] :: init, last, by rw [chunksOfFour_cons, hch]; rfl, ?_, h1, h4,
            ?_, ?_⟩
          · intro g hg
            rcases List.mem_cons.mp hg with h | h
            · subst h; rfl
            · exact hinit g h
          · simp only [List.length_cons] at hs hcount ⊢
            omega
          · intro g hg x hx
            rw [chunksOfFour_cons] at hg
            rcases List.mem_cons.mp hg with h | h
            · subst h
              simp only [List.mem_cons, List.mem_singleton, List.not_mem_nil, or_false] at hx
              simp only [List.mem_cons]
              tauto
            · have := hmem g h x hx
              simp only [List.mem_cons] at this ⊢
              tauto

/-- The result of `formatBinaryWithUnderscores` is the groups of 4 of the
reversed digit string, put back in order and joined by underscores. -/
theorem formatBinaryWithUnderscores_eq_intercalate (d : List Char) :
    formatBinaryWithUnderscores d =
      List.intercalate ['_'] ((chunksOfFour d.reverse).map List.reverse).reverse := by
  rw [← reverse_intercalate, ← groupRev_zero _ _ rfl]
  unfold formatBinaryWithUnderscores
  by_cases hlen : d.length ≤ 4
  · rw [if_pos hlen, groupRev_zero _ _ rfl, chunksOfFour_short _ (by simpa using hlen),
      intercalate_single, List.reverse_reverse]
  · rw [if_neg hlen, formatLoop_eq, List.append_nil]

/-- C33: for a string `d` of `n ≥ 1` binary digits, stripping the underscores of
`formatBinaryWithUnderscores d` gives `d` back; splitting it at the underscores
gives `(n + 3) / 4` groups (`n / 4` rounded up), none of them empty, of which
the first has 1 to 4 digits and every other has exactly 4; and a digit part
with the digits `d` is accepted by `isProperlyFormattedBinary` exactly when it
equals that string, which for `n > 4` outside the exempt contexts is exactly
when `handle` adds no diagnostic for the literal. -/
theorem C33_format_is_canonical_grouping (d : List Char)
    (hd : ∀ c ∈ d, c = '0' ∨ c = '1') (hn : 1 ≤ d.length) :
    removeUnderscores (formatBinaryWithUnderscores d) = d ∧
      ((formatBinaryWithUnderscores d).splitOn '_').length = (d.length + 3) / 4 ∧
      (∀ g ∈ (formatBinaryWithUnderscores d).splitOn '_', g ≠ []) ∧
      (∃ (first : List Char) (rest : List (List Char)),
        (formatBinaryWithUnderscores d).splitOn '_' = first :: rest ∧
          1 ≤ first.length ∧ first.length ≤ 4 ∧ ∀ g ∈ rest, g.length = 4) ∧
      (∀ binary : List Char, removeUnderscores binary = d →
        (isProperlyFormattedBinary binary = true ↔ binary = formatBinaryWithUnderscores d)) ∧
      (∀ (expr : IntegerLiteral) (kind : SyntaxKind) (text : List Char) (start : SourceLocation)
        (parent : SyntaxNode) (width binary : List Char) (b : Char),
        expr.syntaxNode = .node kind text start parent →
        text = width ++ apostrophe :: b :: binary →
        width ≠ [] → (∀ c ∈ width, isDecDigit c = true) → (b = 'b' ∨ b = 'B') →
        (∀ c ∈ binary, c = '0' ∨ c = '1' ∨ c = '_') → removeUnderscores binary = d →
        d.length > 4 → isExempt expr = false →
          (handle expr = [] ↔ binary = formatBinaryWithUnderscores d)) := by
  have hnu : ∀ c ∈ d, c ≠ '_' := by
    intro c hc
    rcases hd c hc with h | h <;> subst h <;> decide
  have hne : d.reverse ≠ [] := by
    intro h
    rw [List.reverse_eq_nil_iff] at h
    rw [h] at hn
    simp at hn
  obtain ⟨init, last, hch, hinit, h1, h4, hcount, hmem⟩ :=
    chunksOfFour_spec d.reverse.length d.reverse rfl hne
  have hgroups : ((chunksOfFour d.reverse).map List.reverse).reverse =
      last.reverse :: (init.map List.reverse).reverse := by
    rw [hch]
    simp
  have hsplit : (formatBinaryWithUnderscores d).splitOn '_' =
      last.reverse :: (init.map List.reverse).reverse := by
    rw [formatBinaryWithUnderscores_eq_intercalate, ← hgroups]
    apply List.splitOn_intercalate
    · intro g hg hu
      simp only [List.mem_reverse, List.mem_map] at hg
      obtain ⟨g0, hg0, rfl⟩ := hg
      have := hmem g0 hg0 '_' (List.mem_reverse.mp hu)
      exact hnu '_' (List.mem_reverse.mp this) rfl
    · rw [hgroups]
      simp
  have hrest : ∀ g ∈ (init.map List.reverse).reverse, g.length = 4 := by
    intro g hg
    simp only [List.mem_reverse, List.mem_map] at hg
    obtain ⟨g0, hg0, rfl⟩ := hg
    rw [List.length_reverse]
    exact hinit g0 hg0
  have hproper : ∀ binary : List Char, removeUnderscores binary = d →
      (isProperlyFormattedBinary binary = true ↔ binary = formatBinaryWithUnderscores d) := by
    intro binary hbin
    unfold isProperlyFormattedBinary
    simp only [hbin, beq_iff_eq]
  refine ⟨removeUnderscores_format d hnu, ?_, ?_, ?_, hproper, ?_⟩
  · rw [hsplit]
    simp only [List.length_cons, List.length_reverse, List.length_map]
    rw [hcount, List.length_reverse]
  · rw [hsplit]
    intro g hg
    rcases List.mem_cons.mp hg with h | h
    · subst h
      intro hnil
      have : last.reverse.length = 0 := by rw [hnil]; rfl
      rw [List.length_reverse] at this
      omega
    · intro hnil
      have := hrest g h
      rw [hnil] at this
      simp at this
  · exact ⟨last.reverse, _, hsplit, by rw [List.length_reverse]; exact h1,
      by rw [List.length_reverse]; exact h4, hrest⟩
  · intro expr kind text start parent width binary b hnode htext hwne hwidth hb hdigits hbin
      hlen hctx
    have hbne : binary ≠ [] := by
      intro hnil
      rw [hnil] at hbin
      rw [← hbin] at hlen
      simp [removeUnderscores] at hlen
    have hlen2 : (removeUnderscores binary).length > 4 := by rw [hbin]; exact hlen
    have hun := not_unsized_of_sized width (b :: binary) hwne hwidth
    rw [handle_of_not_exempt expr kind text start parent hnode hctx, htext, hun.1, hun.2,
      matchSizedBinary_eq width binary b hwne hwidth hb hbne hdigits, ← hproper binary hbin]
    simp only [Bool.false_eq_true, if_false, hlen2, if_true]
    cases isProperlyFormattedBinary binary <;> simp

/-- C33 (witness): the theorem at the 8 digits `10101100`, whose canonical
grouping is `1010_1100`, in 2 groups. -/
theorem C33_format_is_canonical_grouping_witness :
    formatBinaryWithUnderscores "10101100".toList = "1010_1100".toList ∧
      removeUnderscores (formatBinaryWithUnderscores "10101100".toList) = "10101100".toList ∧
      ((formatBinaryWithUnderscores "10101100".toList).splitOn '_').length =
        ("10101100".toList.length + 3) / 4 ∧
      ("10101100".toList.length + 3) / 4 = 2 :=
  ⟨by decide,
    (C33_format_is_canonical_grouping "10101100".toList (by decide) (by decide)).1,
    (C33_format_is_canonical_grouping "10101100".toList (by decide) (by decide)).2.1,
    by decide⟩

/-- C3 (failing input): the unsized decimal literal `255` of the statement
`x = 255;` in the body of a `for` loop of an `always_comb` block has a value
other than 0 and 1 and is no parameter default, stands in no select, no array
dimension and no timing delay, and is no bound of a generate loop; yet
`isGenerateLoopBound` holds for it and `handle` adds no diagnostic. As the
initialiser of a variable the same literal gets its diagnostic. The unsized
decimal literal `1_000`, in no exempt context, gets none either: its text does
not match the first pattern. -/
theorem C3_literal_in_loop_body_not_reported :
    matchUnsizedDecimal "255".toList = true ∧ decimalValue "255".toList = 255 ∧
      isTimingDelay (decimalLiteralUnder "255" assignmentInLoopBodyContext) = false ∧
      isParameterAssignment (decimalLiteralUnder "255" assignmentInLoopBodyContext) = false ∧
      isBitSelect (decimalLiteralUnder "255" assignmentInLoopBodyContext) = false ∧
      isRangeSelect (decimalLiteralUnder "255" assignmentInLoopBodyContext) = false ∧
      isArrayDimension (decimalLiteralUnder "255" assignmentInLoopBodyContext) = false ∧
      SyntaxKind.LoopGenerate ∉ ancestorKinds assignmentInLoopBodyContext ∧
      isGenerateLoopBound (decimalLiteralUnder "255" assignmentInLoopBodyContext) = true ∧
      handle (decimalLiteralUnder "255" assignmentInLoopBodyContext) = [] ∧
      handle (decimalLiteralOfText "255") =
        [⟨DiagCode.ConstantFormatting, ⟨0, 0⟩, unsizedDecimalMessage "255".toList⟩] ∧
      isExempt (decimalLiteralOfText "1_000") = false ∧
      matchUnsizedDecimal "1_000".toList = false ∧
      handle (decimalLiteralOfText "1_000") = [] := by
  refine ⟨by decide, by decide, by decide, by decide, by decide, by decide, by decide,
    by decide, by decide, by decide, by decide, by decide, by decide, by decide⟩

/-- A text that begins with an apostrophe does not match the third regular
expression. -/
theorem matchSizedBinary_of_apostrophe (rest : List Char) :
    matchSizedBinary (apostrophe :: rest) = none := by
  have hspan := span_digits [] rest (by simp)
  simp only [List.nil_append] at hspan
  unfold matchSizedBinary
  rw [hspan]
  cases rest with
  | nil => rfl
  | cons b r =>
      cases r with
      | nil => rfl
      | cons d ds => simp

/-- C15 (amended): an unsized based literal (an apostrophe, at most one signed
marker `s` or `S`, a base letter and a non-empty digit part) gets exactly one
diagnostic if and only if it has no signed marker, its digit part is made of
hexadecimal digits and underscores only, and none of the six context tests of
`handle` holds for it; otherwise it gets none. -/
theorem C15_unsized_based_reported_iff (expr : IntegerLiteral) (kind : SyntaxKind)
    (text : List Char) (start : SourceLocation) (parent : SyntaxNode)
    (signed digits : List Char) (b : Char)
    (hnode : expr.syntaxNode = .node kind text start parent)
    (htext : text = apostrophe :: (signed ++ b :: digits))
    (hsigned : signed = [] ∨ signed = ['s'] ∨ signed = ['S'])
    (hb : isBaseChar b = true) (hne : digits ≠ []) :
    (handle expr = [⟨DiagCode.ConstantFormatting, start, unsizedBasedMessage text⟩] ↔
        (signed = [] ∧ (∀ c ∈ digits, isHexDigitOrUnderscore c = true) ∧
          isExempt expr = false)) ∧
      (handle expr = [] ↔
        ¬ (signed = [] ∧ (∀ c ∈ digits, isHexDigitOrUnderscore c = true) ∧
          isExempt expr = false)) := by
  obtain ⟨d, ds, hds⟩ : ∃ d ds, digits = d :: ds := by
    cases digits with
    | nil => exact absurd rfl hne
    | cons d ds => exact ⟨d, ds, rfl⟩
  have hq : (apostrophe == apostrophe) = true := by decide
  have hbased : matchUnsizedBased text =
      (decide (signed = []) && digits.all isHexDigitOrUnderscore) := by
    rw [htext, hds]
    rcases hsigned with h | h | h <;> subst h
    · simp [matchUnsizedBased, hq, hb]
    · have hs : isBaseChar 's' = false := by decide
      simp [matchUnsizedBased, hs]
    · have hs : isBaseChar 'S' = false := by decide
      simp [matchUnsizedBased, hs]
  cases hctx : isExempt expr
  · have hhandle := handle_of_not_exempt expr kind text start parent hnode hctx
    have hdec : matchUnsizedDecimal text = false := by
      rw [htext]
      exact not_unsizedDecimal_of_apostrophe _
    have hbin : matchSizedBinary text = none := by
      rw [htext]
      exact matchSizedBinary_of_apostrophe _
    rw [hdec, hbased, hbin] at hhandle
    simp only [Bool.false_eq_true, if_false] at hhandle
    by_cases hcond : signed = [] ∧ ∀ c ∈ digits, isHexDigitOrUnderscore c = true
    · have hall : (decide (signed = []) && digits.all isHexDigitOrUnderscore) = true := by
        simp [hcond.1, List.all_eq_true.mpr hcond.2]
      rw [hall] at hhandle
      simp only [if_true] at hhandle
      rw [hhandle]
      exact ⟨⟨fun _ => ⟨hcond.1, hcond.2, rfl⟩, fun _ => rfl⟩,
        ⟨fun h => absurd h (by simp), fun h => absurd ⟨hcond.1, hcond.2, rfl⟩ h⟩⟩
    · have hall : (decide (signed = []) && digits.all isHexDigitOrUnderscore) = false := by
        rw [Bool.eq_false_iff]
        intro h
        simp only [Bool.and_eq_true, decide_eq_true_eq, List.all_eq_true] at h
        exact hcond h
      rw [hall] at hhandle
      simp only [Bool.false_eq_true, if_false] at hhandle
      rw [hhandle]
      constructor
      · constructor
        · intro h
          simp at h
        · rintro ⟨h1, h2, _⟩
          exact absurd ⟨h1, h2⟩ hcond
      · constructor
        · rintro _ ⟨h1, h2, _⟩
          exact hcond ⟨h1, h2⟩
        · intro _
          rfl
  · rw [handle_of_exempt expr hctx]
    simp

/-- C15 (witness): the theorem at the initialisers `'hFF`, `'b1010` and
`'o7`. -/
theorem C15_unsized_based_witness :
    handle (literalOfText "'hFF") =
        [⟨DiagCode.ConstantFormatting, ⟨0, 0⟩, unsizedBasedMessage "'hFF".toList⟩] ∧
      handle (literalOfText "'b1010") =
        [⟨DiagCode.ConstantFormatting, ⟨0, 0⟩, unsizedBasedMessage "'b1010".toList⟩] ∧
      handle (literalOfText "'o7") =
        [⟨DiagCode.ConstantFormatting, ⟨0, 0⟩, unsizedBasedMessage "'o7".toList⟩] :=
  ⟨(C15_unsized_based_reported_iff (literalOfText "'hFF") .IntegerVectorExpression
      "'hFF".toList ⟨0, 0⟩ initialiserContext [] "FF".toList 'h' rfl (by decide)
      (Or.inl rfl) (by decide) (by decide)).1.mpr ⟨rfl, by decide, by decide⟩,
    (C15_unsized_based_reported_iff (literalOfText "'b1010") .IntegerVectorExpression
      "'b1010".toList ⟨0, 0⟩ initialiserContext [] "1010".toList 'b' rfl (by decide)
      (Or.inl rfl) (by decide) (by decide)).1.mpr ⟨rfl, by decide, by decide⟩,
    (C15_unsized_based_reported_iff (literalOfText "'o7") .IntegerVectorExpression
      "'o7".toList ⟨0, 0⟩ initialiserContext [] "7".toList 'o' rfl (by decide)
      (Or.inl rfl) (by decide) (by decide)).1.mpr ⟨rfl, by decide, by decide⟩⟩

/-- C15 (counterexample): the unsized based literals `'b1x` and `'hzz`, with
an unknown or high-impedance digit, and `'sd5`, with the signed marker, are
initialisers of a variable, in no exempt context, and `handle` adds no
diagnostic for them. -/
theorem C15_unknown_digit_or_signed_not_reported :
    isExempt (literalOfText "'b1x") = false ∧ handle (literalOfText "'b1x") = [] ∧
      handle (literalOfText "'hzz") = [] ∧ handle (literalOfText "'sd5") = [] := by
  refine ⟨by decide, by decide, by decide, by decide⟩

end ConstantFormatting

/-! ## tidy.cpp -/

namespace Tidy

/-- Every diagnostic of a check has the effective severity of the check. -/
theorem effectiveSeverity_eq (diagEngine : DiagnosticEngine) (check : TidyCheck)
    (diag : Diagnostic) (hmem : diag ∈ check.getDiagnostics) :
    effectiveSeverity diagEngine check diag = check.diagSeverity := by
  simp only [TidyCheck.getDiagnostics, List.mem_map] at hmem
  obtain ⟨f, _, hf⟩ := hmem
  subst hf
  simp [effectiveSeverity, DiagnosticEngine.setSeverity, DiagnosticEngine.getSeverity]

theorem retCode_countDiagnostic (st : RunState) (diag : Diagnostic) :
    (countDiagnostic st diag).retCode = st.retCode := by
  unfold countDiagnostic
  split <;> rfl

theorem retCode_foldl_countDiagnostic (diags : List Diagnostic) (st : RunState) :
    (diags.foldl countDiagnostic st).retCode = st.retCode := by
  induction diags generalizing st with
  | nil => rfl
  | cons d ds ih => rw [List.foldl_cons, ih, retCode_countDiagnostic]

/-- The exit code after one check: 1 when the check fails with `Error` or
`Fatal` and the run is not quiet, unchanged otherwise. -/
theorem retCode_runCheck (quiet : Bool) (st : RunState) (check : TidyCheck) :
    (runCheck quiet st check).retCode =
      if !quiet && failsWithError check then 1 else st.retCode := by
  unfold runCheck failsWithError
  cases hok : check.check
  · cases quiet
    · cases hsev : check.diagSeverity <;>
        simp [verdict, hsev, retCode_foldl_countDiagnostic]
    · simp [verdict, retCode_foldl_countDiagnostic]
  · simp

/-- The exit code after the loop: 1 when the run is not quiet and some check
fails with `Error` or `Fatal`, unchanged otherwise. -/
theorem retCode_runChecks (quiet : Bool) (st : RunState) (checks : List TidyCheck) :
    (runChecks quiet st checks).retCode =
      if !quiet && checks.any failsWithError then 1 else st.retCode := by
  unfold runChecks
  induction checks generalizing st with
  | nil => simp
  | cons c cs ih =>
      rw [List.foldl_cons, ih, retCode_runCheck, List.any_cons]
      cases quiet <;> cases hf : failsWithError c <;> cases cs.any failsWithError <;> simp

/-- In a run that is neither quiet nor super-quiet, a diagnostic of effective
severity `Error` or `Fatal` makes the exit code 1. -/
theorem main_eq_one_of_error_not_quiet (quietArg superQuietArg : Option Bool)
    (diagEngine : DiagnosticEngine) (checks : List TidyCheck)
    (hq : quietArg.getD false = false) (hsq : superQuietArg.getD false = false)
    (check : TidyCheck) (hcheck : check ∈ checks) (diag : Diagnostic)
    (hdiag : diag ∈ check.getDiagnostics)
    (hsev : effectiveSeverity diagEngine check diag = .Error ∨
      effectiveSeverity diagEngine check diag = .Fatal) :
    main quietArg superQuietArg diagEngine checks = 1 := by
  rw [effectiveSeverity_eq diagEngine check diag hdiag] at hsev
  have hfail : failsWithError check = true := by
    have hne : check.getDiagnostics.isEmpty = false := by
      cases hd : check.getDiagnostics with
      | nil => rw [hd] at hdiag; exact absurd hdiag (List.not_mem_nil _)
      | cons _ _ => rfl
    rcases hsev with h | h <;> simp [failsWithError, TidyCheck.check, hne, h]
  have hany : checks.any failsWithError = true := List.any_eq_true.mpr ⟨check, hcheck, hfail⟩
  simp [main, retCode_runChecks, hq, hsq, hany]

/-- C4 (failing input): with `--quiet`, and with `--super-quiet`, a run whose
only enabled check is `ConstantWidthCheck`, with one diagnostic of effective
severity `Error`, returns the exit code 0. -/
theorem C4_quiet_run_with_error_returns_zero :
    (∀ diag ∈ widthCheckWithFinding.getDiagnostics,
        effectiveSeverity warningEngine widthCheckWithFinding diag = .Error) ∧
      widthCheckWithFinding.getDiagnostics ≠ [] ∧
      main (some true) none warningEngine [widthCheckWithFinding] = 0 ∧
      main none (some true) warningEngine [widthCheckWithFinding] = 0 ∧
      main none none warningEngine [widthCheckWithFinding] = 1 := by
  refine ⟨?_, by decide, rfl, rfl, rfl⟩
  intro diag hdiag
  rw [effectiveSeverity_eq _ _ _ hdiag]
  rfl

/-- C5: a run that reaches the loop and in which no diagnostic has the
effective severity `Error` or `Fatal` returns the exit code 0, in every
output mode. -/
theorem C5_no_error_returns_zero (quietArg superQuietArg : Option Bool)
    (diagEngine : DiagnosticEngine) (checks : List TidyCheck)
    (h : ∀ check ∈ checks, ∀ diag ∈ check.getDiagnostics,
      effectiveSeverity diagEngine check diag ≠ .Error ∧
        effectiveSeverity diagEngine check diag ≠ .Fatal) :
    main quietArg superQuietArg diagEngine checks = 0 := by
  have hany : checks.any failsWithError = false := by
    rw [List.any_eq_false]
    intro check hcheck hfail
    simp only [failsWithError, TidyCheck.check, Bool.and_eq_true, Bool.not_eq_true',
      Bool.or_eq_true, beq_iff_eq] at hfail
    obtain ⟨hne, hsev⟩ := hfail
    cases hd : check.getDiagnostics with
    | nil => rw [hd] at hne; simp at hne
    | cons d ds =>
        have hmem : d ∈ check.getDiagnostics := by rw [hd]; exact List.mem_cons_self _ _
        have hd' := h check hcheck d hmem
        rw [effectiveSeverity_eq diagEngine check d hmem] at hd'
        rcases hsev with hs | hs
        · exact hd'.1 hs
        · exact hd'.2 hs
  simp [main, retCode_runChecks, hany, RunState.initial]

/-- C5 (witness): the theorem at a run with the check `DefaultNettypeNone`,
which fails with one diagnostic of severity `Warning`. -/
theorem C5_no_error_returns_zero_witness :
    nettypeCheckWithFinding.check = false ∧
      main none none warningEngine [nettypeCheckWithFinding] = 0 := by
  refine ⟨by decide, C5_no_error_returns_zero none none warningEngine [nettypeCheckWithFinding] ?_⟩
  intro check hcheck diag hdiag
  rw [effectiveSeverity_eq _ _ _ hdiag]
  rw [List.mem_singleton] at hcheck
  subst hcheck
  exact ⟨by decide, by decide⟩

/-- The counting loop over the diagnostics of one check, all of whose codes
have the severity `severity` in the engine, adds their number to the total of
that severity and leaves the rest of the state alone. -/
theorem foldl_countDiagnostic_eq (code : DiagCode) (severity : DiagnosticSeverity)
    (findings : List (SourceLocation × String)) (st : RunState)
    (hsev : st.diagEngine.severityTable code = severity) :
    (findings.map (fun f => (⟨code, f.1, f.2⟩ : Diagnostic))).foldl countDiagnostic st =
      { st with
        totalNotes := st.totalNotes + (if severity = .Note then findings.length else 0)
        totalWarnings := st.totalWarnings + (if severity = .Warning then findings.length else 0)
        totalErrors := st.totalErrors +
          (if severity = .Error ∨ severity = .Fatal then findings.length else 0) } := by
  induction findings generalizing st with
  | nil => simp
  | cons f fs ih =>
      rw [List.map_cons, List.foldl_cons]
      have hstep : countDiagnostic st ⟨code, f.1, f.2⟩ =
          { st with
            totalNotes := st.totalNotes + (if severity = .Note then 1 else 0)
            totalWarnings := st.totalWarnings + (if severity = .Warning then 1 else 0)
            totalErrors := st.totalErrors +
              (if severity = .Error ∨ severity = .Fatal then 1 else 0) } := by
        unfold countDiagnostic DiagnosticEngine.getSeverity
        simp only [hsev]
        cases severity <;> simp
      rw [hstep]
      refine (ih { st with
            totalNotes := st.totalNotes + (if severity = .Note then 1 else 0)
            totalWarnings := st.totalWarnings + (if severity = .Warning then 1 else 0)
            totalErrors := st.totalErrors +
              (if severity = .Error ∨ severity = .Fatal then 1 else 0) } hsev).trans ?_
      cases severity <;> simp <;> omega

/-- The state after one check. -/
theorem runCheck_fields (quiet : Bool) (st : RunState) (check : TidyCheck) :
    (runCheck quiet st check).passedChecks =
        st.passedChecks + (if producedNoDiagnostics check then 1 else 0) ∧
      (runCheck quiet st check).failedChecks =
        st.failedChecks + (if producedNoDiagnostics check then 0 else 1) ∧
      (runCheck quiet st check).failedRuleNames =
        st.failedRuleNames ++ (if producedNoDiagnostics check then [] else [check.name]) ∧
      (runCheck quiet st check).totalNotes =
        st.totalNotes + (if check.diagSeverity = .Note then check.findings.length else 0) ∧
      (runCheck quiet st check).totalWarnings =
        st.totalWarnings + (if check.diagSeverity = .Warning then check.findings.length else 0) ∧
      (runCheck quiet st check).totalErrors =
        st.totalErrors + (if check.diagSeverity = .Error ∨ check.diagSeverity = .Fatal then
          check.findings.length else 0) := by
  have hcount := foldl_countDiagnostic_eq check.diagCode check.diagSeverity check.findings
    { st with
      diagEngine := st.diagEngine.setSeverity check.diagCode check.diagSeverity
      failedChecks := st.failedChecks + 1
      failedRuleNames := st.failedRuleNames ++ [check.name] }
    (by simp [DiagnosticEngine.setSeverity])
  have hverdict : ∀ s : RunState, (verdict quiet s check).passedChecks = s.passedChecks ∧
      (verdict quiet s check).failedChecks = s.failedChecks ∧
      (verdict quiet s check).failedRuleNames = s.failedRuleNames ∧
      (verdict quiet s check).totalNotes = s.totalNotes ∧
      (verdict quiet s check).totalWarnings = s.totalWarnings ∧
      (verdict quiet s check).totalErrors = s.totalErrors := by
    intro s
    unfold verdict
    cases quiet <;> cases check.diagSeverity <;> simp
  cases hfind : check.findings with
  | nil =>
      simp [runCheck, producedNoDiagnostics, TidyCheck.check, TidyCheck.getDiagnostics, hfind]
  | cons f fs =>
      have hne : producedNoDiagnostics check = false := by
        simp [producedNoDiagnostics, TidyCheck.getDiagnostics, hfind]
      have hrun : runCheck quiet st check =
          verdict quiet ((check.findings.map
            (fun f => (⟨check.diagCode, f.1, f.2⟩ : Diagnostic))).foldl countDiagnostic
              { st with
                diagEngine := st.diagEngine.setSeverity check.diagCode check.diagSeverity
                failedChecks := st.failedChecks + 1
                failedRuleNames := st.failedRuleNames ++ [check.name] }) check := by
        simp [runCheck, TidyCheck.check, TidyCheck.getDiagnostics, hfind]
      rw [hrun, hcount]
      obtain ⟨h1, h2, h3, h4, h5, h6⟩ := hverdict
        { st with
          diagEngine := st.diagEngine.setSeverity check.diagCode check.diagSeverity
          failedChecks := st.failedChecks + 1
          failedRuleNames := st.failedRuleNames ++ [check.name]
          totalNotes := st.totalNotes +
            (if check.diagSeverity = .Note then check.findings.length else 0)
          totalWarnings := st.totalWarnings +
            (if check.diagSeverity = .Warning then check.findings.length else 0)
          totalErrors := st.totalErrors +
            (if check.diagSeverity = .Error ∨ check.diagSeverity = .Fatal then
              check.findings.length else 0) }
      rw [h1, h2, h3, h4, h5, h6, hne]
      simp [hfind]

/-- The severities of the diagnostics of one check are copies of the severity
of the check. -/
theorem map_effectiveSeverity (diagEngine : DiagnosticEngine) (check : TidyCheck) :
    check.getDiagnostics.map (effectiveSeverity diagEngine check) =
      List.replicate check.findings.length check.diagSeverity := by
  rw [List.eq_replicate_iff]
  refine ⟨by simp [TidyCheck.getDiagnostics], ?_⟩
  intro s hs
  obtain ⟨diag, hdiag, rfl⟩ := List.mem_map.mp hs
  exact effectiveSeverity_eq diagEngine check diag hdiag

/-- The number of diagnostics of one effective severity in a run. -/
theorem count_runSeverities (diagEngine : DiagnosticEngine) (severity : DiagnosticSeverity)
    (checks : List TidyCheck) :
    (runSeverities diagEngine checks).count severity =
      (checks.map (fun check =>
        if check.diagSeverity = severity then check.findings.length else 0)).sum := by
  induction checks with
  | nil => rfl
  | cons check rest ih =>
      have hcons : runSeverities diagEngine (check :: rest) =
          check.getDiagnostics.map (effectiveSeverity diagEngine check) ++
            runSeverities diagEngine rest := by
        simp [runSeverities]
      rw [hcons, map_effectiveSeverity, List.count_append, ih, List.map_cons, List.sum_cons]
      congr 1
      by_cases h : check.diagSeverity = severity
      · simp [h]
      · simp [h, List.count_replicate]

/-- The counters after the loop over the checks, from any state. -/
theorem runChecks_fields (quiet : Bool) (checks : List TidyCheck) (st : RunState) :
    (runChecks quiet st checks).passedChecks =
        st.passedChecks + checks.countP producedNoDiagnostics ∧
      (runChecks quiet st checks).failedChecks =
        st.failedChecks + checks.countP (fun check => !producedNoDiagnostics check) ∧
      (runChecks quiet st checks).failedRuleNames =
        st.failedRuleNames ++
          (checks.filter (fun check => !producedNoDiagnostics check)).map (fun check =>
            check.name) ∧
      (runChecks quiet st checks).totalNotes =
        st.totalNotes + (checks.map (fun check =>
          if check.diagSeverity = .Note then check.findings.length else 0)).sum ∧
      (runChecks quiet st checks).totalWarnings =
        st.totalWarnings + (checks.map (fun check =>
          if check.diagSeverity = .Warning then check.findings.length else 0)).sum ∧
      (runChecks quiet st checks).totalErrors =
        st.totalErrors + ((checks.map (fun check =>
          if check.diagSeverity = .Error then check.findings.length else 0)).sum +
          (checks.map (fun check =>
            if check.diagSeverity = .Fatal then check.findings.length else 0)).sum) := by
  induction checks generalizing st with
  | nil => simp [runChecks]
  | cons check rest ih =>
      have hcons : runChecks quiet st (check :: rest) =
          runChecks quiet (runCheck quiet st check) rest := rfl
      obtain ⟨h1, h2, h3, h4, h5, h6⟩ := ih (runCheck quiet st check)
      obtain ⟨g1, g2, g3, g4, g5, g6⟩ := runCheck_fields quiet st check
      rw [hcons, h1, h2, h3, h4, h5, h6, g1, g2, g3, g4, g5, g6]
      refine ⟨?_, ?_, ?_, ?_, ?_, ?_⟩
      · cases hp : producedNoDiagnostics check <;> simp [List.countP_cons, hp]
        omega
      · cases hp : producedNoDiagnostics check <;> simp [List.countP_cons, hp]
        omega
      · cases hp : producedNoDiagnostics check <;> simp [List.filter_cons, hp]
      · simp only [List.map_cons, List.sum_cons]; omega
      · simp only [List.map_cons, List.sum_cons]; omega
      · simp only [List.map_cons, List.sum_cons]
        cases check.diagSeverity <;> simp <;> omega

/-- C27: in the loop of `main` over the enabled checks a check is counted
in `passedChecks` when it produced no diagnostic and in `failedChecks`
otherwise (one of the two, once); after the loop `passedChecks + failedChecks`
is the number of enabled checks, and `failedRuleNames` is the list of the
names of the checks that produced a diagnostic, one entry per such check, in
the order of the run. The counters are natural numbers. -/
theorem C27_passed_failed_counts (quiet : Bool) (diagEngine : DiagnosticEngine)
    (checks : List TidyCheck) :
    (∀ (st : RunState) (check : TidyCheck),
      ((runCheck quiet st check).passedChecks = st.passedChecks + 1 ∧
          (runCheck quiet st check).failedChecks = st.failedChecks ↔
        check.getDiagnostics = []) ∧
      ((runCheck quiet st check).failedChecks = st.failedChecks + 1 ∧
          (runCheck quiet st check).passedChecks = st.passedChecks ↔
        check.getDiagnostics ≠ [])) ∧
      (runChecks quiet (RunState.initial diagEngine) checks).passedChecks =
        checks.countP producedNoDiagnostics ∧
      (runChecks quiet (RunState.initial diagEngine) checks).failedChecks =
        checks.countP (fun check => !producedNoDiagnostics check) ∧
      (runChecks quiet (RunState.initial diagEngine) checks).passedChecks +
          (runChecks quiet (RunState.initial diagEngine) checks).failedChecks =
        checks.length ∧
      (runChecks quiet (RunState.initial diagEngine) checks).failedRuleNames =
        (checks.filter (fun check => !producedNoDiagnostics check)).map (fun check =>
          check.name) := by
  obtain ⟨h1, h2, h3, -, -, -⟩ := runChecks_fields quiet checks (RunState.initial diagEngine)
  refine ⟨?_, ?_, ?_, ?_, ?_⟩
  · intro st check
    obtain ⟨g1, g2, -, -, -, -⟩ := runCheck_fields quiet st check
    rw [g1, g2]
    cases hprod : producedNoDiagnostics check <;>
      simp [producedNoDiagnostics] at hprod <;> simp [hprod]
  · rw [h1]; simp [RunState.initial]
  · rw [h2]; simp [RunState.initial]
  · rw [h1, h2]
    have hsplit := List.length_eq_countP_add_countP producedNoDiagnostics checks
    simp only [RunState.initial, Nat.zero_add]
    rw [hsplit]
    congr 1
    apply List.countP_congr
    intro check _
    simp
  · rw [h3]; simp [RunState.initial]

/-- C28: every diagnostic of the enabled checks has the severity of its
check as effective severity (the override of the configuration if there is
one, the default of the check otherwise), and after the loop of `main`
`totalNotes` is the number of diagnostics of the run with effective severity
`Note`, `totalWarnings` the number with `Warning`, `totalErrors` the number
with `Error` or `Fatal`; with the diagnostics of severity `Ignored`, which no
total counts, the three totals add up to the number of diagnostics of the run.
The counters are natural numbers. -/
theorem C28_severity_totals (quiet : Bool) (diagEngine : DiagnosticEngine)
    (checks : List TidyCheck) :
    (∀ check ∈ checks, ∀ diag ∈ check.getDiagnostics,
      effectiveSeverity diagEngine check diag =
        check.severity.getD check.diagDefaultSeverity) ∧
      (runChecks quiet (RunState.initial diagEngine) checks).totalNotes =
        (runSeverities diagEngine checks).count .Note ∧
      (runChecks quiet (RunState.initial diagEngine) checks).totalWarnings =
        (runSeverities diagEngine checks).count .Warning ∧
      (runChecks quiet (RunState.initial diagEngine) checks).totalErrors =
        (runSeverities diagEngine checks).count .Error +
          (runSeverities diagEngine checks).count .Fatal ∧
      (runChecks quiet (RunState.initial diagEngine) checks).totalNotes +
          (runChecks quiet (RunState.initial diagEngine) checks).totalWarnings +
          (runChecks quiet (RunState.initial diagEngine) checks).totalErrors +
          (runSeverities diagEngine checks).count .Ignored =
        (runSeverities diagEngine checks).length := by
  obtain ⟨-, -, -, h4, h5, h6⟩ := runChecks_fields quiet checks (RunState.initial diagEngine)
  have hnotes : (runChecks quiet (RunState.initial diagEngine) checks).totalNotes =
      (runSeverities diagEngine checks).count .Note := by
    rw [h4, count_runSeverities]; simp [RunState.initial]
  have hwarnings : (runChecks quiet (RunState.initial diagEngine) checks).totalWarnings =
      (runSeverities diagEngine checks).count .Warning := by
    rw [h5, count_runSeverities]; simp [RunState.initial]
  have herrors : (runChecks quiet (RunState.initial diagEngine) checks).totalErrors =
      (runSeverities diagEngine checks).count .Error +
        (runSeverities diagEngine checks).count .Fatal := by
    rw [h6, count_runSeverities, count_runSeverities]; simp [RunState.initial]
  refine ⟨?_, hnotes, hwarnings, herrors, ?_⟩
  · intro check _ diag hdiag
    exact effectiveSeverity_eq diagEngine check diag hdiag
  · rw [hnotes, hwarnings, herrors]
    generalize runSeverities diagEngine checks = severities
    induction severities with
    | nil => rfl
    | cons severity rest ih =>
        cases severity <;> simp [List.count_cons] <;> omega

end Tidy

/-! ## LoopsInGenerate.cpp -/

namespace LoopsInGenerate

/-- The kinds at which the walk of `isInsideGenerateOrProcedural` stops with
`true`. -/
theorem isInsideGenerateOrProcedural_eq_any (node : SyntaxNode) :
    isInsideGenerateOrProcedural node =
      (kindsUpward node).any (fun kind =>
        kind == .GenerateRegion || kind == .GenerateBlock || kind == .AlwaysBlock ||
          kind == .AlwaysCombBlock || kind == .AlwaysFFBlock || kind == .InitialBlock ||
          kind == .FinalBlock) := by
  induction node with
  | null => rfl
  | node kind text start parent ih =>
      simp only [isInsideGenerateOrProcedural, kindsUpward, List.any_cons, ih]
      cases kind <;> simp

/-- Away from `always_latch`, a loop is accepted exactly when it has an
enclosing generate region, generate block or procedural block. -/
theorem isInside_iff_enclosing_of_no_always_latch (kind : SyntaxKind) (text : List Char)
    (start : SourceLocation) (parent : SyntaxNode)
    (hkind : kind = .ForLoopStatement ∨ kind = .LoopGenerate)
    (hlatch : SyntaxKind.AlwaysLatchBlock ∉ kindsUpward parent) :
    isInsideGenerateOrProcedural (.node kind text start parent) =
      hasEnclosingGenerateOrProcedural (.node kind text start parent) := by
  have hself : isInsideGenerateOrProcedural (.node kind text start parent) =
      isInsideGenerateOrProcedural parent := by
    rcases hkind with h | h <;> subst h <;> simp [isInsideGenerateOrProcedural]
  rw [hself, isInsideGenerateOrProcedural_eq_any]
  simp only [hasEnclosingGenerateOrProcedural, SyntaxNode.parent]
  have hpoint : ∀ k : SyntaxKind, k ≠ .AlwaysLatchBlock →
      (k == .GenerateRegion || k == .GenerateBlock || k == .AlwaysBlock ||
        k == .AlwaysCombBlock || k == .AlwaysFFBlock || k == .InitialBlock ||
        k == .FinalBlock) =
      (k == .GenerateRegion || k == .GenerateBlock || isProceduralBlock k) := by
    intro k hk
    cases k <;> first | rfl | exact absurd rfl hk
  generalize kindsUpward parent = ks at hlatch
  induction ks with
  | nil => rfl
  | cons k ks ih =>
      have hk : k ≠ .AlwaysLatchBlock := fun h => hlatch (by rw [h]; exact List.mem_cons_self _ _)
      have hks : SyntaxKind.AlwaysLatchBlock ∉ ks := fun h => hlatch (List.mem_cons_of_mem _ h)
      simp only [List.any_cons, ih hks, hpoint k hk]

/-- A node inside one of the five kinds of procedural block that the walk
tests is accepted. -/
theorem isInside_of_listed_procedural_block (node : SyntaxNode) (kind : SyntaxKind)
    (hmem : kind ∈ kindsUpward node)
    (hkind : kind = .AlwaysBlock ∨ kind = .AlwaysCombBlock ∨ kind = .AlwaysFFBlock ∨
      kind = .InitialBlock ∨ kind = .FinalBlock) :
    isInsideGenerateOrProcedural node = true := by
  rw [isInsideGenerateOrProcedural_eq_any, List.any_eq_true]
  refine ⟨kind, hmem, ?_⟩
  rcases hkind with h | h | h | h | h <;> subst h <;> rfl

/-- C6 (failing input): the `for` loop of `always_latch begin for ... end` has
an enclosing procedural block, and `handle(RootSymbol)` adds a diagnostic for
it; the loop directly in a module body is reported and the same loop in a
generate region is not. -/
theorem C6_loop_in_always_latch_reported :
    hasEnclosingGenerateOrProcedural loopInAlwaysLatch.node = true ∧
      handleRoot [⟨[loopInAlwaysLatch], []⟩] =
        [⟨DiagCode.LoopsInGenerate, loopInAlwaysLatch.forKeyword, ""⟩] ∧
      handleRoot [⟨[], [loopInModuleBody]⟩] =
        [⟨DiagCode.LoopsInGenerate, loopInModuleBody.keyword, ""⟩] ∧
      handleRoot [⟨[], [loopInGenerateRegion]⟩] = [] := by
  refine ⟨by decide, by decide, by decide, by decide⟩

/-- C7 (failing input): `always_latch` is a procedural block, yet a `for` loop
that is the statement of an `always_latch` block is not accepted by
`isInsideGenerateOrProcedural` and is reported. -/
theorem C7_always_latch_not_accepted :
    isProceduralBlock .AlwaysLatchBlock = true ∧
      loopDirectlyInAlwaysLatch.node.parent =
        .node .AlwaysLatchBlock [] ⟨0, 17⟩
          (.node .ModuleDeclaration [] ⟨0, 0⟩ (.node .CompilationUnit [] ⟨0, 0⟩ .null)) ∧
      isInsideGenerateOrProcedural loopDirectlyInAlwaysLatch.node = false ∧
      report ⟨[loopDirectlyInAlwaysLatch], []⟩ =
        [⟨DiagCode.LoopsInGenerate, loopDirectlyInAlwaysLatch.forKeyword, ""⟩] := by
  refine ⟨by decide, by decide, by decide, by decide⟩

end LoopsInGenerate

/-! ## NoLogicInPortConnections.cpp -/

namespace NoLogicInPortConnections

/-- An operator kind passes none of the kind tests of `checkExpression` and is
not allowed as an element of a concatenation. -/
theorem operator_kind_not_allowed (kind : SyntaxKind) (h : isOperatorKind kind = true) :
    isIdentifierLikeExpression kind = false ∧ isAllowedInPortConnection kind = false ∧
      kind ≠ .IntegerLiteralExpression ∧ kind ≠ .IntegerVectorExpression ∧
      kind ≠ .RealLiteralExpression ∧ kind ≠ .StringLiteralExpression ∧
      kind ≠ .UnbasedUnsizedLiteralExpression ∧ kind ≠ .NullLiteralExpression ∧
      kind ≠ .TimeLiteralExpression ∧ kind ≠ .WildcardLiteralExpression ∧
      kind ≠ .ElementSelectExpression ∧ kind ≠ .IdentifierSelectName ∧ kind ≠ .BitSelect ∧
      kind ≠ .BitType ∧ kind ≠ .MemberAccessExpression ∧ kind ≠ .ConcatenationExpression := by
  cases kind <;> first | (exfalso; revert h; decide) | decide

/-- An expression whose top-level kind is an operator is pushed to
`foundPorts`. -/
theorem checkExpression_of_operator (expr : ExpressionSyntax) (portName : String)
    (h : isOperatorKind expr.kind = true) :
    checkExpression expr portName = [⟨expr, portName⟩] := by
  obtain ⟨h1, _, h3, h4, h5, h6, h7, h8, h9, h10, h11, h12, h13, h14, h15, h16⟩ :=
    operator_kind_not_allowed expr.kind h
  simp [checkExpression, h1, h3, h4, h5, h6, h7, h8, h9, h10, h11, h12, h13, h14, h15, h16]

/-- A concatenation with an operator expression among its elements is pushed
to `foundPorts`. -/
theorem checkExpression_of_operator_element (expr : ExpressionSyntax) (portName : String)
    (hkind : expr.kind = .ConcatenationExpression) (element : ExpressionSyntax)
    (hmem : element ∈ expr.expressions) (h : isOperatorKind element.kind = true) :
    checkExpression expr portName = [⟨expr, portName⟩] := by
  have hall : expr.expressions.all (fun e => isAllowedInPortConnection e.kind) = false := by
    rw [List.all_eq_false]
    exact ⟨element, hmem, by simp [(operator_kind_not_allowed element.kind h).2.1]⟩
  simp [checkExpression, hkind, hall, isIdentifierLikeExpression]

/-- C8: a named port connection whose expression is a plain signal reference,
or a concatenation all of whose elements are plain signal references, records
no violation, and an instance body with only such connections gets no
diagnostic. -/
theorem C8_plain_references_pass (port : NamedPortConnectionSyntax) (expr : ExpressionSyntax)
    (hexpr : port.expr = some (.SimplePropertyExpr (.SimpleSequenceExpr expr)))
    (hplain : isPlainReference expr = true ∨
      (expr.kind = .ConcatenationExpression ∧
        ∀ element ∈ expr.expressions, isPlainReference element = true)) :
    handlePort port = [] ∧ handleInstanceBody false (some [port]) = [] := by
  have hcheck : checkExpression expr port.name = [] := by
    rcases hplain with h | ⟨hk, hall⟩
    · have hk : expr.kind = .IdentifierName := by simpa [isPlainReference] using h
      simp [checkExpression, hk, isIdentifierLikeExpression]
    · have hall' : expr.expressions.all (fun e => isAllowedInPortConnection e.kind) = true := by
        rw [List.all_eq_true]
        intro e he
        have hke : e.kind = .IdentifierName := by simpa [isPlainReference] using hall e he
        simp [hke, isAllowedInPortConnection, isIdentifierLikeExpression]
      simp [checkExpression, hk, hall', isIdentifierLikeExpression]
  have hport : handlePort port = [] := by
    unfold handlePort
    cases port.openParen
    · rfl
    · simp [hexpr, extractExpressionFromProperty, extractExpressionFromSequence, hcheck]
  exact ⟨hport, by simp [handleInstanceBody, hport]⟩

/-- C8 (witness): the theorem at the connection `.data_in({a, b})`. -/
theorem C8_plain_references_pass_witness :
    handlePort (connection "data_in" (.node .ConcatenationExpression ⟨0, 90⟩
        [.node .IdentifierName ⟨0, 91⟩ [], .node .IdentifierName ⟨0, 94⟩ []])) = [] ∧
      handleInstanceBody false (some [connection "data_in" (.node .ConcatenationExpression ⟨0, 90⟩
        [.node .IdentifierName ⟨0, 91⟩ [], .node .IdentifierName ⟨0, 94⟩ []])]) = [] :=
  C8_plain_references_pass _ _ rfl (Or.inr ⟨rfl, by
    intro element he
    simp only [ExpressionSyntax.expressions, List.mem_cons, List.mem_singleton,
      List.not_mem_nil, or_false] at he
    rcases he with h | h <;> subst h <;> rfl⟩)

/-- C9 (counterexample): the connection `.data_in(bus[i + 1])` contains a
binary operator, and no violation is recorded for it. -/
theorem C9_operator_in_select_not_reported :
    ContainsOperator selectWithAddition ∧
      handlePort (connection "data_in" selectWithAddition) = [] ∧
      handleInstanceBody false (some [connection "data_in" selectWithAddition]) = [] := by
  refine ⟨?_, rfl, rfl⟩
  unfold selectWithAddition
  refine .inChild _ _ _ _ (List.mem_singleton.mpr rfl) ?_
  refine .inChild _ _ _ _ (List.mem_singleton.mpr rfl) ?_
  refine .inChild _ _ _ _ (List.mem_singleton.mpr rfl) ?_
  exact .atTop _ _ _ rfl

/-- What `checkExpression` pushes: nothing for a top-level kind of the
allow-list and for an allowed concatenation, the expression with the port name
otherwise. -/
theorem checkExpression_eq (expr : ExpressionSyntax) (portName : String) :
    checkExpression expr portName =
      if isTopLevelAllowed expr.kind || isAllowedConcatenation expr then []
      else [⟨expr, portName⟩] := by
  unfold checkExpression isAllowedConcatenation
  cases hk : expr.kind <;>
    simp [isTopLevelAllowed, isIdentifierLikeExpression]

/-- The kinds allowed for the elements of a concatenation are kinds of the
top-level allow-list. -/
theorem isTopLevelAllowed_of_isAllowedInPortConnection (kind : SyntaxKind)
    (h : isAllowedInPortConnection kind = true) : isTopLevelAllowed kind = true := by
  revert h
  cases kind <;> decide

/-- C29: for a named port connection `.name(expr)` with an extractable
expression, exactly one violation with the name of the port is recorded when
the top-level kind of the expression is not in the allow-list and the
expression is no allowed concatenation, and none when the top-level kind is in
the allow-list. -/
theorem C29_one_violation_outside_allow_list (port : NamedPortConnectionSyntax)
    (expr : ExpressionSyntax) (hparen : port.openParen = true)
    (hexpr : port.expr = some (.SimplePropertyExpr (.SimpleSequenceExpr expr))) :
    (isTopLevelAllowed expr.kind = false → isAllowedConcatenation expr = false →
        handlePort port = [⟨expr, port.name⟩] ∧
          handleInstanceBody false (some [port]) =
            [⟨DiagCode.NoLogicInPortConnections, expr.sourceRange,
              "logic expression in port connection '" ++ port.name ++
                "' (move logic outside the port instantiation for Quartus compatibility)"⟩]) ∧
      (isTopLevelAllowed expr.kind = true →
        handlePort port = [] ∧ handleInstanceBody false (some [port]) = []) := by
  have hport : handlePort port = checkExpression expr port.name := by
    simp [handlePort, hparen, hexpr, extractExpressionFromProperty,
      extractExpressionFromSequence]
  constructor
  · intro hkind hconcat
    have hp : handlePort port = [⟨expr, port.name⟩] := by
      rw [hport, checkExpression_eq, hkind, hconcat]
      rfl
    exact ⟨hp, by simp [handleInstanceBody, hp, logicMessage]⟩
  · intro hkind
    have hp : handlePort port = [] := by
      rw [hport, checkExpression_eq, hkind]
      rfl
    exact ⟨hp, by simp [handleInstanceBody, hp]⟩

/-- C29 (witness): the theorem at the connections `.I0(~a | b)`, which is
reported, and `.data_in({a, b})`, whose kind is not in the allow-list but which
is an allowed concatenation. -/
theorem C29_one_violation_witness :
    handleInstanceBody false (some [connection "I0" orOfNegation]) =
        [⟨DiagCode.NoLogicInPortConnections, ⟨0, 300⟩,
          "logic expression in port connection '" ++ "I0" ++
            "' (move logic outside the port instantiation for Quartus compatibility)"⟩] ∧
      isTopLevelAllowed concatenationOfSignals.kind = false ∧
      isAllowedConcatenation concatenationOfSignals = true :=
  ⟨((C29_one_violation_outside_allow_list (connection "I0" orOfNegation) orOfNegation rfl
      rfl).1 (by decide) (by decide)).2, by decide, by decide⟩

/-- C30: whenever `checkExpression` accepts a concatenation, each of its
elements has a kind of the top-level allow-list, and `checkExpression` accepts
the element as a connection of its own. -/
theorem C30_accepted_concatenation_elements_allowed (expr : ExpressionSyntax)
    (portName : String) (hkind : expr.kind = .ConcatenationExpression)
    (haccept : checkExpression expr portName = []) :
    ∀ element ∈ expr.expressions,
      isTopLevelAllowed element.kind = true ∧
        ∀ otherName : String, checkExpression element otherName = [] := by
  have hconcat : isAllowedConcatenation expr = true := by
    rw [checkExpression_eq] at haccept
    cases hc : isAllowedConcatenation expr
    · rw [hc, hkind] at haccept
      simp [isTopLevelAllowed] at haccept
    · rfl
  intro element hmem
  have hall : expr.expressions.all (fun e => isAllowedInPortConnection e.kind) = true := by
    simp only [isAllowedConcatenation, Bool.and_eq_true] at hconcat
    exact hconcat.2
  have hel := isTopLevelAllowed_of_isAllowedInPortConnection element.kind
    (List.all_eq_true.mp hall element hmem)
  refine ⟨hel, fun otherName => ?_⟩
  rw [checkExpression_eq, hel]
  rfl

/-- C30 (witness): the theorem at the concatenation `{a, b}`. -/
theorem C30_accepted_concatenation_witness :
    checkExpression concatenationOfSignals "data_in" = [] ∧
      ∀ element ∈ concatenationOfSignals.expressions,
        isTopLevelAllowed element.kind = true ∧
          ∀ otherName : String, checkExpression element otherName = [] :=
  ⟨rfl, C30_accepted_concatenation_elements_allowed concatenationOfSignals "data_in" rfl rfl⟩

/-- C31: a named port connection without an explicit expression (`.port` or
`.port()`), or whose expression is wrapped in a property or a sequence
expression other than the simple ones, records no violation: nothing is pushed
to `foundPorts` for it, it gets no diagnostic, and among other connections the
diagnostics are those of the others. -/
theorem C31_connection_without_expression_skipped (port : NamedPortConnectionSyntax)
    (h : port.openParen = false ∨ port.expr = none ∨ port.expr = some .OtherPropertyExpr ∨
      port.expr = some (.SimplePropertyExpr .OtherSequenceExpr)) :
    handlePort port = [] ∧ handleInstanceBody false (some [port]) = [] ∧
      ∀ before after : List NamedPortConnectionSyntax,
        handleInstanceBody false (some (before ++ port :: after)) =
          handleInstanceBody false (some (before ++ after)) := by
  have hport : handlePort port = [] := by
    unfold handlePort
    rcases h with h | h | h | h
    · simp [h]
    · simp [h]
    · simp [h, extractExpressionFromProperty]
    · simp [h, extractExpressionFromProperty, extractExpressionFromSequence]
  refine ⟨hport, by simp [handleInstanceBody, hport], fun before after => ?_⟩
  simp [handleInstanceBody, hport]

/-- C31 (witness): the theorem at the connections `.clk`, `.clk()`, one with a
property expression that is not simple and one with a sequence expression that
is not simple. -/
theorem C31_connection_without_expression_witness :
    (handlePort implicitConnection = [] ∧
        handleInstanceBody false (some [implicitConnection]) = [] ∧
        ∀ before after : List NamedPortConnectionSyntax,
          handleInstanceBody false (some (before ++ implicitConnection :: after)) =
            handleInstanceBody false (some (before ++ after))) ∧
      handlePort emptyConnection = [] ∧
      handlePort propertyConnection = [] ∧
      handlePort sequenceConnection = [] :=
  ⟨C31_connection_without_expression_skipped implicitConnection (Or.inl rfl),
    (C31_connection_without_expression_skipped emptyConnection (Or.inr (Or.inl rfl))).1,
    (C31_connection_without_expression_skipped propertyConnection
      (Or.inr (Or.inr (Or.inl rfl)))).1,
    (C31_connection_without_expression_skipped sequenceConnection
      (Or.inr (Or.inr (Or.inr rfl)))).1⟩

/-- C38: every kind that `isAllowedInPortConnection` allows for an element of a
concatenation is in the top-level allow-list of `checkExpression`, but not the
other way round: string literals, real literals and member accesses are in the
top-level list only, and a concatenation is never allowed as an element. So a
concatenation with an element of one of these four kinds is reported, although
such an element (for a concatenation: an allowed one) is accepted as a
connection of its own. -/
theorem C38_element_list_strictly_smaller (expr : ExpressionSyntax) (portName : String)
    (hkind : expr.kind = .ConcatenationExpression)
    (helem : ∃ element ∈ expr.expressions,
      element.kind = .StringLiteralExpression ∨ element.kind = .RealLiteralExpression ∨
        element.kind = .MemberAccessExpression ∨ element.kind = .ConcatenationExpression) :
    (∀ kind, isAllowedInPortConnection kind = true → isTopLevelAllowed kind = true) ∧
      (∀ kind, kind = .StringLiteralExpression ∨ kind = .RealLiteralExpression ∨
          kind = .MemberAccessExpression →
        isTopLevelAllowed kind = true ∧ isAllowedInPortConnection kind = false) ∧
      isAllowedInPortConnection .ConcatenationExpression = false ∧
      checkExpression expr portName = [⟨expr, portName⟩] ∧
      handleInstanceBody false (some [connection portName expr]) =
        [⟨DiagCode.NoLogicInPortConnections, expr.sourceRange,
          "logic expression in port connection '" ++ portName ++
            "' (move logic outside the port instantiation for Quartus compatibility)"⟩] ∧
      (∀ element : ExpressionSyntax, ∀ otherName : String,
        element.kind = .StringLiteralExpression ∨ element.kind = .RealLiteralExpression ∨
            element.kind = .MemberAccessExpression ∨ isAllowedConcatenation element = true →
          checkExpression element otherName = []) := by
  have hcheck : checkExpression expr portName = [⟨expr, portName⟩] := by
    obtain ⟨element, hmem, hk⟩ := helem
    have hall : expr.expressions.all (fun e => isAllowedInPortConnection e.kind) = false := by
      rw [List.all_eq_false]
      refine ⟨element, hmem, ?_⟩
      rcases hk with hk | hk | hk | hk <;> rw [hk] <;> decide
    rw [checkExpression_eq]
    simp [isAllowedConcatenation, hall, hkind, isTopLevelAllowed]
  refine ⟨isTopLevelAllowed_of_isAllowedInPortConnection, ?_, by decide, hcheck, ?_, ?_⟩
  · intro kind hk
    rcases hk with hk | hk | hk <;> subst hk <;> exact ⟨by decide, by decide⟩
  · simp [handleInstanceBody, handlePort, connection, extractExpressionFromProperty,
      extractExpressionFromSequence, hcheck, logicMessage]
  · intro element otherName hk
    rw [checkExpression_eq]
    rcases hk with hk | hk | hk | hk
    · simp [hk, isTopLevelAllowed]
    · simp [hk, isTopLevelAllowed]
    · simp [hk, isTopLevelAllowed]
    · simp [hk]

/-- C38 (witness): the theorem at the connection `.data_in({a, {b, c}})`, whose
nested concatenation `{b, c}` is accepted as a connection of its own, and at
`.data_in({a, s.f})`. -/
theorem C38_element_list_witness :
    checkExpression nestedConcatenation "data_in" = [⟨nestedConcatenation, "data_in"⟩] ∧
      handleInstanceBody false (some [connection "data_in" nestedConcatenation]) =
        [⟨DiagCode.NoLogicInPortConnections, ⟨0, 400⟩,
          "logic expression in port connection '" ++ "data_in" ++
            "' (move logic outside the port instantiation for Quartus compatibility)"⟩] ∧
      checkExpression (.node .ConcatenationExpression ⟨0, 404⟩
        [.node .IdentifierName ⟨0, 405⟩ [], .node .IdentifierName ⟨0, 408⟩ []]) "data_in" = [] ∧
      checkExpression concatenationWithMember "data_in" =
        [⟨concatenationWithMember, "data_in"⟩] :=
  ⟨(C38_element_list_strictly_smaller nestedConcatenation "data_in" rfl
      ⟨_, List.mem_cons_of_mem _ (List.mem_singleton.mpr rfl), Or.inr (Or.inr (Or.inr rfl))⟩).2.2.2.1,
    (C38_element_list_strictly_smaller nestedConcatenation "data_in" rfl
      ⟨_, List.mem_cons_of_mem _ (List.mem_singleton.mpr rfl),
        Or.inr (Or.inr (Or.inr rfl))⟩).2.2.2.2.1,
    (C38_element_list_strictly_smaller nestedConcatenation "data_in" rfl
      ⟨_, List.mem_cons_of_mem _ (List.mem_singleton.mpr rfl),
        Or.inr (Or.inr (Or.inr rfl))⟩).2.2.2.2.2 _ "data_in" (Or.inr (Or.inr (Or.inr rfl))),
    (C38_element_list_strictly_smaller concatenationWithMember "data_in" rfl
      ⟨_, List.mem_cons_of_mem _ (List.mem_singleton.mpr rfl),
        Or.inr (Or.inr (Or.inl rfl))⟩).2.2.2.1⟩

/-- An operator kind is not in the top-level allow-list and is no
concatenation. -/
theorem not_allowed_of_isOperatorKind (kind : SyntaxKind) (h : isOperatorKind kind = true) :
    isTopLevelAllowed kind = false ∧ kind ≠ .ConcatenationExpression ∧
      isAllowedInPortConnection kind = false := by
  revert h
  cases kind <;> decide

/-- C9 (amended): a named port connection `.name(expr)` whose expression
contains a unary or binary operator gets exactly one diagnostic, at the
expression and with the name of the port in its message, unless the top-level
kind of the expression is in the allow-list of `checkExpression` or the
expression is a concatenation all of whose elements have a kind that
`isAllowedInPortConnection` accepts; in these two cases it gets none, and the
operator lies in a child of the expression. In particular the connection is
reported when the operator is the top-level expression, when it is an element
of a concatenation, and when the top-level kind is any other kind outside the
allow-list, such as parentheses. -/
theorem C9_operator_reported_unless_allow_listed (port : NamedPortConnectionSyntax)
    (expr : ExpressionSyntax) (hparen : port.openParen = true)
    (hexpr : port.expr = some (.SimplePropertyExpr (.SimpleSequenceExpr expr)))
    (hop : ContainsOperator expr) :
    (handleInstanceBody false (some [port]) =
        [⟨DiagCode.NoLogicInPortConnections, expr.sourceRange,
          "logic expression in port connection '" ++ port.name ++
            "' (move logic outside the port instantiation for Quartus compatibility)"⟩] ↔
      (isTopLevelAllowed expr.kind = false ∧ isAllowedConcatenation expr = false)) ∧
      (handleInstanceBody false (some [port]) = [] ↔
        (isTopLevelAllowed expr.kind = true ∨ isAllowedConcatenation expr = true)) ∧
      (handleInstanceBody false (some [port]) = [] →
        isOperatorKind expr.kind = false ∧ ∃ child ∈ expr.expressions, ContainsOperator child) ∧
      ((isOperatorKind expr.kind = true ∨
          (expr.kind = .ConcatenationExpression ∧
            ∃ element ∈ expr.expressions, isOperatorKind element.kind = true) ∨
          (isTopLevelAllowed expr.kind = false ∧ expr.kind ≠ .ConcatenationExpression)) →
        handleInstanceBody false (some [port]) =
          [⟨DiagCode.NoLogicInPortConnections, expr.sourceRange,
            "logic expression in port connection '" ++ port.name ++
              "' (move logic outside the port instantiation for Quartus compatibility)"⟩]) := by
  have hport : handlePort port = checkExpression expr port.name := by
    simp [handlePort, hparen, hexpr, extractExpressionFromProperty,
      extractExpressionFromSequence]
  have hbody : handleInstanceBody false (some [port]) =
      if isTopLevelAllowed expr.kind || isAllowedConcatenation expr then []
      else [⟨DiagCode.NoLogicInPortConnections, expr.sourceRange,
        "logic expression in port connection '" ++ port.name ++
          "' (move logic outside the port instantiation for Quartus compatibility)"⟩] := by
    simp only [handleInstanceBody, Bool.false_eq_true, if_false, List.flatMap_cons,
      List.flatMap_nil, List.append_nil, hport, checkExpression_eq]
    cases isTopLevelAllowed expr.kind || isAllowedConcatenation expr <;> simp [logicMessage]
  have hoperator : isOperatorKind expr.kind = true →
      isTopLevelAllowed expr.kind = false ∧ isAllowedConcatenation expr = false := by
    intro h
    obtain ⟨h1, h2, _⟩ := not_allowed_of_isOperatorKind expr.kind h
    exact ⟨h1, by simp [isAllowedConcatenation, h2]⟩
  have hnone : handleInstanceBody false (some [port]) = [] ↔
      (isTopLevelAllowed expr.kind = true ∨ isAllowedConcatenation expr = true) := by
    rw [hbody]
    cases h1 : isTopLevelAllowed expr.kind <;> cases h2 : isAllowedConcatenation expr <;> simp
  have hreported : handleInstanceBody false (some [port]) =
      [⟨DiagCode.NoLogicInPortConnections, expr.sourceRange,
        "logic expression in port connection '" ++ port.name ++
          "' (move logic outside the port instantiation for Quartus compatibility)"⟩] ↔
      (isTopLevelAllowed expr.kind = false ∧ isAllowedConcatenation expr = false) := by
    rw [hbody]
    cases h1 : isTopLevelAllowed expr.kind <;> cases h2 : isAllowedConcatenation expr <;> simp
  refine ⟨hreported, hnone, ?_, ?_⟩
  · intro hempty
    have hallowed := hnone.mp hempty
    have hnot : isOperatorKind expr.kind = false := by
      cases hk : isOperatorKind expr.kind
      · rfl
      · obtain ⟨h1, h2⟩ := hoperator hk
        rw [h1, h2] at hallowed
        simp at hallowed
    refine ⟨hnot, ?_⟩
    cases hop with
    | atTop kind range children h =>
        simp only [ExpressionSyntax.kind] at hnot
        rw [h] at hnot
        simp at hnot
    | inChild kind range children child hmem h => exact ⟨child, hmem, h⟩
  · intro hcases
    apply hreported.mpr
    rcases hcases with h | ⟨hkind, element, hmem, h⟩ | ⟨h1, h2⟩
    · exact hoperator h
    · have hall : expr.expressions.all (fun e => isAllowedInPortConnection e.kind) = false := by
        rw [List.all_eq_false]
        exact ⟨element, hmem, by simp [(not_allowed_of_isOperatorKind element.kind h).2.2]⟩
      exact ⟨by rw [hkind]; rfl, by simp [isAllowedConcatenation, hall]⟩
    · exact ⟨h1, by simp [isAllowedConcatenation, h2]⟩

/-- C9 (witness): the theorem at the connections `.out(~d)` and `.out((~d))`,
which are reported, and `.data_in({a, bus[i + 1]})`, which is not. -/
theorem C9_operator_reported_witness :
    handleInstanceBody false (some [connection "out" negatedSignal]) =
        [⟨DiagCode.NoLogicInPortConnections, ⟨0, 200⟩,
          "logic expression in port connection '" ++ "out" ++
            "' (move logic outside the port instantiation for Quartus compatibility)"⟩] ∧
      handleInstanceBody false (some [connection "out" parenthesizedNegation]) =
        [⟨DiagCode.NoLogicInPortConnections, ⟨0, 210⟩,
          "logic expression in port connection '" ++ "out" ++
            "' (move logic outside the port instantiation for Quartus compatibility)"⟩] ∧
      handleInstanceBody false (some [connection "data_in" concatenationWithSelect]) = [] :=
  ⟨(C9_operator_reported_unless_allow_listed (connection "out" negatedSignal) negatedSignal
      rfl rfl (.atTop _ _ _ rfl)).1.mpr ⟨rfl, rfl⟩,
    (C9_operator_reported_unless_allow_listed (connection "out" parenthesizedNegation)
      parenthesizedNegation rfl rfl
      (.inChild _ _ _ _ (List.mem_singleton.mpr rfl) (.atTop _ _ _ rfl))).1.mpr ⟨rfl, rfl⟩,
    (C9_operator_reported_unless_allow_listed (connection "data_in" concatenationWithSelect)
      concatenationWithSelect rfl rfl
      (.inChild _ _ _ _ (List.mem_cons_of_mem _ (List.mem_singleton.mpr rfl))
        (.inChild _ _ _ _ (List.mem_singleton.mpr rfl)
          (.inChild _ _ _ _ (List.mem_singleton.mpr rfl)
            (.inChild _ _ _ _ (List.mem_singleton.mpr rfl) (.atTop _ _ _ rfl)))))).2.1.mpr
      (Or.inr rfl)⟩

end NoLogicInPortConnections

/-! ## DefaultNettypeNone.cpp -/

namespace DefaultNettypeNone

/-- A result of `findAt` is a position at or behind `index` at which the
needle occurs. -/
theorem findAt_some (needle rest : List Char) (index i : Nat)
    (h : findAt needle rest index = some i) :
    ∃ k, i = index + k ∧ needle <+: rest.drop k := by
  induction rest generalizing index with
  | nil =>
      by_cases hn : needle.isEmpty = true
      · simp only [findAt, hn, if_true, Option.some.injEq] at h
        refine ⟨0, by omega, ?_⟩
        rw [List.isEmpty_iff] at hn
        simp [hn]
      · simp [findAt, hn] at h
  | cons c cs ih =>
      by_cases hp : needle.isPrefixOf (c :: cs) = true
      · simp only [findAt, hp, if_true, Option.some.injEq] at h
        exact ⟨0, by omega, by simpa using List.isPrefixOf_iff_prefix.mp hp⟩
      · simp only [findAt, hp, if_false] at h
        obtain ⟨k, hk, hpre⟩ := ih (index + 1) h
        exact ⟨k + 1, by omega, by simpa using hpre⟩

/-- A result of `find` is a position at or behind `pos` at which the needle
occurs. -/
theorem find_some (text needle : List Char) (pos i : Nat)
    (h : find text needle pos = some i) : pos ≤ i ∧ needle <+: text.drop i := by
  unfold find at h
  by_cases hpos : pos > text.length
  · simp [hpos] at h
  · simp only [hpos, if_false] at h
    obtain ⟨k, hk, hpre⟩ := findAt_some needle (text.drop pos) pos i h
    refine ⟨by omega, ?_⟩
    rw [List.drop_drop] at hpre
    rw [hk]
    simpa [Nat.add_comm] using hpre

/-- Where the directive occurs, the text is long enough for it and splits
into the directive and the text behind it. -/
theorem drop_eq_of_directive (text : List Char) (pos : Nat)
    (h : directive <+: text.drop pos) :
    text.drop pos = directive ++ text.drop (pos + 16) ∧ pos + 16 ≤ text.length := by
  obtain ⟨t, ht⟩ := h
  have hlen : (text.drop pos).length = 16 + t.length := by
    rw [← ht]
    simp only [directive, List.length_append, List.length_cons, List.length_nil]
  have hdd : text.drop (pos + 16) = (text.drop pos).drop 16 := by
    rw [List.drop_drop]
  have hdrop : text.drop (pos + 16) = t := by
    rw [hdd, ← ht]
    simp [directive]
  rw [List.length_drop] at hlen
  exact ⟨by rw [hdrop, ht], by omega⟩

/-- An occurrence of `none` at or behind an occurrence of the directive lies
behind the whole directive. -/
theorem none_behind_directive (text : List Char) (pos nonePos : Nat)
    (hdir : directive <+: text.drop pos) (hnone : noneText <+: text.drop nonePos)
    (hle : pos ≤ nonePos) : pos + 16 ≤ nonePos := by
  by_contra hlt
  obtain ⟨k, hk⟩ : ∃ k, nonePos = pos + k := ⟨nonePos - pos, by omega⟩
  have hk16 : k < 16 := by omega
  obtain ⟨t, ht⟩ := hnone
  have hsplit := (drop_eq_of_directive text pos hdir).1
  have hdd : text.drop (pos + k) = (text.drop pos).drop k := by
    rw [List.drop_drop]
  rw [hk, hdd, hsplit] at ht
  interval_cases k <;> simp [directive, noneText] at ht

/-- The loop ends, `substr` does not throw, and the loop ends with `true` only
if the text contains the directive followed by `none`. -/
theorem scanLoop_spec (text : List Char) (fuel : Nat) (start : Option Nat)
    (hstart : ∀ p, start = some p → directive <+: text.drop p ∧ text.length < p + fuel) :
    scanLoop text fuel start = some (some false) ∨
      (scanLoop text fuel start = some (some true) ∧ ContainsDirectiveWithNone text) := by
  induction fuel generalizing start with
  | zero =>
      cases start with
      | none => exact Or.inl rfl
      | some p =>
          obtain ⟨hdir, hlen⟩ := hstart p rfl
          have := (drop_eq_of_directive text p hdir).2
          omega
  | succ fuel ih =>
      cases start with
      | none => exact Or.inl rfl
      | some pos =>
          obtain ⟨hdir, hlen⟩ := hstart pos rfl
          obtain ⟨hsplit, hbound⟩ := drop_eq_of_directive text pos hdir
          have hnext := ih (find text directive (pos + 1)) (by
            intro q hq
            obtain ⟨hle, hpre⟩ := find_some text directive (pos + 1) q hq
            exact ⟨hpre, by omega⟩)
          unfold scanLoop
          cases hfind : find text noneText pos with
          | none => simpa using hnext
          | some nonePos =>
              obtain ⟨hle, hnone⟩ := find_some text noneText pos nonePos hfind
              have hbehind := none_behind_directive text pos nonePos hdir hnone hle
              have hsub1 : sizeSub nonePos pos = nonePos - pos := by
                unfold sizeSub; rw [if_pos hle]
              have hsub2 : sizeSub (nonePos - pos) 16 = nonePos - pos - 16 := by
                unfold sizeSub; rw [if_pos (by omega)]
              have hsubstr : substr text (pos + 16) (nonePos - pos - 16) =
                  some ((text.drop (pos + 16)).take (nonePos - pos - 16)) := by
                unfold substr; rw [if_neg (by omega)]
              simp only [hsub1, hsub2, hsubstr]
              by_cases hnear : nonePos - pos < 20
              · by_cases hws :
                    onlyWhitespace ((text.drop (pos + 16)).take (nonePos - pos - 16)) = true
                · simp only [hnear, if_true, hws]
                  refine Or.inr ⟨trivial, ?_⟩
                  obtain ⟨post, hpost⟩ := hnone
                  refine ⟨text.take pos, (text.drop (pos + 16)).take (nonePos - pos - 16), post,
                    ?_, ?_⟩
                  · have h1 : text = text.take pos ++ text.drop pos :=
                      (List.take_append_drop pos text).symm
                    have h2 : text.drop (pos + 16) =
                        (text.drop (pos + 16)).take (nonePos - pos - 16) ++
                          (text.drop (pos + 16)).drop (nonePos - pos - 16) :=
                      (List.take_append_drop _ _).symm
                    have h3 : (text.drop (pos + 16)).drop (nonePos - pos - 16) =
                        text.drop nonePos := by
                      rw [List.drop_drop]
                      congr 1
                      omega
                    rw [h3, ← hpost] at h2
                    rw [h2] at hsplit
                    rw [hsplit] at h1
                    simpa [List.append_assoc] using h1
                  · intro c hc
                    have := List.all_eq_true.mp hws c hc
                    by_cases hb : c = ' '
                    · exact Or.inl hb
                    · by_cases ht : c = '\t'
                      · exact Or.inr ht
                      · simp [hb, ht] at this
                · simpa [hnear, hws] using hnext
              · simpa [hnear] using hnext

/-- The loop of `checkSyntaxTree` ends with a value of `hasDefaultNettypeNone`,
and that value is `true` only if the text contains the directive followed by
`none`. -/
theorem hasDefaultNettypeNone_spec (text : List Char) :
    hasDefaultNettypeNone text = some (some false) ∨
      (hasDefaultNettypeNone text = some (some true) ∧ ContainsDirectiveWithNone text) := by
  unfold hasDefaultNettypeNone
  apply scanLoop_spec
  intro p hp
  exact ⟨(find_some text directive 0 p hp).2, by omega⟩

/-- A text with the directive followed by `none` holds a grave accent. -/
theorem graveAccent_mem_of_contains (text : List Char) (h : ContainsDirectiveWithNone text) :
    Char.ofNat 96 ∈ text := by
  obtain ⟨pre, ws, post, htext, _⟩ := h
  rw [htext]
  simp [directive]

/-- C10: for a file whose text does not contain the directive followed by
`none`, `checkSyntaxTree` returns normally with exactly one diagnostic, which
is anchored at the start of the root of the syntax tree of the file. -/
theorem C10_missing_directive_reported_once (getSourceText : Nat → List Char)
    (tree : SyntaxTree)
    (h : ¬ ContainsDirectiveWithNone (getSourceText tree.rootStart.buffer)) :
    checkSyntaxTree getSourceText tree =
        some [⟨DiagCode.DefaultNettypeNone, tree.rootStart, ""⟩] ∧
      handleRoot getSourceText [tree] =
        some [⟨DiagCode.DefaultNettypeNone, tree.rootStart, ""⟩] := by
  have hcheck : checkSyntaxTree getSourceText tree =
      some [⟨DiagCode.DefaultNettypeNone, tree.rootStart, ""⟩] := by
    unfold checkSyntaxTree
    rcases hasDefaultNettypeNone_spec (getSourceText tree.rootStart.buffer) with hf | ⟨_, hc⟩
    · simp only [hf]
    · exact absurd hc h
  exact ⟨hcheck, by simp [handleRoot, hcheck]⟩

/-- C10 (witness): the theorem at the file of the test "File without
default_nettype none". -/
theorem C10_missing_directive_witness :
    checkSyntaxTree sourceWithoutDirective ⟨⟨1, 1⟩⟩ =
        some [⟨DiagCode.DefaultNettypeNone, ⟨1, 1⟩, ""⟩] ∧
      handleRoot sourceWithoutDirective [⟨⟨1, 1⟩⟩] =
        some [⟨DiagCode.DefaultNettypeNone, ⟨1, 1⟩, ""⟩] :=
  C10_missing_directive_reported_once sourceWithoutDirective ⟨⟨1, 1⟩⟩
    (fun h => absurd (graveAccent_mem_of_contains _ h) (by decide))

/-- An occurrence of the needle at or behind `index` makes `findAt` return a
position that is not behind it. -/
theorem findAt_complete (needle rest : List Char) (index k : Nat)
    (hk : k ≤ rest.length) (hpre : needle <+: rest.drop k) :
    ∃ i, findAt needle rest index = some i ∧ i ≤ index + k := by
  induction rest generalizing index k with
  | nil =>
      have hnil : needle = [] := by simpa using hpre
      exact ⟨index, by simp [findAt, hnil], by omega⟩
  | cons c cs ih =>
      by_cases hp : needle.isPrefixOf (c :: cs) = true
      · exact ⟨index, by simp [findAt, hp], by omega⟩
      · cases k with
        | zero =>
            exact absurd (List.isPrefixOf_iff_prefix.mpr (by simpa using hpre)) hp
        | succ k' =>
            obtain ⟨i, hi, hle⟩ := ih (index + 1) k' (by simpa using hk) (by simpa using hpre)
            exact ⟨i, by simp only [findAt, hp, if_false]; exact hi, by omega⟩

/-- An occurrence of the needle at a position `j` at or behind `pos` makes
`find` return a position between `pos` and `j`. -/
theorem find_complete (text needle : List Char) (pos j : Nat) (hle : pos ≤ j)
    (hj : j ≤ text.length) (hpre : needle <+: text.drop j) :
    ∃ i, find text needle pos = some i ∧ i ≤ j := by
  obtain ⟨k, hk⟩ : ∃ k, j = pos + k := ⟨j - pos, by omega⟩
  have hdd : text.drop (pos + k) = (text.drop pos).drop k := by rw [List.drop_drop]
  rw [hk, hdd] at hpre
  obtain ⟨i, hi, hik⟩ := findAt_complete needle (text.drop pos) pos k
    (by rw [List.length_drop]; omega) hpre
  refine ⟨i, ?_, by omega⟩
  unfold find
  rw [if_neg (by omega)]
  exact hi

/-- The step at which the loop accepts: an occurrence of the directive at
`pos`, an occurrence of `none` at `nonePos` less than 20 characters behind
it, and only blanks and tabs between them. -/
theorem near_of_accept (text : List Char) (pos nonePos : Nat)
    (hdir : directive <+: text.drop pos) (hnone : noneText <+: text.drop nonePos)
    (hbehind : pos + 16 ≤ nonePos) (hnear : nonePos - pos < 20)
    (hws : onlyWhitespace ((text.drop (pos + 16)).take (nonePos - pos - 16)) = true) :
    ContainsDirectiveNear text := by
  obtain ⟨hsplit, _⟩ := drop_eq_of_directive text pos hdir
  obtain ⟨post, hpost⟩ := hnone
  refine ⟨text.take pos, (text.drop (pos + 16)).take (nonePos - pos - 16), post, ?_, ?_, ?_⟩
  · have h1 : text = text.take pos ++ text.drop pos := (List.take_append_drop pos text).symm
    have h2 : text.drop (pos + 16) =
        (text.drop (pos + 16)).take (nonePos - pos - 16) ++
          (text.drop (pos + 16)).drop (nonePos - pos - 16) :=
      (List.take_append_drop _ _).symm
    have h3 : (text.drop (pos + 16)).drop (nonePos - pos - 16) = text.drop nonePos := by
      rw [List.drop_drop]
      congr 1
      omega
    rw [h3, ← hpost] at h2
    rw [h2] at hsplit
    rw [hsplit] at h1
    simpa [List.append_assoc] using h1
  · intro c hc
    have := List.all_eq_true.mp hws c hc
    by_cases hb : c = ' '
    · exact Or.inl hb
    · by_cases ht : c = '\t'
      · exact Or.inr ht
      · simp [hb, ht] at this
  · rw [List.length_take]
    omega

/-- The loop ends with `true` only if the text contains the directive followed
by at most 3 blanks and tabs and `none`. -/
theorem scanLoop_sound_near (text : List Char) (fuel : Nat) (start : Option Nat)
    (hstart : ∀ p, start = some p → directive <+: text.drop p)
    (htrue : scanLoop text fuel start = some (some true)) : ContainsDirectiveNear text := by
  induction fuel generalizing start with
  | zero =>
      cases start with
      | none => simp [scanLoop] at htrue
      | some p => simp [scanLoop] at htrue
  | succ fuel ih =>
      cases start with
      | none => simp [scanLoop] at htrue
      | some pos =>
          have hdir := hstart pos rfl
          have hnext : scanLoop text fuel (find text directive (pos + 1)) = some (some true) →
              ContainsDirectiveNear text :=
            ih (find text directive (pos + 1))
              (fun q hq => (find_some text directive (pos + 1) q hq).2)
          unfold scanLoop at htrue
          cases hfind : find text noneText pos with
          | none =>
              rw [hfind] at htrue
              exact hnext htrue
          | some nonePos =>
              rw [hfind] at htrue
              obtain ⟨hle, hnone⟩ := find_some text noneText pos nonePos hfind
              have hbehind := none_behind_directive text pos nonePos hdir hnone hle
              have hbound := (drop_eq_of_directive text pos hdir).2
              have hsub1 : sizeSub nonePos pos = nonePos - pos := by
                unfold sizeSub; rw [if_pos hle]
              have hsub2 : sizeSub (nonePos - pos) 16 = nonePos - pos - 16 := by
                unfold sizeSub; rw [if_pos (by omega)]
              have hsubstr : substr text (pos + 16) (nonePos - pos - 16) =
                  some ((text.drop (pos + 16)).take (nonePos - pos - 16)) := by
                unfold substr; rw [if_neg (by omega)]
              simp only [hsub1, hsub2, hsubstr] at htrue
              by_cases hnear : nonePos - pos < 20
              · by_cases hws :
                    onlyWhitespace ((text.drop (pos + 16)).take (nonePos - pos - 16)) = true
                · exact near_of_accept text pos nonePos hdir hnone hbehind hnear hws
                · simp only [hnear, if_true, hws] at htrue
                  exact hnext htrue
              · simp only [hnear, if_false] at htrue
                exact hnext htrue

/-- From an occurrence of the directive at or before one that is followed by at
most 3 blanks and tabs and `none`, the loop ends with `true`. -/
theorem scanLoop_complete (text : List Char) (target : Nat) (ws post : List Char)
    (htarget : directive <+: text.drop target)
    (hrest : text.drop (target + 16) = ws ++ (noneText ++ post))
    (hws : ∀ c ∈ ws, c = ' ' ∨ c = '\t') (hlen : ws.length ≤ 3)
    (fuel pos : Nat) (hdir : directive <+: text.drop pos) (hle : pos ≤ target)
    (hfuel : text.length < pos + fuel) :
    scanLoop text fuel (some pos) = some (some true) := by
  have htbound := (drop_eq_of_directive text target htarget).2
  have hnoneAt : noneText <+: text.drop (target + 16 + ws.length) := by
    have hdd : text.drop (target + 16 + ws.length) = (text.drop (target + 16)).drop ws.length := by
      rw [List.drop_drop]
    rw [hdd, hrest, List.drop_left]
    exact ⟨post, rfl⟩
  have hnbound : target + 16 + ws.length ≤ text.length := by
    have h := congrArg List.length hrest
    simp only [List.length_drop, List.length_append, noneText, List.length_cons,
      List.length_nil] at h
    omega
  induction fuel generalizing pos with
  | zero =>
      have := (drop_eq_of_directive text pos hdir).2
      omega
  | succ fuel ih =>
      obtain ⟨nonePos, hfind, hnp⟩ := find_complete text noneText pos (target + 16 + ws.length)
        (by omega) hnbound hnoneAt
      obtain ⟨hle', hnone⟩ := find_some text noneText pos nonePos hfind
      have hbehind := none_behind_directive text pos nonePos hdir hnone hle'
      have hbound := (drop_eq_of_directive text pos hdir).2
      have hnext : pos ≠ target →
          scanLoop text fuel (find text directive (pos + 1)) = some (some true) := by
        intro hne
        obtain ⟨q, hq, hqle⟩ := find_complete text directive (pos + 1) target (by omega)
          (by omega) htarget
        obtain ⟨hqge, hqdir⟩ := find_some text directive (pos + 1) q hq
        rw [hq]
        exact ih q hqdir hqle (by omega)
      have hat : pos = target → nonePos - pos < 20 ∧
          onlyWhitespace ((text.drop (pos + 16)).take (nonePos - pos - 16)) = true := by
        intro heq
        subst heq
        refine ⟨by omega, ?_⟩
        rw [hrest, List.take_append_of_le_length (by omega)]
        unfold onlyWhitespace
        rw [List.all_eq_true]
        intro c hc
        rcases hws c (List.mem_of_mem_take hc) with h | h <;> subst h <;> decide
      have hsub1 : sizeSub nonePos pos = nonePos - pos := by
        unfold sizeSub; rw [if_pos hle']
      have hsub2 : sizeSub (nonePos - pos) 16 = nonePos - pos - 16 := by
        unfold sizeSub; rw [if_pos (by omega)]
      have hsubstr : substr text (pos + 16) (nonePos - pos - 16) =
          some ((text.drop (pos + 16)).take (nonePos - pos - 16)) := by
        unfold substr; rw [if_neg (by omega)]
      unfold scanLoop
      simp only [hfind, hsub1, hsub2, hsubstr]
      by_cases hnear : nonePos - pos < 20
      · by_cases hwsb :
            onlyWhitespace ((text.drop (pos + 16)).take (nonePos - pos - 16)) = true
        · simp only [hnear, if_true, hwsb]
        · simp only [hnear, if_true, hwsb]
          exact hnext (fun heq => hwsb (hat heq).2)
      · simp only [hnear, if_false]
        exact hnext (fun heq => hnear (hat heq).1)

/-- The loop of `checkSyntaxTree` ends with `true` exactly when the text
contains the directive followed by at most 3 blanks and tabs and `none`, and
with `false` otherwise. -/
theorem hasDefaultNettypeNone_iff_near (text : List Char) :
    (hasDefaultNettypeNone text = some (some true) ↔ ContainsDirectiveNear text) ∧
      (hasDefaultNettypeNone text = some (some false) ↔ ¬ ContainsDirectiveNear text) := by
  have hsound : hasDefaultNettypeNone text = some (some true) → ContainsDirectiveNear text :=
    scanLoop_sound_near text _ _ (fun p hp => (find_some text directive 0 p hp).2)
  have hcomplete : ContainsDirectiveNear text → hasDefaultNettypeNone text = some (some true) := by
    rintro ⟨pre, ws, post, htext, hws, hlen⟩
    have hdrop : text.drop pre.length = directive ++ (ws ++ (noneText ++ post)) := by
      rw [htext]
      simp only [List.append_assoc]
      exact List.drop_left _ _
    have htarget : directive <+: text.drop pre.length := ⟨_, hdrop.symm⟩
    obtain ⟨hsplit, hbound⟩ := drop_eq_of_directive text pre.length htarget
    have hrest : text.drop (pre.length + 16) = ws ++ (noneText ++ post) := by
      rw [hsplit] at hdrop
      exact List.append_cancel_left hdrop
    obtain ⟨q, hq, hqle⟩ := find_complete text directive 0 pre.length (by omega) (by omega) htarget
    unfold hasDefaultNettypeNone
    rw [hq]
    exact scanLoop_complete text pre.length ws post htarget hrest hws hlen _ q
      (find_some text directive 0 q hq).2 hqle (by omega)
  refine ⟨⟨hsound, hcomplete⟩, ?_, ?_⟩
  · intro hfalse hnear
    rw [hcomplete hnear] at hfalse
    simp at hfalse
  · intro hnot
    rcases hasDefaultNettypeNone_spec text with hf | ⟨ht, _⟩
    · exact hf
    · exact absurd (hsound ht) hnot

/-- What `checkSyntaxTree` returns: the diagnostic of the tree when the text of
its buffer lacks the directive, nothing otherwise. -/
theorem checkSyntaxTree_eq (getSourceText : Nat → List Char) (tree : SyntaxTree) :
    checkSyntaxTree getSourceText tree =
      some (if lacksDirective (getSourceText tree.rootStart.buffer) then [missingDirective tree]
        else []) := by
  unfold checkSyntaxTree lacksDirective missingDirective
  rcases hasDefaultNettypeNone_spec (getSourceText tree.rootStart.buffer) with hf | ⟨ht, _⟩
  · simp [hf]
  · simp [ht]

/-- Blanks and tabs in front of `none` are dropped by `followedByNone`. -/
theorem followedByNone_of_blanks (ws post : List Char) (hws : ∀ c ∈ ws, c = ' ' ∨ c = '\t') :
    followedByNone (ws ++ (noneText ++ post)) = true := by
  induction ws with
  | nil => simp [followedByNone, noneText, List.dropWhile_cons, List.isPrefixOf]
  | cons c cs ih =>
      have hc : (c == ' ' || c == '\t') = true := by
        rcases hws c (List.mem_cons_self _ _) with h | h <;> subst h <;> decide
      have ih' := ih (fun d hd => hws d (List.mem_cons_of_mem _ hd))
      unfold followedByNone at ih' ⊢
      simpa [List.dropWhile_cons, hc] using ih'

/-- The decision procedure finds every occurrence of the directive that is
followed by `none`. -/
theorem containsDirectiveWithNone_of_contains (text : List Char)
    (h : ContainsDirectiveWithNone text) : containsDirectiveWithNone text = true := by
  obtain ⟨pre, ws, post, htext, hws⟩ := h
  have htext' : text = pre ++ (directive ++ (ws ++ (noneText ++ post))) := by
    rw [htext]; simp only [List.append_assoc]
  rw [htext']
  clear htext htext'
  induction pre with
  | nil =>
      have hf := followedByNone_of_blanks ws post hws
      simp [directive, containsDirectiveWithNone, List.isPrefixOf, hf]
  | cons c cs ih =>
      have hstep : ∀ rest : List Char, containsDirectiveWithNone (c :: rest) =
          ((directive.isPrefixOf (c :: rest) && followedByNone ((c :: rest).drop 16)) ||
            containsDirectiveWithNone rest) := fun _ => rfl
      rw [List.cons_append, hstep, ih, Bool.or_true]

/-- C11 (counterexample): a file that begins with the directive, 4 blanks and
`none` contains the directive followed by horizontal whitespace only and
`none`, and it is reported. -/
theorem C11_four_blanks_reported :
    sourceWithFourBlanks 1 =
        [] ++ directive ++ [' ', ' ', ' ', ' '] ++ noneText ++
          "\nmodule top ();\nendmodule\n".toList ∧
      ContainsDirectiveWithNone (sourceWithFourBlanks 1) ∧
      checkSyntaxTree sourceWithFourBlanks ⟨⟨1, 0⟩⟩ =
        some [⟨DiagCode.DefaultNettypeNone, ⟨1, 0⟩, ""⟩] := by
  refine ⟨by decide, ⟨[], [' ', ' ', ' ', ' '], "\nmodule top ();\nendmodule\n".toList,
    by decide, by decide⟩, by decide⟩

/-- C11 (amended): for a file whose text contains the directive followed by at
most 3 blanks and tabs and then `none`, `checkSyntaxTree` returns normally
without a diagnostic. -/
theorem C11_directive_within_window_accepted (getSourceText : Nat → List Char)
    (tree : SyntaxTree) (pre ws post : List Char)
    (htext : getSourceText tree.rootStart.buffer = pre ++ directive ++ ws ++ noneText ++ post)
    (hws : ∀ c ∈ ws, c = ' ' ∨ c = '\t') (hlen : ws.length ≤ 3) :
    checkSyntaxTree getSourceText tree = some [] ∧
      handleRoot getSourceText [tree] = some [] := by
  have hnear : ContainsDirectiveNear (getSourceText tree.rootStart.buffer) :=
    ⟨pre, ws, post, htext, hws, hlen⟩
  have htrue := (hasDefaultNettypeNone_iff_near _).1.2 hnear
  have hcheck : checkSyntaxTree getSourceText tree = some [] := by
    unfold checkSyntaxTree
    simp only [htrue]
  exact ⟨hcheck, by simp [handleRoot, hcheck]⟩

/-- C11 (witness): the theorem at a file that begins with the directive, one
blank and `none`. -/
theorem C11_directive_within_window_witness :
    checkSyntaxTree sourceWithDirective ⟨⟨1, 0⟩⟩ = some [] ∧
      handleRoot sourceWithDirective [⟨⟨1, 0⟩⟩] = some [] :=
  C11_directive_within_window_accepted sourceWithDirective ⟨⟨1, 0⟩⟩ [] [' ']
    "\n\nmodule top ();\nendmodule\n".toList (by decide) (by decide) (by decide)

/-- C12: for a file in which every occurrence of the directive is followed,
behind its blanks and tabs, by something else than `none`, `checkSyntaxTree`
returns normally with the diagnostic of the missing directive. -/
theorem C12_other_argument_reported (getSourceText : Nat → List Char) (tree : SyntaxTree)
    (h : ∀ pre ws post : List Char,
      getSourceText tree.rootStart.buffer = pre ++ directive ++ ws ++ post →
        (∀ c ∈ ws, c = ' ' ∨ c = '\t') → ¬ noneText <+: post) :
    checkSyntaxTree getSourceText tree =
        some [⟨DiagCode.DefaultNettypeNone, tree.rootStart, ""⟩] ∧
      handleRoot getSourceText [tree] =
        some [⟨DiagCode.DefaultNettypeNone, tree.rootStart, ""⟩] := by
  have hnot : ¬ ContainsDirectiveWithNone (getSourceText tree.rootStart.buffer) := by
    rintro ⟨pre, ws, post, htext, hws⟩
    refine h pre ws (noneText ++ post) ?_ hws ⟨post, rfl⟩
    rw [htext]
    simp only [List.append_assoc]
  have hcheck : checkSyntaxTree getSourceText tree =
      some [⟨DiagCode.DefaultNettypeNone, tree.rootStart, ""⟩] := by
    unfold checkSyntaxTree
    rcases hasDefaultNettypeNone_spec (getSourceText tree.rootStart.buffer) with hf | ⟨_, hc⟩
    · simp only [hf]
    · exact absurd hc hnot
  exact ⟨hcheck, by simp [handleRoot, hcheck]⟩

/-- C12 (witness): the theorem at a file that begins with the directive and the
argument `wire`. -/
theorem C12_other_argument_witness :
    directive <+: sourceWithWire 1 ∧
      checkSyntaxTree sourceWithWire ⟨⟨1, 0⟩⟩ =
        some [⟨DiagCode.DefaultNettypeNone, ⟨1, 0⟩, ""⟩] ∧
      handleRoot sourceWithWire [⟨⟨1, 0⟩⟩] =
        some [⟨DiagCode.DefaultNettypeNone, ⟨1, 0⟩, ""⟩] :=
  ⟨⟨" wire\n\nmodule top ();\nendmodule\n".toList, by decide⟩,
    C12_other_argument_reported sourceWithWire ⟨⟨1, 0⟩⟩ (by
      rintro pre ws post htext hws ⟨rest, hrest⟩
      have hcontains : ContainsDirectiveWithNone (sourceWithWire 1) :=
        ⟨pre, ws, rest, by rw [htext, ← hrest]; simp only [List.append_assoc], hws⟩
      exact absurd (containsDirectiveWithNone_of_contains _ hcontains) (by decide))⟩

/-- C13 (failing input): in a file that holds a module declaration and, behind
it, the directive with `none`, the directive is not at the beginning of the
file; `checkSyntaxTree` adds no diagnostic for it. -/
theorem C13_late_directive_accepted :
    sourceWithLateDirective 1 =
        "module top ();\nendmodule\n".toList ++ directive ++ " none\n".toList ∧
      find (sourceWithLateDirective 1) directive 0 = some 25 ∧
      checkSyntaxTree sourceWithLateDirective ⟨⟨1, 0⟩⟩ = some [] := by
  refine ⟨by decide, by decide, by decide⟩

/-- C14: in a compilation with several files every file is checked on its own.
The diagnostics are those of the files that are reported when checked alone,
in order, so their number is the number of such files; a file is reported
exactly when its own text lacks the directive (followed by at most 3 blanks
and tabs and `none`); and the result for a file only depends on the text of
the buffer of that file. -/
theorem C14_files_checked_independently (getSourceText : Nat → List Char)
    (trees : List SyntaxTree) :
    handleRoot getSourceText trees =
        some ((trees.filter (fun tree =>
          lacksDirective (getSourceText tree.rootStart.buffer))).map missingDirective) ∧
      (handleRoot getSourceText trees).map List.length =
        some (trees.countP (fun tree => lacksDirective (getSourceText tree.rootStart.buffer))) ∧
      (∀ tree ∈ trees, lacksDirective (getSourceText tree.rootStart.buffer) = true ↔
        ¬ ContainsDirectiveNear (getSourceText tree.rootStart.buffer)) ∧
      (∀ tree ∈ trees, ∀ otherSourceText : Nat → List Char,
        otherSourceText tree.rootStart.buffer = getSourceText tree.rootStart.buffer →
          checkSyntaxTree otherSourceText tree = checkSyntaxTree getSourceText tree) := by
  have hroot : handleRoot getSourceText trees =
      some ((trees.filter (fun tree =>
        lacksDirective (getSourceText tree.rootStart.buffer))).map missingDirective) := by
    induction trees with
    | nil => rfl
    | cons tree rest ih =>
        simp only [handleRoot, checkSyntaxTree_eq, ih, List.filter_cons]
        cases lacksDirective (getSourceText tree.rootStart.buffer) <;> simp
  refine ⟨hroot, ?_, ?_, ?_⟩
  · rw [hroot]
    simp [List.countP_eq_length_filter]
  · intro tree _
    simp only [lacksDirective, decide_eq_true_eq]
    exact (hasDefaultNettypeNone_iff_near _).2
  · intro tree _ otherSourceText hsame
    simp only [checkSyntaxTree, hsame]

/-- C34: `checkSyntaxTree` returns normally; it adds no diagnostic exactly when
the text of the file contains the 16 characters of the directive, then at most
3 characters that are each a blank or a tab, then the 4 characters `none`, and
it adds the diagnostic of the file exactly when the text does not. -/
theorem C34_present_iff_within_window (getSourceText : Nat → List Char) (tree : SyntaxTree) :
    directive.length = 16 ∧ noneText.length = 4 ∧
      (hasDefaultNettypeNone (getSourceText tree.rootStart.buffer) = some (some true) ↔
        ContainsDirectiveNear (getSourceText tree.rootStart.buffer)) ∧
      (checkSyntaxTree getSourceText tree = some [] ↔
        ContainsDirectiveNear (getSourceText tree.rootStart.buffer)) ∧
      (checkSyntaxTree getSourceText tree =
          some [⟨DiagCode.DefaultNettypeNone, tree.rootStart, ""⟩] ↔
        ¬ ContainsDirectiveNear (getSourceText tree.rootStart.buffer)) := by
  obtain ⟨htrue, hfalse⟩ := hasDefaultNettypeNone_iff_near (getSourceText tree.rootStart.buffer)
  refine ⟨rfl, rfl, htrue, ?_, ?_⟩
  · rw [← htrue]
    unfold checkSyntaxTree
    rcases hasDefaultNettypeNone_spec (getSourceText tree.rootStart.buffer) with hf | ⟨ht, _⟩
    · simp [hf]
    · simp [ht]
  · rw [← hfalse]
    unfold checkSyntaxTree
    rcases hasDefaultNettypeNone_spec (getSourceText tree.rootStart.buffer) with hf | ⟨ht, _⟩
    · simp [hf]
    · simp [ht]

/-- C39: when `pos` is a position at which `find` found the directive and
`nonePos` the position at which `find` then found `none` from `pos` on, then
`nonePos` is at least `pos + 16`: the two `size_t` subtractions of
`nonePos - pos - 16` do not wrap around, the start `pos + 16` of the substring
lies within the text and `substr` does not throw. The loop as a whole never
leaves through that exception. -/
theorem C39_substr_arguments_in_range (text : List Char) (start pos nonePos : Nat)
    (hpos : find text directive start = some pos)
    (hnone : find text noneText pos = some nonePos) :
    nonePos ≥ pos + 16 ∧ sizeSub nonePos pos = nonePos - pos ∧
      sizeSub (sizeSub nonePos pos) 16 = nonePos - (pos + 16) ∧
      pos + 16 ≤ text.length ∧
      substr text (pos + 16) (sizeSub (sizeSub nonePos pos) 16) =
        some ((text.drop (pos + 16)).take (nonePos - (pos + 16))) ∧
      hasDefaultNettypeNone text ≠ some none ∧ hasDefaultNettypeNone text ≠ none := by
  have hdir := (find_some text directive start pos hpos).2
  obtain ⟨hle, hocc⟩ := find_some text noneText pos nonePos hnone
  have hbehind := none_behind_directive text pos nonePos hdir hocc hle
  have hbound := (drop_eq_of_directive text pos hdir).2
  have h1 : sizeSub nonePos pos = nonePos - pos := by
    unfold sizeSub
    rw [if_pos hle]
  have h2 : sizeSub (sizeSub nonePos pos) 16 = nonePos - (pos + 16) := by
    rw [h1]
    unfold sizeSub
    rw [if_pos (by omega)]
    omega
  refine ⟨hbehind, h1, h2, hbound, ?_, ?_, ?_⟩
  · rw [h2]
    unfold substr
    rw [if_neg (by omega)]
  · rcases hasDefaultNettypeNone_spec text with hf | ⟨ht, _⟩
    · simp [hf]
    · simp [ht]
  · rcases hasDefaultNettypeNone_spec text with hf | ⟨ht, _⟩
    · simp [hf]
    · simp [ht]

/-- C39 (witness): the theorem at the file of the test "File with
default_nettype none", where the directive is found at position 0 and `none`
at position 17. -/
theorem C39_substr_arguments_witness :
    17 ≥ 0 + 16 ∧ sizeSub 17 0 = 17 - 0 ∧ sizeSub (sizeSub 17 0) 16 = 17 - (0 + 16) ∧
      0 + 16 ≤ (sourceWithDirective 1).length ∧
      substr (sourceWithDirective 1) (0 + 16) (sizeSub (sizeSub 17 0) 16) =
        some (((sourceWithDirective 1).drop (0 + 16)).take (17 - (0 + 16))) ∧
      hasDefaultNettypeNone (sourceWithDirective 1) ≠ some none ∧
      hasDefaultNettypeNone (sourceWithDirective 1) ≠ none :=
  C39_substr_arguments_in_range (sourceWithDirective 1) 0 0 17 (by decide) (by decide)

end DefaultNettypeNone
